import Mathlib

/-!
Shallow embedding of the SuperSrg mapping core (src/native/src), used to check
the natural-language specification against the code.

Modelling conventions:
* Rust strings are modelled as byte lists (`Str := List Nat`).  String equality
  in Rust is byte equality, and every byte-level search performed by the code
  (`find(';')`, `find(')')`, ...) looks for an ASCII byte, which in valid UTF-8
  can only occur on a character boundary, so the byte-level model agrees with
  Rust's char-level operations.  UTF-8 validity checks performed by the code
  are not modelled (in the model every byte list is a string); no claim in
  scope depends on rejecting invalid UTF-8.
* `OrderMap` (the ordered hash map used throughout) is modelled as an
  association list with the same insert semantics: inserting an existing key
  overwrites the value in place, inserting a new key appends.
* Rust panics (`assert!`, `expect`, `unwrap`) are modelled by `Option`/`Except`
  failure.
-/

namespace SuperSrg

/-- A Rust string / byte buffer, as its list of bytes. -/
abbrev Str := List Nat

/-- Byte list of an ASCII string literal (for concrete inputs). -/
def strBytes (s : String) : Str := s.toList.map Char.toNat

/-- Rust slice `&s[a..b]`. -/
def strSlice (s : Str) (a b : Nat) : Str := (s.take b).drop a

section OrderMapModel

variable {α : Type} {β : Type} [DecidableEq α]

/-- `OrderMap::get`: value of the first (unique) entry with the given key. -/
def omGet (m : List (α × β)) (k : α) : Option β :=
  (m.find? (fun p => p.1 = k)).map Prod.snd

/-- `OrderMap::contains_key`. -/
def omMem (m : List (α × β)) (k : α) : Bool :=
  m.any (fun p => p.1 = k)

/-- `OrderMap::insert`: overwrite in place when the key is present, append otherwise. -/
def omInsert (m : List (α × β)) (k : α) (v : β) : List (α × β) :=
  if omMem m k then m.map (fun p => if p.1 = k then (p.1, v) else p)
  else m ++ [(k, v)]

/-- `OrderMap::entry(k).or_insert_with(default)` followed by an in-place update
of the entry through `f` (used by the binary encoder's `known_classes`). -/
def omEntryModify (m : List (α × β)) (k : α) (dflt : β) (f : β → β) : List (α × β) :=
  if omMem m k then m.map (fun p => if p.1 = k then (p.1, f p.2) else p)
  else m ++ [(k, f dflt)]

end OrderMapModel

/-! ### Name and descriptor model (src/native/src/types.rs) -/

/-- `PrimitiveType` of `types.rs`. -/
inductive PrimitiveType
  | byte | short | int | long | double | float | char | boolean | void
  deriving DecidableEq

/-- `PrimitiveType::descriptor`, as the ASCII byte of the descriptor char. -/
def PrimitiveType.descByte : PrimitiveType → Nat
  | .byte => 66    -- B
  | .short => 83   -- S
  | .int => 73     -- I
  | .long => 74    -- J
  | .double => 68  -- D
  | .float => 70   -- F
  | .char => 67    -- C
  | .boolean => 90 -- Z
  | .void => 86    -- V

/-- `PrimitiveType::from_descriptor`. -/
def PrimitiveType.fromDescByte (c : Nat) : Option PrimitiveType :=
  if c = 66 then some .byte
  else if c = 83 then some .short
  else if c = 73 then some .int
  else if c = 74 then some .long
  else if c = 68 then some .double
  else if c = 70 then some .float
  else if c = 67 then some .char
  else if c = 90 then some .boolean
  else if c = 86 then some .void
  else none

/-- `JavaType` of `types.rs` (class names already resolved to their name string). -/
inductive JavaType
  | primitive (p : PrimitiveType)
  | array (dimensions : Nat) (elementType : JavaType)
  | classRef (name : Str)
  deriving DecidableEq

/-- `TypeDescriptorParseError` of `types.rs`. -/
inductive TypeDescParseError
  | emptyDescriptor
  | unexpectedlyLong (expected actual : Nat)
  | unclosedClassDescriptor
  | invalidStart (c : Nat)
  | emptyArray (dimensions : Nat)
  | invalidElementDescriptor (dimensions : Nat) (cause : TypeDescParseError)
  deriving DecidableEq

/-- Rust `str::find`: index of the first byte satisfying `p`. -/
def firstIdx (p : Nat → Bool) : Str → Option Nat
  | [] => none
  | a :: l => if p a then some 0 else (firstIdx p l).map (· + 1)

/-- The `'L'`/primitive cases of `JavaType::partially_parse_descriptor`.
In the source the `'['` case strips every leading `'['` and then recurses on
the remainder, which therefore never starts with another `'['`; the recursive
call is thus equivalent to this non-array parse (an input starting with `'['`
cannot reach it from `parsePartialDescriptor`, and on such an input the
primitive lookup fails exactly like the source's recursion would after
re-stripping). -/
def parseElementDescriptor (d : Str) : Except TypeDescParseError (Nat × JavaType) :=
  match d with
  | [] => .error .emptyDescriptor
  | start :: _ =>
    if start = 76 then  -- 'L'
      match firstIdx (fun c => c = 59) d with  -- first ';'
      | some endi => .ok (endi + 1, .classRef (strSlice d 1 endi))
      | none => .error .unclosedClassDescriptor
    else
      match PrimitiveType.fromDescByte start with
      | some p => .ok (1, .primitive p)
      | none => .error (.invalidStart start)

/-- `JavaType::partially_parse_descriptor`: parse one type descriptor at the
head of `d`, returning the number of bytes consumed. -/
def parsePartialDescriptor (d : Str) : Except TypeDescParseError (Nat × JavaType) :=
  match d with
  | [] => .error .emptyDescriptor
  | start :: _ =>
    if start = 91 then  -- '['
      -- `descriptor.find(|c| c != '[')`: the count of leading `'['` bytes
      let dims := (d.takeWhile (fun c => c = 91)).length
      if dims < d.length then
        match parseElementDescriptor (d.drop dims) with
        | .ok (size, elementType) => .ok (size + dims, .array dims elementType)
        | .error cause => .error (.invalidElementDescriptor dims cause)
      else .error (.emptyArray d.length)
    else parseElementDescriptor d

/-- `JavaType::parse_descriptor`: the whole string must be consumed. -/
def parseTypeDescriptor (d : Str) : Except TypeDescParseError JavaType :=
  match parsePartialDescriptor d with
  | .error e => .error e
  | .ok (size, result) =>
    if size < d.length then .error (.unexpectedlyLong size d.length)
    else .ok result

/-- `JavaType::write_descriptor` (returning the written bytes). -/
def JavaType.writeDescriptor : JavaType → Str
  | .classRef name => 76 :: name ++ [59]
  | .array dimensions elementType =>
      List.replicate dimensions 91 ++ elementType.writeDescriptor
  | .primitive p => [p.descByte]

/-- `JavaType::remap_class`.  The source panics on a directly nested array
(`panic!("Nested array")`), modelled as `none`. -/
def JavaType.remapClass (f : Str → Str) : JavaType → Option JavaType
  | .classRef name => some (.classRef (f name))
  | .array dimensions elementType =>
    match elementType with
    | .classRef name => some (.array dimensions (.classRef (f name)))
    | .array _ _ => none
    | .primitive p => some (.array dimensions (.primitive p))
  | .primitive p => some (.primitive p)

/-- `MethodDescriptorParseError` of `types.rs`. -/
inductive MethodDescParseError
  | emptyDescriptor
  | unopenedDescriptor
  | unclosedDescriptor
  | invalidReturnType (startIndex : Nat) (cause : TypeDescParseError)
  | invalidParameterType (parameter startIndex : Nat) (cause : TypeDescParseError)
  deriving DecidableEq

/-- `ParsedMethodSignature` of `types.rs`. -/
structure ParsedSig where
  parameterTypes : List JavaType
  returnType : JavaType
  deriving DecidableEq

/-- The parameter loop of `MethodSignature::parse`: repeatedly
`partially_parse_descriptor` on `&descriptor[index..endi]` until `index`
reaches `endi`.  Each successful step consumes at least one byte, so the
fuel (always called with `endi + 1 > endi - index`) can never run out;
the fuel-exhaustion branch is unreachable. -/
def parseParams (d : Str) (endi : Nat) :
    Nat → Nat → List JavaType → Except MethodDescParseError (List JavaType)
  | 0, _, _ => .error .unclosedDescriptor
  | fuel + 1, index, acc =>
    if index < endi then
      match parsePartialDescriptor (strSlice d index endi) with
      | .ok (size, result) => parseParams d endi fuel (index + size) (acc ++ [result])
      | .error cause => .error (.invalidParameterType acc.length index cause)
    else .ok acc

/-- `MethodSignature::parse`. -/
def parseMethodSignature (d : Str) : Except MethodDescParseError ParsedSig :=
  match d with
  | [] => .error .emptyDescriptor
  | first :: _ =>
    if first = 40 then  -- '('
      match firstIdx (fun c => c = 41) d with  -- first ')'
      | some endi =>
        match parseParams d endi (endi + 1) 1 [] with
        | .error e => .error e
        | .ok parameterTypes =>
          match parseTypeDescriptor (d.drop (endi + 1)) with
          | .ok returnType => .ok ⟨parameterTypes, returnType⟩
          | .error cause => .error (.invalidReturnType (endi + 1) cause)
      | none => .error .unclosedDescriptor
    else .error .unopenedDescriptor

/-- `ParsedMethodSignature::write_descriptor` (returning the written bytes). -/
def ParsedSig.writeDescriptor (s : ParsedSig) : Str :=
  40 :: (s.parameterTypes.map JavaType.writeDescriptor).flatten
    ++ 41 :: s.returnType.writeDescriptor

/-- `ParsedMethodSignature::remap_class`. -/
def ParsedSig.remapClass (f : Str → Str) (s : ParsedSig) : Option ParsedSig := do
  let params ← s.parameterTypes.mapM (JavaType.remapClass f)
  let ret ← s.returnType.remapClass f
  pure ⟨params, ret⟩

/-- The class lookup used when remapping descriptors:
`classes.get(c).unwrap_or(c)`. -/
def classApply (classes : List (Str × Str)) (c : Str) : Str :=
  (omGet classes c).getD c

/-- Descriptor remapping as performed by `MappingsBuilder::compute_signatures`,
`Mappings::remap_signature` and `MappingsSnapshot::compute_remapped_signature`:
parse, substitute every class reference through the class table, and re-emit.
All three panic on an unparseable descriptor (`expect`/`unwrap`), modelled as
`none`.  (The source returns the original atom when the result is
byte-identical; that is an interning optimization with the same value.) -/
def remapDescriptor (classes : List (Str × Str)) (d : Str) : Option Str :=
  match parseMethodSignature d with
  | .error _ => none
  | .ok parsed => (parsed.remapClass (classApply classes)).map ParsedSig.writeDescriptor

/-! ### Mapping store (src/native/src/mappings/mod.rs) -/

/-- `PooledFieldData`: a field key `(class, name)`. -/
structure FieldKey where
  cls : Str
  name : Str
  deriving DecidableEq

/-- `PooledMethodData`: a method key `(class, name, signature)`. -/
structure MethodKey where
  cls : Str
  name : Str
  signature : Str
  deriving DecidableEq

/-- `MappingsBuilder`: the three ordered renaming tables. -/
structure MappingsBuilder where
  fieldNames : List (FieldKey × Str)
  methodNames : List (MethodKey × Str)
  classes : List (Str × Str)
  deriving DecidableEq

/-- `MappingsBuilder::new()`. -/
def emptyBuilder : MappingsBuilder := ⟨[], [], []⟩

/-- `MappingsBuilder::insert_class`. -/
def MappingsBuilder.insertClass (b : MappingsBuilder) (o r : Str) : MappingsBuilder :=
  { b with classes := omInsert b.classes o r }

/-- `MappingsBuilder::insert_field`. -/
def MappingsBuilder.insertField (b : MappingsBuilder) (k : FieldKey) (n : Str) : MappingsBuilder :=
  { b with fieldNames := omInsert b.fieldNames k n }

/-- `MappingsBuilder::insert_method`. -/
def MappingsBuilder.insertMethod (b : MappingsBuilder) (k : MethodKey) (n : Str) : MappingsBuilder :=
  { b with methodNames := omInsert b.methodNames k n }

/-- `Mappings::get_class` for a builder (`try_get_class` with identity fallback). -/
def MappingsBuilder.getClass (b : MappingsBuilder) (c : Str) : Str :=
  classApply b.classes c

/-- `MappingsBuilder::compute_signatures`: map every distinct original method
descriptor to its remapping through `classes` (`or_insert_with` appends on
first occurrence); `expect("Invalid descriptor")` on parse failure is `none`. -/
def computeSignatures (b : MappingsBuilder) : Option (List (Str × Str)) :=
  b.methodNames.foldlM
    (fun sigs p =>
      if omMem sigs p.1.signature then some sigs
      else (remapDescriptor b.classes p.1.signature).map
        (fun d => sigs ++ [(p.1.signature, d)]))
    []

/-- `MappingsSnapshot`: the materialized renaming tables. -/
structure MappingsSnapshot where
  fields : List (FieldKey × FieldKey)
  methods : List (MethodKey × MethodKey)
  classes : List (Str × Str)
  deriving DecidableEq

/-- `Mappings::snapshot` for `MappingsBuilder` (the build step): copy the class
table, materialize renamed field records (class remapped through `classes`)
and renamed method records (class and descriptor remapped).  The builder's
tables are ordered maps, so reinserting their entries into fresh maps
preserves them; the descriptor cache of the snapshot is initialised with
exactly `compute_signatures` and is semantically transparent, so it is not
modelled. -/
def MappingsBuilder.snapshot (b : MappingsBuilder) : Option MappingsSnapshot := do
  let classes := b.classes
  let fields := b.fieldNames.map
    (fun p => (p.1, FieldKey.mk (classApply classes p.1.cls) p.2))
  let sigs ← computeSignatures b
  let methods ← b.methodNames.mapM (fun p => do
    let newSig ← omGet sigs p.1.signature
    pure (p.1, MethodKey.mk (classApply classes p.1.cls) p.2 newSig))
  pure ⟨fields, methods, classes⟩

/-- `MappingsSnapshot`'s `try_get_class`. -/
def MappingsSnapshot.tryGetClass (s : MappingsSnapshot) (c : Str) : Option Str :=
  omGet s.classes c

/-- `Mappings::get_class` for a snapshot. -/
def MappingsSnapshot.getClass (s : MappingsSnapshot) (c : Str) : Str :=
  classApply s.classes c

/-- `MappingsSnapshot`'s `try_get_field_name`. -/
def MappingsSnapshot.tryGetFieldName (s : MappingsSnapshot) (k : FieldKey) : Option Str :=
  (omGet s.fields k).map FieldKey.name

/-- `MappingsSnapshot`'s `try_get_method_name`. -/
def MappingsSnapshot.tryGetMethodName (s : MappingsSnapshot) (k : MethodKey) : Option Str :=
  (omGet s.methods k).map MethodKey.name

/-- `MappingsSnapshot`'s `try_get_field`. -/
def MappingsSnapshot.tryGetField (s : MappingsSnapshot) (k : FieldKey) : Option FieldKey :=
  omGet s.fields k

/-- `Mappings::get_field` for a snapshot: explicit rename if present, otherwise
the original name with the class remapped through the class table. -/
def MappingsSnapshot.getField (s : MappingsSnapshot) (k : FieldKey) : FieldKey :=
  match s.tryGetField k with
  | some renamed => renamed
  | none => ⟨s.getClass k.cls, k.name⟩

/-- `MappingsSnapshot`'s `remap_signature`: read from the descriptor cache or
compute `compute_remapped_signature` (the cache only ever holds values this
computation produces, so it is transparent). -/
def MappingsSnapshot.remapSignature (s : MappingsSnapshot) (d : Str) : Option Str :=
  remapDescriptor s.classes d

/-- `Mappings::get_method` for a snapshot: explicit rename if present, otherwise
the original name with class and descriptor remapped (`unwrap` of the
descriptor parse modelled as `none`). -/
def MappingsSnapshot.getMethod (s : MappingsSnapshot) (k : MethodKey) : Option MethodKey :=
  match omGet s.methods k with
  | some renamed => some renamed
  | none => (s.remapSignature k.signature).map
      (fun d => ⟨s.getClass k.cls, k.name, d⟩)

/-- `MappingsBuilder::reverse`: swap the method table (the renamed side of
`methods()`, whose descriptor is remapped through the current class table,
becomes the key and maps to the original name), then the field table, then
the class table (classes last, as the methods/fields iterators still need
the forward class table).  Panics of the signature computation are `none`. -/
def MappingsBuilder.reverse (b : MappingsBuilder) : Option MappingsBuilder := do
  let sigs ← computeSignatures b
  let methodNames ← b.methodNames.foldlM
    (fun (acc : List (MethodKey × Str)) p => do
      let newSig ← omGet sigs p.1.signature
      pure (omInsert acc (MethodKey.mk (b.getClass p.1.cls) p.2 newSig) p.1.name))
    []
  let fieldNames := b.fieldNames.foldl
    (fun (acc : List (FieldKey × Str)) p =>
      omInsert acc (FieldKey.mk (b.getClass p.1.cls) p.2) p.1.name)
    []
  let classes := b.classes.foldl
    (fun (acc : List (Str × Str)) p => omInsert acc p.2 p.1)
    []
  pure ⟨fieldNames, methodNames, classes⟩

/-- `MappingsBuilder::chain(other)`: build a snapshot of the reverse of `self`,
then for every entry of `other` translate its original side back through that
reverse snapshot and insert into `self`'s tables. -/
def MappingsBuilder.chain (b other : MappingsBuilder) : Option MappingsBuilder := do
  let reversedBuilder ← b.reverse
  let reversed ← reversedBuilder.snapshot
  let classes := other.classes.foldl
    (fun acc p => omInsert acc ((reversed.tryGetClass p.1).getD p.1) p.2)
    b.classes
  let fieldNames := other.fieldNames.foldl
    (fun acc p => omInsert acc (reversed.getField p.1) p.2)
    b.fieldNames
  let methodNames ← other.methodNames.foldlM
    (fun acc p => do
      let original ← reversed.getMethod p.1
      pure (omInsert acc original p.2))
    b.methodNames
  pure ⟨fieldNames, methodNames, classes⟩

/-! ### Range applier (src/native/src/ranges/applier.rs, rangemap.rs) -/

/-- `FileLocation`: a `[start, stop)` byte range (`end` is a Lean keyword). -/
structure FileLocation where
  start : Nat
  stop : Nat
  deriving DecidableEq

/-- `FileLocation::size` (`end - start`; `debug_assert!(end >= start)` in the
source, so claims assume `start ≤ stop`). -/
def FileLocation.size (l : FileLocation) : Nat := l.stop - l.start

/-- `MemberReference` of `rangemap.rs`. -/
inductive MemberReference
  | fieldRef (location : FileLocation) (referencedField : FieldKey)
  | methodRef (location : FileLocation) (referencedMethod : MethodKey)
  deriving DecidableEq

/-- `MemberReference::location`. -/
def MemberReference.location : MemberReference → FileLocation
  | .fieldRef l _ => l
  | .methodRef l _ => l

/-- `MemberReference::name`. -/
def MemberReference.name : MemberReference → Str
  | .fieldRef _ f => f.name
  | .methodRef _ m => m.name

/-- `RangeMapApplier::remap_reference`: look the reference up in the snapshot
and return the name that is written out together with the `changed` flag.
Note the source compares with `!=` for fields but with `==` for methods. -/
def remapReference (s : MappingsSnapshot) : MemberReference → Bool × Str
  | .fieldRef _ f =>
    match s.tryGetFieldName f with
    | some renamedName => (decide (renamedName ≠ f.name), renamedName)
    | none => (false, f.name)
  | .methodRef _ m =>
    match s.tryGetMethodName m with
    | some renamedName => (decide (renamedName = m.name), renamedName)
    | none => (false, m.name)

/-- The loop of `RangeMapApplier::apply` over the sorted references: copy up to
the next range, read exactly the range (it must hold the referenced member's
name), write the remapped name, and count changes; after the last reference
copy the rest.  `assert!`/`assert_eq!` panics and I/O errors are `none`. -/
def applyLoop (s : MappingsSnapshot) :
    List MemberReference → Nat → Str → Nat → Str → Option (Nat × Str)
  | [], _, input, numChanges, out => some (numChanges, out ++ input)
  | r :: rest, index, input, numChanges, out =>
    let location := r.location
    if location.start < index then none  -- assert!(location.start as u64 >= index)
    else
      let tocopy := location.start - index
      if input.length < tocopy then none  -- io::copy fell short: UnexpectedEof
      else
        let out := out ++ input.take tocopy
        let input := input.drop tocopy
        let index := index + tocopy
        if input.length < location.size then none  -- read_exact failed
        else
          let originalName := input.take location.size
          let input := input.drop location.size
          let index := index + location.size
          if originalName ≠ r.name then none  -- assert_eq!(original_name, expected_name)
          else
            let (changed, newName) := remapReference s r
            applyLoop s rest index input
              (numChanges + (if changed then 1 else 0)) (out ++ newName)

/-- `RangeMapApplier::apply`, over the already-sorted reference list (the
source obtains it from `FileRanges::sorted`, which sorts by `start` and
asserts that compared references do not overlap). -/
def rangeApply (s : MappingsSnapshot) (refs : List MemberReference) (input : Str) :
    Option (Nat × Str) :=
  applyLoop s refs 0 input 0 []

/-- Modelled from the spec (§4.6 contract / §8 invariant 6): the output equals
the source outside the listed ranges, and each range's bytes are replaced by
the mapped name when the snapshot has a mapping for the member, the original
name otherwise. -/
def specMappedName (s : MappingsSnapshot) : MemberReference → Str
  | .fieldRef _ f => (s.tryGetFieldName f).getD f.name
  | .methodRef _ m => (s.tryGetMethodName m).getD m.name

/-- Modelled from the spec (§4.6 contract): the rewritten file contents, built
range by range from position `pos`. -/
def specRewritten (s : MappingsSnapshot) : List MemberReference → Nat → Str → Str
  | [], pos, src => src.drop pos
  | r :: rest, pos, src =>
    strSlice src pos r.location.start ++ specMappedName s r
      ++ specRewritten s rest r.location.stop src

/-- Modelled from the spec (§4.6, §8 invariant 6): the number of reference
spans whose mapping was present in the snapshot and differed from the
original name. -/
def specChangedCount (s : MappingsSnapshot) (refs : List MemberReference) : Nat :=
  (refs.filter (fun r =>
    match r with
    | .fieldRef _ f =>
      match s.tryGetFieldName f with
      | some renamedName => decide (renamedName ≠ f.name)
      | none => false
    | .methodRef _ m =>
      match s.tryGetMethodName m with
      | some renamedName => decide (renamedName ≠ m.name)
      | none => false)).length

/-! ### Target parsing (src/native/src/minecraft/targets.rs) -/

/-- `MappingsFormat`. -/
inductive MappingsFormat
  | srg | mcp | spigot | obf
  deriving DecidableEq, Fintype

/-- `TargetModifier`. -/
inductive TargetModifier
  | classes | members | onlyobf
  deriving DecidableEq, Fintype

/-- `MappingsTarget`. -/
structure MappingsTarget where
  original : MappingsFormat
  renamed : MappingsFormat
  modifier : Option TargetModifier
  deriving DecidableEq

/-- `MappingsFormat::from_str` (`InvalidTarget` errors modelled as `none`). -/
def MappingsFormat.fromStr (s : Str) : Option MappingsFormat :=
  if s = strBytes "srg" then some .srg
  else if s = strBytes "mcp" then some .mcp
  else if s = strBytes "spigot" then some .spigot
  else if s = strBytes "obf" then some .obf
  else none

/-- The `\w` character class of the target regex, restricted to ASCII (all
format and modifier names are ASCII; non-ASCII word characters never occur in
the strings any in-scope claim quantifies over). -/
def isWordByte (b : Nat) : Bool :=
  (48 ≤ b && b ≤ 57) || (65 ≤ b && b ≤ 90) || b = 95 || (97 ≤ b && b ≤ 122)

/-- Length of the run of word bytes of `s` starting at position `i`. -/
def wordRunLen (s : Str) (i : Nat) : Nat :=
  ((s.drop i).takeWhile isWordByte).length

/-- One attempted match of `TARGET_PATTERN` =
`(\w+)2(\w+)(?:-(classes|members|onlyobf))?` at start position `i`, with the
regex crate's leftmost-first (Perl-like) preference: the first group is
greedy, so the largest split `k` with a `'2'` and at least one following word
byte wins; the second group takes the whole following word run; the optional
modifier group is then tried greedily. -/
def targetMatchAt (s : Str) (i : Nat) : Option (Str × Str × Option TargetModifier) :=
  let w := wordRunLen s i
  match (List.range w).reverse.find?
      (fun k => decide (1 ≤ k) && decide (s.get? (i + k) = some 50)
        && decide (1 ≤ wordRunLen s (i + k + 1))) with
  | none => none
  | some k =>
    let g1 := strSlice s i (i + k)
    let m := wordRunLen s (i + k + 1)
    let g2 := strSlice s (i + k + 1) (i + k + 1 + m)
    let rest := s.drop (i + k + 1 + m)
    let modifier :=
      if strBytes "-classes" <+: rest then some TargetModifier.classes
      else if strBytes "-members" <+: rest then some TargetModifier.members
      else if strBytes "-onlyobf" <+: rest then some TargetModifier.onlyobf
      else none
    some (g1, g2, modifier)

/-- `TARGET_PATTERN.captures`: the leftmost position with a match wins. -/
def targetCaptures (s : Str) : Option (Str × Str × Option TargetModifier) :=
  (List.range (s.length + 1)).findSome? (targetMatchAt s)

/-- `MappingsTarget::from_str` (`MinecraftMappingError::InvalidTarget` errors
modelled as `none`). -/
def MappingsTarget.fromStr (s : Str) : Option MappingsTarget := do
  let (g1, g2, modifier) ← targetCaptures s
  let original ← MappingsFormat.fromStr g1
  let renamed ← MappingsFormat.fromStr g2
  if original = renamed then none  -- redundant mappings are forbidden
  else pure ⟨original, renamed, modifier⟩

/-- The string `ORIGINAL '2' RENAMED ('-' MODIFIER)?` of the claimed target
grammar. -/
def MappingsFormat.str : MappingsFormat → Str
  | .srg => strBytes "srg"
  | .mcp => strBytes "mcp"
  | .spigot => strBytes "spigot"
  | .obf => strBytes "obf"

/-- Display form of a modifier. -/
def TargetModifier.str : TargetModifier → Str
  | .classes => strBytes "classes"
  | .members => strBytes "members"
  | .onlyobf => strBytes "onlyobf"

/-- A string of the exact form the claim describes. -/
def targetStr (o r : MappingsFormat) (m : Option TargetModifier) : Str :=
  o.str ++ [50] ++ r.str ++ (match m with
    | some md => 45 :: md.str
    | none => [])

/-! ### Binary codec (src/native/src/mappings/binary.rs, utils.rs)

Only the compressed payload (`CompressedMappingsEncoder::encode` /
`CompressedMappingsDecoder::decode`, i.e. everything after the header,
version and compression id) is modelled; the claims in scope are about this
payload. -/

/-- `SimpleEncoder::write_u16`, big endian. -/
def writeU16 (n : Nat) : Str := [n / 256 % 256, n % 256]

/-- `SimpleEncoder::write_u32`, big endian. -/
def writeU32 (n : Nat) : Str :=
  [n / 2 ^ 24 % 256, n / 2 ^ 16 % 256, n / 2 ^ 8 % 256, n % 256]

/-- `SimpleEncoder::write_u64`, big endian. -/
def writeU64 (n : Nat) : Str :=
  [n / 2 ^ 56 % 256, n / 2 ^ 48 % 256, n / 2 ^ 40 % 256, n / 2 ^ 32 % 256,
   n / 2 ^ 24 % 256, n / 2 ^ 16 % 256, n / 2 ^ 8 % 256, n % 256]

/-- `SimpleEncoder::write_string`: `u16` length then the bytes; the length
check (`try_from(...).expect("String too big")`) panics on overflow. -/
def writeStr16 (s : Str) : Option Str :=
  if s.length < 2 ^ 16 then some (writeU16 s.length ++ s) else none

/-- `SimpleDecoder::read_u16` (big endian; `read_exact` failure is `none`). -/
def readU16 : Str → Option (Nat × Str)
  | b0 :: b1 :: rest => some (b0 * 256 + b1, rest)
  | _ => none

/-- `SimpleDecoder::read_u32`. -/
def readU32 : Str → Option (Nat × Str)
  | b0 :: b1 :: b2 :: b3 :: rest =>
    some (b0 * 2 ^ 24 + b1 * 2 ^ 16 + b2 * 2 ^ 8 + b3, rest)
  | _ => none

/-- `SimpleDecoder::read_u64`. -/
def readU64 : Str → Option (Nat × Str)
  | b0 :: b1 :: b2 :: b3 :: b4 :: b5 :: b6 :: b7 :: rest =>
    some (b0 * 2 ^ 56 + b1 * 2 ^ 48 + b2 * 2 ^ 40 + b3 * 2 ^ 32
      + b4 * 2 ^ 24 + b5 * 2 ^ 16 + b6 * 2 ^ 8 + b7, rest)
  | _ => none

/-- `SimpleDecoder::read_string`: `u16` length then exactly that many bytes
(UTF-8 validation not modelled, see the file header). -/
def readStr16 (s : Str) : Option (Str × Str) :=
  match readU16 s with
  | none => none
  | some (n, rest) =>
    if n ≤ rest.length then some (rest.take n, rest.drop n) else none

/-- The per-class record grouped by `CompressedMappingsEncoder::encode` into
`known_classes`. -/
structure ClassData where
  renamed : Option Str
  fields : List (FieldKey × FieldKey)
  methods : List (MethodKey × MethodKey)
  deriving DecidableEq

/-- `ClassData::default()`. -/
def ClassData.dflt : ClassData := ⟨none, [], []⟩

/-- The `known_classes` grouping of `CompressedMappingsEncoder::encode`: all
classes of the class table (in order, with their rename), then every field
and method whose name changed is appended to its class's record; a member of
a class absent from the class table creates a record with no rename (the
`entry(..).or_insert_with(Default)` happens before the name-change test). -/
def buildKnownClasses (m : MappingsSnapshot) : List (Str × ClassData) :=
  let k1 := m.classes.foldl
    (fun acc p => omInsert acc p.1 ⟨some p.2, [], []⟩) []
  let k2 := m.fields.foldl
    (fun acc p => omEntryModify acc p.1.cls ClassData.dflt
      (fun cd =>
        if p.1.name = p.2.name then cd
        else { cd with fields := cd.fields ++ [p] }))
    k1
  m.methods.foldl
    (fun acc p => omEntryModify acc p.1.cls ClassData.dflt
      (fun cd =>
        if p.1.name = p.2.name then cd
        else { cd with methods := cd.methods ++ [p] }))
    k2

/-- One method entry as written by the encoder: original name, renamed name,
original signature, and an always-empty renamed signature.  (The source's
`assert_ne!(original.name, renamed.name)` cannot fire: only name-changed
entries are pushed.) -/
def encodeMethodEntry (p : MethodKey × MethodKey) : Option Str := do
  let a ← writeStr16 p.1.name
  let b ← writeStr16 p.2.name
  let c ← writeStr16 p.1.signature
  let d ← writeStr16 []
  pure (a ++ b ++ c ++ d)

/-- One field entry as written by the encoder: original name, renamed name. -/
def encodeFieldEntry (p : FieldKey × FieldKey) : Option Str := do
  let a ← writeStr16 p.1.name
  let b ← writeStr16 p.2.name
  pure (a ++ b)

/-- One class record as written by the encoder. -/
def encodeClassEntry (p : Str × ClassData) : Option Str := do
  let a ← writeStr16 p.1
  let b ← writeStr16 (p.2.renamed.getD [])
  if p.2.methods.length < 2 ^ 32 then  -- u32::try_from(..).expect("Too many methods")
    if p.2.fields.length < 2 ^ 32 then  -- u32::try_from(..).expect("Too many fields")
      do
        let ms ← p.2.methods.mapM encodeMethodEntry
        let fs ← p.2.fields.mapM encodeFieldEntry
        pure (a ++ b ++ writeU32 p.2.methods.length ++ ms.flatten
          ++ writeU32 p.2.fields.length ++ fs.flatten)
    else none
  else none

/-- `CompressedMappingsEncoder::encode`: the class count as `u64`, then every
class record. -/
def encodeBody (m : MappingsSnapshot) : Option Str := do
  let known := buildKnownClasses m
  let cs ← known.mapM encodeClassEntry
  pure (writeU64 known.length ++ cs.flatten)

/-- `BinaryMappingError` (the variants the payload decoder can produce). -/
inductive BinaryMappingError
  | ioError
  | invalidName
  | unchangedMethod (k : MethodKey)
  | unchangedField (k : FieldKey)
  | invalidMethodDescriptor (cause : MethodDescParseError)
  | unexpectedTrailing (bytes : Str)
  deriving DecidableEq

/-- The field loop of `CompressedMappingsDecoder::decode` for one class:
read `n` entries of (original name, revised name); empty names are
`InvalidName`, an unchanged name is `UnchangedField`, every other entry is
inserted. -/
def decodeFields (cls : Str) :
    Nat → MappingsBuilder → Str → Except BinaryMappingError (MappingsBuilder × Str)
  | 0, b, input => .ok (b, input)
  | n + 1, b, input =>
    match readStr16 input with
    | none => .error .ioError
    | some (originalName, r1) =>
      if originalName = [] then .error .invalidName
      else
        match readStr16 r1 with
        | none => .error .ioError
        | some (revisedName, r2) =>
          if revisedName = [] then .error .invalidName
          else
            let originalData : FieldKey := ⟨cls, originalName⟩
            if originalName = revisedName then .error (.unchangedField originalData)
            else decodeFields cls n (b.insertField originalData revisedName) r2

/-- The method loop of `CompressedMappingsDecoder::decode` for one class:
read `n` entries of (original name, revised name, original signature,
revised signature).  An empty revised name means "unchanged"; both
signatures must parse; a name-changed entry is inserted; a name-unchanged
entry whose revised signature is absent or unchanged is `UnchangedMethod`
(`lenient` is always `false`); a name-unchanged entry with a changed revised
signature is skipped. -/
def decodeMethods (cls : Str) :
    Nat → MappingsBuilder → Str → Except BinaryMappingError (MappingsBuilder × Str)
  | 0, b, input => .ok (b, input)
  | n + 1, b, input =>
    match readStr16 input with
    | none => .error .ioError
    | some (originalName, r1) =>
      if originalName = [] then .error .invalidName
      else
        match readStr16 r1 with
        | none => .error .ioError
        | some (rawRevisedName, r2) =>
          let revisedName := if rawRevisedName = [] then originalName else rawRevisedName
          match readStr16 r2 with
          | none => .error .ioError
          | some (originalSignature, r3) =>
            match parseMethodSignature originalSignature with
            | .error e => .error (.invalidMethodDescriptor e)
            | .ok _ =>
              let originalData : MethodKey := ⟨cls, originalName, originalSignature⟩
              match readStr16 r3 with
              | none => .error .ioError
              | some (rawRevisedSignature, r4) =>
                match
                  (if rawRevisedSignature ≠ [] then
                    match parseMethodSignature rawRevisedSignature with
                    | .error e => .error (.invalidMethodDescriptor e)
                    | .ok _ => .ok (some rawRevisedSignature)
                  else .ok none : Except BinaryMappingError (Option Str)) with
                | .error e => .error e
                | .ok revisedSignature =>
                  if originalName ≠ revisedName then
                    decodeMethods cls n (b.insertMethod originalData revisedName) r4
                  else
                    let changed :=
                      match revisedSignature with
                      | some rs => decide (rs ≠ originalSignature)
                      | none => false
                    if changed then decodeMethods cls n b r4
                    else .error (.unchangedMethod originalData)

/-- The class loop of `CompressedMappingsDecoder::decode`: read `n` class
records; an empty original class name is `InvalidName`
(`JavaClass::parse_internal_name`; the dot check runs only in debug builds),
an empty revised name means the class is unchanged, and only changed classes
are inserted; then the class's methods and fields. -/
def decodeClasses :
    Nat → MappingsBuilder → Str → Except BinaryMappingError (MappingsBuilder × Str)
  | 0, b, input => .ok (b, input)
  | n + 1, b, input =>
    match readStr16 input with
    | none => .error .ioError
    | some (originalClass, r1) =>
      if originalClass = [] then .error .invalidName
      else
        match readStr16 r1 with
        | none => .error .ioError
        | some (rawRevised, r2) =>
          let revisedClass := if rawRevised = [] then originalClass else rawRevised
          let b := if revisedClass ≠ originalClass
            then b.insertClass originalClass revisedClass else b
          match readU32 r2 with
          | none => .error .ioError
          | some (numMethods, r3) =>
            match decodeMethods originalClass numMethods b r3 with
            | .error e => .error e
            | .ok (b, r4) =>
              match readU32 r4 with
              | none => .error .ioError
              | some (numFields, r5) =>
                match decodeFields originalClass numFields b r5 with
                | .error e => .error e
                | .ok (b, r6) => decodeClasses n b r6

/-- `CompressedMappingsDecoder::decode`: the class count, the class records,
then the stream must be fully consumed (`UnexpectedTrailing`). -/
def decodeBody (b : MappingsBuilder) (input : Str) :
    Except BinaryMappingError MappingsBuilder :=
  match readU64 input with
  | none => .error .ioError
  | some (numClasses, r) =>
    match decodeClasses numClasses b r with
    | .error e => .error e
    | .ok (b, trailing) =>
      if trailing ≠ [] then .error (.unexpectedTrailing trailing) else .ok b

/-! ### Well-formedness of descriptor trees -/

/-- A type that is not an array (a legal array element). -/
def JavaType.nonArray : JavaType → Bool
  | .array _ _ => false
  | _ => true

/-- Well-formedness of a parsed type: arrays have at least one dimension and a
non-array element (dimensions are folded into the count). -/
def JavaType.wf : JavaType → Bool
  | .classRef _ => true
  | .primitive _ => true
  | .array dims e => decide (1 ≤ dims) && e.nonArray && e.wf

/-- A class name that cannot disturb reparsing: free of `';'` and `')'`. -/
def cleanStr (s : Str) : Bool := decide (59 ∉ s) && decide (41 ∉ s)

/-- All class names in the type are clean. -/
def JavaType.clean : JavaType → Bool
  | .classRef n => cleanStr n
  | .primitive _ => true
  | .array _ e => e.clean

/-- Well-formedness of a parsed signature. -/
def ParsedSig.wf (p : ParsedSig) : Bool :=
  p.parameterTypes.all JavaType.wf && p.returnType.wf

/-- Cleanliness of a parsed signature. -/
def ParsedSig.clean (p : ParsedSig) : Bool :=
  p.parameterTypes.all JavaType.clean && p.returnType.clean

/-- The class names referenced by a type. -/
def JavaType.classNames : JavaType → List Str
  | .classRef n => [n]
  | .array _ e => e.classNames
  | .primitive _ => []

/-- The class names referenced by a signature. -/
def ParsedSig.classNames (p : ParsedSig) : List Str :=
  (p.parameterTypes.map JavaType.classNames).flatten ++ p.returnType.classNames

/-- Total class substitution on a well-formed type (the value
`JavaType.remapClass` computes when it does not panic). -/
def mapClasses (f : Str → Str) : JavaType → JavaType
  | .classRef n => .classRef (f n)
  | .array dims e => .array dims (mapClasses f e)
  | .primitive p => .primitive p

/-- Total class substitution on a signature. -/
def mapSigClasses (f : Str → Str) (p : ParsedSig) : ParsedSig :=
  ⟨p.parameterTypes.map (mapClasses f), mapClasses f p.returnType⟩

/-! ### Lemmas: the descriptor parser and writer are mutually inverse -/

theorem firstIdx_decomp {p : Nat → Bool} :
    ∀ {l : Str} {i}, firstIdx p l = some i →
      ∃ x, p x = true ∧ (∀ y ∈ l.take i, p y = false) ∧
        l = l.take i ++ x :: l.drop (i + 1) := by
  intro l
  induction l with
  | nil => intro i h; simp [firstIdx] at h
  | cons a t ih =>
    intro i h
    by_cases hpa : p a
    · simp [firstIdx, hpa] at h
      subst h
      exact ⟨a, hpa, by simp, by simp⟩
    · simp [firstIdx, hpa] at h
      obtain ⟨j, hj, rfl⟩ := h
      obtain ⟨x, hx, hall, hdec⟩ := ih hj
      refine ⟨x, hx, ?_, ?_⟩
      · intro y hy
        simp [List.take] at hy
        rcases hy with rfl | hy
        · simpa using hpa
        · exact hall y hy
      · simpa using congrArg (a :: ·) hdec

theorem firstIdx_notmem_append {b : Nat} :
    ∀ {n : Str}, b ∉ n → ∀ rest : Str,
      firstIdx (fun c => c = b) (n ++ b :: rest) = some n.length := by
  intro n
  induction n with
  | nil => intro _ rest; simp [firstIdx]
  | cons a t ih =>
    intro h rest
    have ha : ¬(a = b) := fun hab => h (by simp [hab])
    have iht := ih (fun hm => h (List.mem_cons_of_mem a hm)) rest
    simp [firstIdx, ha, iht]

theorem descByte_ne_76 (p : PrimitiveType) : (p.descByte = 76) = False := by
  cases p <;> simp [PrimitiveType.descByte]

theorem descByte_ne_91 (p : PrimitiveType) : (p.descByte = 91) = False := by
  cases p <;> simp [PrimitiveType.descByte]

theorem fromDescByte_descByte (p : PrimitiveType) :
    PrimitiveType.fromDescByte p.descByte = some p := by
  cases p <;> rfl

/-- Parse after write, element level: a clean, non-array type parses back from
its own descriptor followed by anything. -/
theorem parseElement_write {t : JavaType} (hna : t.nonArray) (hc : t.clean) (rest : Str) :
    parseElementDescriptor (t.writeDescriptor ++ rest) =
      .ok (t.writeDescriptor.length, t) := by
  cases t with
  | array dims e => simp [JavaType.nonArray] at hna
  | primitive p =>
    simp only [JavaType.writeDescriptor, List.cons_append, List.nil_append,
      parseElementDescriptor, descByte_ne_76, if_false, fromDescByte_descByte]
    rfl
  | classRef n =>
    have hn : (59 : Nat) ∉ n := by
      simp [JavaType.clean, cleanStr] at hc; exact hc.1
    have hlen : (JavaType.classRef n).writeDescriptor.length = n.length + 2 := by
      simp [JavaType.writeDescriptor]
    rw [hlen, show (JavaType.classRef n).writeDescriptor ++ rest =
      76 :: (n ++ 59 :: rest) by simp [JavaType.writeDescriptor]]
    have hfi : firstIdx (fun c => c = 59) ((76 : Nat) :: (n ++ 59 :: rest)) =
        some (n.length + 1) := by
      have h76 : ¬((76 : Nat) = 59) := by decide
      simp [firstIdx, h76, firstIdx_notmem_append hn rest]
    have hslice : strSlice ((76 : Nat) :: (n ++ 59 :: rest)) 1 (n.length + 1) = n := by
      have ht : ((76 : Nat) :: (n ++ 59 :: rest)).take (n.length + 1) = 76 :: n := by
        have : (n ++ (59 : Nat) :: rest).take n.length = n := by
          simpa using List.take_left n ((59 : Nat) :: rest)
        simp [List.take_cons, this]
      simp [strSlice, ht]
    simp [parseElementDescriptor, hfi, hslice]

theorem write_head {t : JavaType} (hna : t.nonArray) :
    ∃ c l, t.writeDescriptor = c :: l ∧ (c = 91) = False := by
  cases t with
  | array dims e => simp [JavaType.nonArray] at hna
  | primitive p => exact ⟨p.descByte, [], rfl, descByte_ne_91 p⟩
  | classRef n => exact ⟨76, n ++ [59], by simp [JavaType.writeDescriptor], by simp⟩

theorem takeWhile_replicate_cons (dims : Nat) (c : Nat) (hne : (c = 91) = False)
    (l : Str) :
    (List.replicate dims (91 : Nat) ++ c :: l).takeWhile (fun x => x = 91) =
      List.replicate dims 91 := by
  induction dims with
  | zero => simp [List.takeWhile_cons, hne]
  | succ k ih => simp [List.replicate_succ, List.takeWhile_cons, ih]

/-- Parse after write: a clean well-formed type parses back from its own
descriptor followed by anything. -/
theorem parsePartial_write {t : JavaType} (hwf : t.wf) (hc : t.clean) (rest : Str) :
    parsePartialDescriptor (t.writeDescriptor ++ rest) =
      .ok (t.writeDescriptor.length, t) := by
  cases t with
  | primitive p =>
    have h := parseElement_write (t := .primitive p) rfl rfl rest
    simpa [parsePartialDescriptor, JavaType.writeDescriptor, descByte_ne_91] using h
  | classRef n =>
    have h := parseElement_write (t := .classRef n) rfl hc rest
    simpa [parsePartialDescriptor, JavaType.writeDescriptor] using h
  | array dims e =>
    simp only [JavaType.wf, Bool.and_eq_true, decide_eq_true_eq] at hwf
    obtain ⟨⟨hdims, hna⟩, hewf⟩ := hwf
    have hec : e.clean = true := by simpa [JavaType.clean] using hc
    obtain ⟨c, l, hwrite, hcne⟩ := write_head hna
    obtain ⟨d0, rfl⟩ : ∃ d0, dims = d0 + 1 := ⟨dims - 1, by omega⟩
    have hd : (JavaType.array (d0 + 1) e).writeDescriptor ++ rest =
        91 :: (List.replicate d0 91 ++ c :: (l ++ rest)) := by
      simp [JavaType.writeDescriptor, hwrite, List.replicate_succ]
    rw [hd]
    have hwhole : (91 : Nat) :: (List.replicate d0 91 ++ c :: (l ++ rest)) =
        List.replicate (d0 + 1) 91 ++ c :: (l ++ rest) := by
      simp [List.replicate_succ]
    have htw : ((91 : Nat) :: (List.replicate d0 91 ++ c :: (l ++ rest))).takeWhile
        (fun x => x = 91) = List.replicate (d0 + 1) 91 := by
      rw [hwhole]
      exact takeWhile_replicate_cons (d0 + 1) c hcne (l ++ rest)
    have hdrop : ((91 : Nat) :: (List.replicate d0 91 ++ c :: (l ++ rest))).drop (d0 + 1) =
        c :: (l ++ rest) := by
      rw [hwhole]
      simpa using List.drop_left (List.replicate (d0 + 1) (91 : Nat)) (c :: (l ++ rest))
    have helem : parseElementDescriptor (c :: (l ++ rest)) =
        .ok ((c :: l).length, e) := by
      have h2 := parseElement_write hna hec rest
      rwa [hwrite, List.cons_append] at h2
    have hlt : d0 + 1 < ((91 : Nat) :: (List.replicate d0 91 ++ c :: (l ++ rest))).length := by
      simp
    simp only [parsePartialDescriptor, if_pos rfl, htw, List.length_replicate, hlt, if_true,
      hdrop, helem]
    have hlen : (JavaType.array (d0 + 1) e).writeDescriptor.length =
        (c :: l).length + (d0 + 1) := by
      simp [JavaType.writeDescriptor, hwrite, Nat.add_comm]
    rw [hlen]

theorem strSlice_take {d : Str} {a b s : Nat} (h : a + s ≤ b) :
    (strSlice d a b).take s = strSlice d a (a + s) := by
  simp only [strSlice]
  rw [List.take_drop, List.take_take, Nat.min_eq_left h]

theorem strSlice_drop (d : Str) (a b s : Nat) :
    (strSlice d a b).drop s = strSlice d (a + s) b := by
  simp only [strSlice, List.drop_drop]

theorem strSlice_length {d : Str} {a b : Nat} (hb : b ≤ d.length) :
    (strSlice d a b).length = b - a := by
  simp [strSlice, Nat.min_eq_left hb]

theorem strSlice_same (d : Str) (a : Nat) : strSlice d a a = [] := by
  apply List.drop_eq_nil_of_le
  simp

theorem strSlice_append {d : Str} {a b c : Nat} (hab : a ≤ b) (hbc : b ≤ c)
    (hcd : c ≤ d.length) :
    strSlice d a b ++ strSlice d b c = strSlice d a c := by
  simp only [strSlice]
  have h1 : List.take b d = List.take b (List.take c d) := by
    rw [List.take_take, Nat.min_eq_left hbc]
  rw [h1]
  have h2 : List.drop a (List.take b (List.take c d)) ++ List.drop b (List.take c d) =
      List.drop a (List.take b (List.take c d) ++ List.drop b (List.take c d)) := by
    rw [List.drop_append_of_le_length]
    simp
    omega
  rw [h2, List.take_append_drop]

theorem descByte_fromDescByte {c : Nat} {p : PrimitiveType}
    (h : PrimitiveType.fromDescByte c = some p) : p.descByte = c := by
  unfold PrimitiveType.fromDescByte at h
  split_ifs at h <;>
    first
      | (injection h with h2; subst h2; simp_all [PrimitiveType.descByte])
      | simp at h

theorem wf_of_nonArray {t : JavaType} (h : t.nonArray = true) : t.wf = true := by
  cases t <;> simp_all [JavaType.nonArray, JavaType.wf]

/-- Write after parse, element level: the element parser consumes exactly the
canonical descriptor of what it returns. -/
theorem parseElement_ok {d : Str} {n : Nat} {t : JavaType}
    (h : parseElementDescriptor d = .ok (n, t)) :
    t.writeDescriptor = d.take n ∧ 1 ≤ n ∧ n ≤ d.length ∧ t.nonArray = true := by
  match d with
  | [] => simp [parseElementDescriptor] at h
  | start :: tail =>
    by_cases h76 : start = 76
    · subst h76
      simp only [parseElementDescriptor, if_pos rfl] at h
      match hfi : firstIdx (fun c => c = 59) (76 :: tail) with
      | none => rw [hfi] at h; simp at h
      | some endi =>
        rw [hfi] at h
        simp only [Except.ok.injEq, Prod.mk.injEq] at h
        obtain ⟨rfl, rfl⟩ := h
        obtain ⟨x, hx, hall, hdec⟩ := firstIdx_decomp hfi
        have hx59 : x = 59 := by simpa using hx
        subst hx59
        match hendi : endi with
        | 0 => simp at hdec
        | k + 1 =>
          have htake : (76 :: tail).take (k + 1) = 76 :: tail.take k := by
            simp [List.take_cons]
          rw [htake] at hdec
          have htail : tail = tail.take k ++ 59 :: (76 :: tail).drop (k + 2) := by
            have := hdec
            simpa using this
          have hklen : k ≤ tail.length := by
            by_contra hk
            push_neg at hk
            have h1 : tail.take k = tail := List.take_of_length_le (by omega)
            have h2 := congrArg List.length htail
            rw [h1, List.length_append, List.length_cons] at h2
            omega
          have hstrict : k + 1 ≤ tail.length := by
            have h2 := congrArg List.length htail
            rw [List.length_append, List.length_cons, List.length_take] at h2
            omega
          have htail1 : tail.take (k + 1) = tail.take k ++ [59] := by
            conv_lhs => rw [htail]
            have hlen : (tail.take k).length = k := List.length_take_of_le hklen
            rw [show k + 1 = (tail.take k).length + 1 by rw [hlen]]
            rw [List.take_append]
            simp
          constructor
          · show 76 :: (strSlice (76 :: tail) 1 (k + 1) ++ [59]) = _
            have hsl : strSlice (76 :: tail) 1 (k + 1) = tail.take k := by
              simp [strSlice, List.take_cons]
            rw [hsl]
            rw [List.take_cons (by omega)]
            simp [htail1]
          · refine ⟨by omega, ?_, rfl⟩
            simp only [List.length_cons]
            omega
    · simp only [parseElementDescriptor, if_neg h76] at h
      match hp : PrimitiveType.fromDescByte start with
      | none => rw [hp] at h; simp at h
      | some p =>
        rw [hp] at h
        simp only [Except.ok.injEq, Prod.mk.injEq] at h
        obtain ⟨rfl, rfl⟩ := h
        refine ⟨?_, by omega, by simp, rfl⟩
        simp [JavaType.writeDescriptor, descByte_fromDescByte hp]

/-- Write after parse: the partial parser consumes exactly the canonical
descriptor of the well-formed type it returns. -/
theorem parsePartial_ok {d : Str} {n : Nat} {t : JavaType}
    (h : parsePartialDescriptor d = .ok (n, t)) :
    t.writeDescriptor = d.take n ∧ 1 ≤ n ∧ n ≤ d.length ∧ t.wf = true := by
  match d with
  | [] => simp [parsePartialDescriptor] at h
  | start :: tail =>
    by_cases h91 : start = 91
    · subst h91
      simp only [parsePartialDescriptor, if_pos rfl] at h
      set dims := ((91 :: tail).takeWhile (fun c => c = 91)).length with hdims
      by_cases hlt : dims < (91 :: tail).length
      · rw [if_pos hlt] at h
        match he : parseElementDescriptor ((91 :: tail).drop dims) with
        | .error cause => rw [he] at h; simp at h
        | .ok (size, e) =>
          rw [he] at h
          simp only [Except.ok.injEq, Prod.mk.injEq] at h
          obtain ⟨rfl, rfl⟩ := h
          obtain ⟨hw, hs1, hsle, hna⟩ := parseElement_ok he
          have hdims1 : 1 ≤ dims := by
            rw [hdims]
            simp [List.takeWhile_cons]
          have htw : (91 :: tail).takeWhile (fun c => c = 91) =
              List.replicate dims (91 : Nat) := by
            rw [List.eq_replicate_iff]
            exact ⟨hdims.symm, fun b hb => by simpa using List.mem_takeWhile_imp hb⟩
          have htake : (91 :: tail).take dims = List.replicate dims (91 : Nat) := by
            rw [← htw]
            have hpre := List.takeWhile_prefix (l := 91 :: tail) (fun c => c = 91)
            rw [List.prefix_iff_eq_take] at hpre
            rw [← hdims] at hpre
            exact hpre.symm
          constructor
          · show List.replicate dims 91 ++ e.writeDescriptor = _
            rw [hw, Nat.add_comm size dims, List.take_add, htake]
          · refine ⟨by omega, ?_, ?_⟩
            · have := List.length_drop dims (91 :: tail)
              omega
            · simp [JavaType.wf, hdims1, hna, wf_of_nonArray hna]
      · rw [if_neg hlt] at h
        simp at h
    · have hne : parsePartialDescriptor (start :: tail) = parseElementDescriptor (start :: tail) := by
        simp [parsePartialDescriptor, h91]
      rw [hne] at h
      obtain ⟨hw, h1, h2, hna⟩ := parseElement_ok h
      exact ⟨hw, h1, h2, wf_of_nonArray hna⟩

/-- Write after parse for complete type descriptors. -/
theorem parseTypeDesc_ok {s : Str} {t : JavaType} (h : parseTypeDescriptor s = .ok t) :
    t.writeDescriptor = s ∧ t.wf = true := by
  unfold parseTypeDescriptor at h
  match hp : parsePartialDescriptor s with
  | .error e => rw [hp] at h; simp at h
  | .ok (size, u) =>
    rw [hp] at h
    by_cases hlt : size < s.length
    · simp [hlt] at h
    · simp only [hlt, if_false] at h
      injection h with h3
      subst h3
      obtain ⟨hw, h1, h2, hwf⟩ := parsePartial_ok hp
      have : size = s.length := by omega
      rw [this, List.take_of_length_le (by omega)] at hw
      exact ⟨hw, hwf⟩

/-- Write after parse for the parameter loop: on success the parsed parameter
list's descriptors concatenate exactly to the region `[index, endi)`. -/
theorem parseParams_ok {d : Str} {endi : Nat} (hend : endi ≤ d.length) :
    ∀ {fuel index acc ts}, parseParams d endi fuel index acc = .ok ts →
      index ≤ endi →
      ∃ us, ts = acc ++ us ∧
        (us.map JavaType.writeDescriptor).flatten = strSlice d index endi ∧
        us.all JavaType.wf = true := by
  intro fuel
  induction fuel with
  | zero => intro index acc ts h _; simp [parseParams] at h
  | succ f ih =>
    intro index acc ts h hle
    by_cases hlt : index < endi
    · simp only [parseParams, if_pos hlt] at h
      match hp : parsePartialDescriptor (strSlice d index endi) with
      | .error cause => rw [hp] at h; simp at h
      | .ok (size, t) =>
        rw [hp] at h
        obtain ⟨hw, h1, h2, hwf⟩ := parsePartial_ok hp
        have hslen : (strSlice d index endi).length = endi - index := strSlice_length hend
        have hsz : index + size ≤ endi := by omega
        obtain ⟨us, rfl, hfl, hall⟩ := ih h hsz
        refine ⟨t :: us, by simp, ?_, by simp [hwf, hall]⟩
        simp only [List.map_cons, List.flatten_cons]
        rw [hw, strSlice_take hsz, hfl,
          strSlice_append (by omega) (by omega) hend]
    · simp only [parseParams, if_neg hlt] at h
      injection h with h2
      subst h2
      have hie : index = endi := by omega
      exact ⟨[], by simp, by simp [hie, strSlice_same], rfl⟩

/-- Write after parse at the method-descriptor level: the parser accepts
exactly canonical descriptors, and the parse is well-formed. -/
theorem parseMethod_ok {d : Str} {p : ParsedSig} (h : parseMethodSignature d = .ok p) :
    p.writeDescriptor = d ∧ p.wf = true := by
  match d with
  | [] => simp [parseMethodSignature] at h
  | first :: tail =>
    by_cases h40 : first = 40
    · subst h40
      match hfi : firstIdx (fun c => c = 41) (40 :: tail) with
      | none => simp [parseMethodSignature, hfi] at h
      | some endi =>
        simp only [parseMethodSignature, hfi, if_pos rfl] at h
        obtain ⟨x, hx, hall, hdec⟩ := firstIdx_decomp hfi
        have hx41 : x = 41 := by simpa using hx
        subst hx41
        match hendi : endi with
        | 0 => simp at hdec
        | k + 1 =>
          have htake : (40 :: tail).take (k + 1) = 40 :: tail.take k := by
            simp [List.take_cons]
          rw [htake] at hdec
          have htail : tail = tail.take k ++ 41 :: (40 :: tail).drop (k + 2) := by
            simpa using hdec
          have hklen : k ≤ tail.length := by
            by_contra hk
            push_neg at hk
            have h1 : tail.take k = tail := List.take_of_length_le (by omega)
            have h2 := congrArg List.length htail
            rw [h1, List.length_append, List.length_cons] at h2
            omega
          have hstrict : k + 1 ≤ tail.length := by
            have h2 := congrArg List.length htail
            rw [List.length_append, List.length_cons, List.length_take] at h2
            omega
          match hpp : parseParams (40 :: tail) (k + 1) (k + 1 + 1) 1 [] with
          | .error e => rw [hpp] at h; simp at h
          | .ok params =>
            rw [hpp] at h
            match hrt : parseTypeDescriptor ((40 :: tail).drop (k + 1 + 1)) with
            | .error e => rw [hrt] at h; simp at h
            | .ok ret =>
              rw [hrt] at h
              injection h with h2
              subst h2
              have hend : k + 1 ≤ (40 :: tail).length := by
                simp only [List.length_cons]; omega
              obtain ⟨us, hus, hfl, hallwf⟩ := parseParams_ok hend hpp (by omega)
              obtain ⟨hretw, hretwf⟩ := parseTypeDesc_ok hrt
              simp only [List.nil_append] at hus
              subst hus
              constructor
              · show 40 :: ((params.map JavaType.writeDescriptor).flatten
                  ++ 41 :: ret.writeDescriptor) = 40 :: tail
                rw [hfl, hretw]
                have hsl : strSlice (40 :: tail) 1 (k + 1) = tail.take k := by
                  simp [strSlice, List.take_cons]
                rw [hsl]
                have hdk : (40 :: tail).drop (k + 1 + 1) = tail.drop (k + 1) := by
                  simp [List.drop]
                rw [hdk]
                conv_rhs => rw [htail]
                simp [List.drop_succ_cons]
              · simp [ParsedSig.wf, hallwf, hretwf]
    · simp [parseMethodSignature, h40] at h

theorem write_length_pos {t : JavaType} (hwf : t.wf = true) :
    1 ≤ t.writeDescriptor.length := by
  cases t with
  | primitive p => simp [JavaType.writeDescriptor]
  | classRef n => simp [JavaType.writeDescriptor]
  | array dims e =>
    simp only [JavaType.wf, Bool.and_eq_true, decide_eq_true_eq] at hwf
    simp [JavaType.writeDescriptor]
    omega

theorem write_ne_41 {t : JavaType} (hwf : t.wf = true) (hc : t.clean = true) :
    (41 : Nat) ∉ t.writeDescriptor := by
  induction t with
  | primitive p => cases p <;> simp [JavaType.writeDescriptor, PrimitiveType.descByte]
  | classRef n =>
    simp only [JavaType.clean, cleanStr, Bool.and_eq_true, decide_eq_true_eq] at hc
    intro hm
    simp [JavaType.writeDescriptor] at hm
    exact hc.2 hm
  | array dims e ih =>
    simp only [JavaType.wf, Bool.and_eq_true, decide_eq_true_eq] at hwf
    have hec : e.clean = true := hc
    simp only [JavaType.writeDescriptor, List.mem_append]
    rintro (hm | hm)
    · have := List.eq_of_mem_replicate hm
      omega
    · exact ih hwf.2 hec hm

theorem length_le_flatten_length {ts : List JavaType} (hwf : ts.all JavaType.wf = true) :
    ts.length ≤ ((ts.map JavaType.writeDescriptor).flatten).length := by
  induction ts with
  | nil => simp
  | cons t us ih =>
    simp only [List.all_cons, Bool.and_eq_true] at hwf
    have h1 := write_length_pos hwf.1
    have h2 := ih hwf.2
    simp only [List.map_cons, List.flatten_cons, List.length_append, List.length_cons]
    omega

/-- Parse after write for the parameter loop. -/
theorem parseParams_write {d : Str} {endi : Nat} (hend : endi ≤ d.length) :
    ∀ (ts : List JavaType) {fuel index} (acc : List JavaType),
      strSlice d index endi = (ts.map JavaType.writeDescriptor).flatten →
      index ≤ endi →
      ts.all JavaType.wf = true → ts.all JavaType.clean = true →
      ts.length + 1 ≤ fuel →
      parseParams d endi fuel index acc = .ok (acc ++ ts) := by
  intro ts
  induction ts with
  | nil =>
    intro fuel index acc hsl hle _ _ hfuel
    match fuel, hfuel with
    | f + 1, _ =>
      have h0 : (strSlice d index endi).length = endi - index := strSlice_length hend
      rw [hsl] at h0
      simp at h0
      have : ¬(index < endi) := by omega
      simp [parseParams, this]
  | cons t us ih =>
    intro fuel index acc hsl hle hwf hc hfuel
    simp only [List.all_cons, Bool.and_eq_true] at hwf hc
    match fuel, hfuel with
    | f + 1, hfuel =>
      have hlen : (strSlice d index endi).length = endi - index := strSlice_length hend
      have hwlen := write_length_pos hwf.1
      have hflat : (strSlice d index endi).length =
          t.writeDescriptor.length
            + ((us.map JavaType.writeDescriptor).flatten).length := by
        rw [hsl]; simp
      have hkey : endi - index = t.writeDescriptor.length
          + ((us.map JavaType.writeDescriptor).flatten).length := by
        rw [← hlen, hflat]
      have hlt : index < endi := by omega
      have hsz : index + t.writeDescriptor.length ≤ endi := by omega
      have hp : parsePartialDescriptor (strSlice d index endi) =
          .ok (t.writeDescriptor.length, t) := by
        rw [hsl, List.map_cons, List.flatten_cons]
        exact parsePartial_write hwf.1 hc.1 _
      have hrest : strSlice d (index + t.writeDescriptor.length) endi =
          (us.map JavaType.writeDescriptor).flatten := by
        rw [← strSlice_drop, hsl]
        simp [List.drop_left]
      have hrec : parseParams d endi f (index + t.writeDescriptor.length)
          (acc ++ [t]) = .ok ((acc ++ [t]) ++ us) :=
        ih (acc ++ [t]) hrest hsz hwf.2 hc.2
          (by simp only [List.length_cons] at hfuel; omega)
      simp only [parseParams, if_pos hlt, hp]
      rw [hrec]
      simp

/-- Parse after write at the method-descriptor level: a clean well-formed
signature reparses to itself. -/
theorem parseMethod_write {p : ParsedSig} (hwf : p.wf = true) (hc : p.clean = true) :
    parseMethodSignature p.writeDescriptor = .ok p := by
  obtain ⟨params, ret⟩ := p
  simp only [ParsedSig.wf, Bool.and_eq_true] at hwf
  simp only [ParsedSig.clean, Bool.and_eq_true] at hc
  set flat := (params.map JavaType.writeDescriptor).flatten with hflat
  set retw := ret.writeDescriptor with hretw
  have hw : (ParsedSig.mk params ret).writeDescriptor = 40 :: (flat ++ 41 :: retw) := by
    simp [ParsedSig.writeDescriptor]
  rw [hw]
  have hno41 : (41 : Nat) ∉ (40 : Nat) :: flat := by
    simp only [List.mem_cons]
    rintro (hm | hm)
    · omega
    · rw [hflat] at hm
      rw [List.mem_flatten] at hm
      obtain ⟨l, hl, hml⟩ := hm
      rw [List.mem_map] at hl
      obtain ⟨t, htmem, rfl⟩ := hl
      exact write_ne_41 (by
        have := List.all_eq_true.mp hwf.1 t htmem
        simpa using this) (by
        have := List.all_eq_true.mp hc.1 t htmem
        simpa using this) hml
  have hfi : firstIdx (fun c => c = 41) ((40 : Nat) :: (flat ++ 41 :: retw)) =
      some (flat.length + 1) := by
    have h1 : (40 : Nat) :: (flat ++ 41 :: retw) = ((40 : Nat) :: flat) ++ 41 :: retw := by
      simp
    rw [h1, firstIdx_notmem_append hno41 retw]
    simp
  have hd : ((40 : Nat) :: (flat ++ 41 :: retw)) = [] ∨ True := Or.inr trivial
  simp only [parseMethodSignature, if_pos rfl, hfi]
  set endi := flat.length + 1 with hendi
  have hend : endi ≤ ((40 : Nat) :: (flat ++ 41 :: retw)).length := by
    simp [hendi]
  have hsl : strSlice ((40 : Nat) :: (flat ++ 41 :: retw)) 1 endi = flat := by
    have ht : ((40 : Nat) :: (flat ++ 41 :: retw)).take endi = 40 :: flat := by
      rw [hendi]
      rw [List.take_cons (by omega)]
      congr 1
      simp only [Nat.add_sub_cancel]
      simpa using List.take_left flat ((41 : Nat) :: retw)
    simp [strSlice, ht]
  have hfuel : params.length + 1 ≤ endi + 1 := by
    have hlf := length_le_flatten_length hwf.1
    rw [← hflat] at hlf
    rw [hendi]
    omega
  have hpp := parseParams_write hend params ([] : List JavaType) hsl (by omega)
    hwf.1 hc.1 hfuel
  rw [hpp]
  have hdrop : ((40 : Nat) :: (flat ++ 41 :: retw)).drop (endi + 1) = retw := by
    rw [hendi]
    simp only [List.drop_succ_cons]
    have : flat.length + 1 = flat.length + 1 := rfl
    rw [show (flat ++ (41 : Nat) :: retw).drop (flat.length + 1) =
      ((41 : Nat) :: retw).drop 1 by
        have := @List.drop_append Nat flat ((41 : Nat) :: retw) 1
        simpa using this]
    simp
  rw [hdrop]
  have hrt : parseTypeDescriptor retw = .ok ret := by
    unfold parseTypeDescriptor
    have := parsePartial_write hwf.2 hc.2 []
    rw [List.append_nil] at this
    rw [hretw, this]
    simp
  rw [hrt]
  simp

/-! ### Lemmas: class remapping of descriptors -/

theorem remapClass_eq_mapClasses {f : Str → Str} {t : JavaType} (hwf : t.wf = true) :
    t.remapClass f = some (mapClasses f t) := by
  cases t with
  | classRef n => rfl
  | primitive p => rfl
  | array dims e =>
    cases e with
    | classRef n => rfl
    | primitive p => rfl
    | array d2 e2 => simp [JavaType.wf, JavaType.nonArray] at hwf

theorem mapM_remapClass {f : Str → Str} :
    ∀ {ts : List JavaType}, ts.all JavaType.wf = true →
      ts.mapM (JavaType.remapClass f) = some (ts.map (mapClasses f)) := by
  intro ts
  induction ts with
  | nil => intro _; rfl
  | cons t us ih =>
    intro h
    simp only [List.all_cons, Bool.and_eq_true] at h
    rw [List.mapM_cons, remapClass_eq_mapClasses h.1, ih h.2]
    rfl

theorem sigRemapClass_eq {f : Str → Str} {p : ParsedSig} (hwf : p.wf = true) :
    p.remapClass f = some (mapSigClasses f p) := by
  obtain ⟨params, ret⟩ := p
  simp only [ParsedSig.wf, Bool.and_eq_true] at hwf
  simp only [ParsedSig.remapClass, bind, Option.bind]
  rw [mapM_remapClass hwf.1]
  simp only [Option.bind_some]
  rw [remapClass_eq_mapClasses hwf.2]
  rfl

theorem wf_mapClasses {f : Str → Str} {t : JavaType} :
    (mapClasses f t).wf = t.wf := by
  cases t with
  | classRef n => rfl
  | primitive p => rfl
  | array dims e =>
    cases e <;> simp [mapClasses, JavaType.wf, JavaType.nonArray]

theorem clean_mapClasses {f : Str → Str} {t : JavaType}
    (h : ∀ c ∈ t.classNames, cleanStr (f c) = true) : (mapClasses f t).clean = true := by
  induction t with
  | classRef n => exact h n (by simp [JavaType.classNames])
  | primitive p => rfl
  | array dims e ih => exact ih (fun c hc => h c (by simpa [JavaType.classNames] using hc))

theorem mapClasses_comp (g f : Str → Str) (t : JavaType) :
    mapClasses g (mapClasses f t) = mapClasses (fun c => g (f c)) t := by
  induction t with
  | classRef n => rfl
  | primitive p => rfl
  | array dims e ih => simp [mapClasses, ih]

theorem mapClasses_id {f : Str → Str} {t : JavaType}
    (h : ∀ c ∈ t.classNames, f c = c) : mapClasses f t = t := by
  induction t with
  | classRef n => simp [mapClasses, h n (by simp [JavaType.classNames])]
  | primitive p => rfl
  | array dims e ih =>
    simp only [mapClasses, JavaType.array.injEq, true_and]
    exact ih (fun c hc => h c (by simpa [JavaType.classNames] using hc))

theorem all_wf_map_mapClasses {f : Str → Str} : ∀ (ts : List JavaType),
    (ts.map (mapClasses f)).all JavaType.wf = ts.all JavaType.wf := by
  intro ts
  induction ts with
  | nil => rfl
  | cons t us ih => simp [wf_mapClasses, ih]

theorem wf_mapSigClasses {f : Str → Str} {p : ParsedSig} :
    (mapSigClasses f p).wf = p.wf := by
  obtain ⟨params, ret⟩ := p
  simp only [mapSigClasses, ParsedSig.wf, wf_mapClasses, all_wf_map_mapClasses]

theorem clean_mapSigClasses {f : Str → Str} {p : ParsedSig}
    (h : ∀ c ∈ p.classNames, cleanStr (f c) = true) : (mapSigClasses f p).clean = true := by
  obtain ⟨params, ret⟩ := p
  simp only [mapSigClasses, ParsedSig.clean, Bool.and_eq_true, List.all_map]
  constructor
  · rw [List.all_eq_true]
    intro t ht
    refine clean_mapClasses (fun c hc => h c ?_)
    simp only [ParsedSig.classNames, List.mem_append, List.mem_flatten]
    exact Or.inl ⟨t.classNames, List.mem_map_of_mem _ ht, hc⟩
  · refine clean_mapClasses (fun c hc => h c ?_)
    simp [ParsedSig.classNames, hc]

theorem mapSigClasses_comp (g f : Str → Str) (p : ParsedSig) :
    mapSigClasses g (mapSigClasses f p) = mapSigClasses (fun c => g (f c)) p := by
  obtain ⟨params, ret⟩ := p
  simp [mapSigClasses, mapClasses_comp, Function.comp]

theorem mapSigClasses_id {f : Str → Str} {p : ParsedSig}
    (h : ∀ c ∈ p.classNames, f c = c) : mapSigClasses f p = p := by
  obtain ⟨params, ret⟩ := p
  simp only [mapSigClasses, ParsedSig.mk.injEq]
  constructor
  · rw [show params.map (mapClasses f) = params.map id from
      List.map_congr_left (fun t ht => mapClasses_id (fun c hc => h c (by
        simp only [ParsedSig.classNames, List.mem_append, List.mem_flatten]
        exact Or.inl ⟨t.classNames, List.mem_map_of_mem _ ht, hc⟩)))]
    exact List.map_id params
  · refine mapClasses_id (fun c hc => h c ?_)
    simp [ParsedSig.classNames, hc]

/-- The computed value of `remapDescriptor` on a parseable descriptor. -/
theorem remapDescriptor_eq {classes : List (Str × Str)} {d : Str} {parsed : ParsedSig}
    (hp : parseMethodSignature d = .ok parsed) :
    remapDescriptor classes d =
      some ((mapSigClasses (classApply classes) parsed).writeDescriptor) := by
  unfold remapDescriptor
  rw [hp]
  show (parsed.remapClass (classApply classes)).map ParsedSig.writeDescriptor = _
  rw [sigRemapClass_eq (parseMethod_ok hp).2]
  rfl

theorem classApply_nil (c : Str) : classApply [] c = c := rfl

/-- Remapping through an empty class table returns the descriptor unchanged. -/
theorem remapDescriptor_nil {d : Str} {parsed : ParsedSig}
    (hp : parseMethodSignature d = .ok parsed) :
    remapDescriptor [] d = some d := by
  rw [remapDescriptor_eq hp, mapSigClasses_id (fun c _ => classApply_nil c),
    (parseMethod_ok hp).1]

/-- Remapping forward and then through an inverting table restores the
descriptor, provided the forward images of its class names are clean. -/
theorem remapDescriptor_comp {σ σr : List (Str × Str)} {d : Str} {parsed : ParsedSig}
    (hp : parseMethodSignature d = .ok parsed)
    (hclean : ∀ c ∈ parsed.classNames, cleanStr (classApply σ c) = true)
    (hinv : ∀ c ∈ parsed.classNames, classApply σr (classApply σ c) = c) :
    remapDescriptor σ d = some ((mapSigClasses (classApply σ) parsed).writeDescriptor) ∧
      remapDescriptor σr ((mapSigClasses (classApply σ) parsed).writeDescriptor) =
        some d := by
  obtain ⟨hw, hwf⟩ := parseMethod_ok hp
  refine ⟨remapDescriptor_eq hp, ?_⟩
  have hqwf : (mapSigClasses (classApply σ) parsed).wf = true := by
    rw [wf_mapSigClasses]; exact hwf
  have hqclean : (mapSigClasses (classApply σ) parsed).clean = true :=
    clean_mapSigClasses hclean
  have hq := parseMethod_write hqwf hqclean
  rw [remapDescriptor_eq hq, mapSigClasses_comp]
  have h3 : mapSigClasses (fun c => classApply σr (classApply σ c)) parsed = parsed :=
    mapSigClasses_id hinv
  rw [h3, hw]

/-! ### Claim C5 -/

/-- C5: for every snapshot `S`, every class `c` explicitly mapped in
`S.classes`, and every field key `f = (c, n)` not present in `S.fields`,
`S.get_field(f)` returns a key whose class is `S.classes[c]` and whose name is
`n` unchanged. -/
theorem C5_get_field_implicit_class_remap (S : MappingsSnapshot) (c n v : Str)
    (hcls : omGet S.classes c = some v)
    (hnf : omGet S.fields (FieldKey.mk c n) = none) :
    S.getField ⟨c, n⟩ = ⟨v, n⟩ := by
  simp [MappingsSnapshot.getField, MappingsSnapshot.tryGetField, hnf,
    MappingsSnapshot.getClass, classApply, hcls]

/-- Witness for C5 at a concrete snapshot. -/
theorem C5_get_field_implicit_class_remap_witness :
    MappingsSnapshot.getField ⟨[], [], [([97], [98])]⟩ ⟨[97], [102]⟩ = ⟨[98], [102]⟩ :=
  C5_get_field_implicit_class_remap ⟨[], [], [([97], [98])]⟩ [97] [102] [98]
    (by decide) (by decide)

/-! ### Claim C1 -/

/-- The spec's own range-apply scenario (§8): source `"foo.bar()"`, one method
reference at `[4,7)` to `Foo.bar()V`, snapshot mapping it to `baz`. -/
def c1Method : MethodKey := ⟨strBytes "Foo", strBytes "bar", strBytes "()V"⟩

/-- The snapshot renaming `Foo.bar()V` to `baz`. -/
def c1Snapshot : MappingsSnapshot :=
  ⟨[], [(c1Method, ⟨strBytes "Foo", strBytes "baz", strBytes "()V"⟩)], []⟩

/-- C1: the applier's count should equal the number of spans whose mapping was
present and differed, for field and method references alike.  The code's
method branch of `remap_reference` computes the `changed` flag with `==`
where the field branch uses `!=`, so on the spec's own scenario the output
bytes are rewritten to `"foo.baz()"` but the count is 0, not 1. -/
theorem C1_method_change_count_inverted :
    rangeApply c1Snapshot [.methodRef ⟨4, 7⟩ c1Method] (strBytes "foo.bar()")
      = some (0, strBytes "foo.baz()")
    ∧ specChangedCount c1Snapshot [.methodRef ⟨4, 7⟩ c1Method] = 1 := by
  constructor
  · rfl
  · rfl

/-! ### Claim C9 -/

/-- Every string of the claimed target grammar, for the counterexample's
containment check: the 4×4 format pairs with the four modifier options. -/
def allTargetStrs : List Str :=
  [MappingsFormat.srg, .mcp, .spigot, .obf].flatMap (fun o =>
    [MappingsFormat.srg, .mcp, .spigot, .obf].flatMap (fun r =>
      [none, some TargetModifier.classes, some .members, some .onlyobf].map
        (fun m => targetStr o r m)))

/-- C9 counterexample: `"obf2srg!"` is not of the form
`ORIGINAL '2' RENAMED ('-' MODIFIER)?` (it is none of the 64 grammar strings),
yet `from_str` accepts it, because the target regex is unanchored. -/
theorem C9_counterexample_unanchored :
    MappingsTarget.fromStr (strBytes "obf2srg!") =
      some ⟨MappingsFormat.obf, MappingsFormat.srg, none⟩
    ∧ allTargetStrs.contains (strBytes "obf2srg!") = false := by
  constructor
  · rfl
  · rfl

/-- C9 (amended): `from_str` succeeds on every string of the exact form
`ORIGINAL '2' RENAMED ('-' MODIFIER)?` with distinct formats, returning that
target, and rejects every such string with `ORIGINAL = RENAMED`; but it does
not reject all remaining strings (the regex is unanchored, see the
counterexample). -/
theorem C9_target_grammar :
    (∀ (o r : MappingsFormat) (m : Option TargetModifier), o ≠ r →
      MappingsTarget.fromStr (targetStr o r m) = some ⟨o, r, m⟩)
    ∧ (∀ (o : MappingsFormat) (m : Option TargetModifier),
      MappingsTarget.fromStr (targetStr o o m) = none) := by
  constructor
  · decide
  · decide

/-- Witness for C9 at a concrete target string. -/
theorem C9_target_grammar_witness :
    MappingsTarget.fromStr (targetStr .spigot .mcp (some .onlyobf)) =
      some ⟨MappingsFormat.spigot, MappingsFormat.mcp, some TargetModifier.onlyobf⟩ :=
  C9_target_grammar.1 .spigot .mcp (some .onlyobf) (by decide)

/-! ### Claim C10 -/

/-- C10: a binary method entry whose revised name is empty or equal to the
original name but whose revised descriptor is present, parses, and differs
from the original descriptor is accepted without error and inserts nothing:
decoding continues on the remaining stream with the builder unchanged. -/
theorem C10_name_identity_descriptor_changed_dropped
    (cls : Str) (n : Nat) (b : MappingsBuilder)
    (input r1 r2 r3 r4 originalName rawRevisedName originalSignature
      rawRevisedSignature : Str)
    (h1 : readStr16 input = some (originalName, r1))
    (hne : originalName ≠ [])
    (h2 : readStr16 r1 = some (rawRevisedName, r2))
    (hrev : rawRevisedName = [] ∨ rawRevisedName = originalName)
    (h3 : readStr16 r2 = some (originalSignature, r3))
    (hsig : ∃ ps, parseMethodSignature originalSignature = .ok ps)
    (h4 : readStr16 r3 = some (rawRevisedSignature, r4))
    (hrsne : rawRevisedSignature ≠ [])
    (hrsig : ∃ qs, parseMethodSignature rawRevisedSignature = .ok qs)
    (hdiff : rawRevisedSignature ≠ originalSignature) :
    decodeMethods cls (n + 1) b input = decodeMethods cls n b r4 := by
  obtain ⟨ps, hps⟩ := hsig
  obtain ⟨qs, hqs⟩ := hrsig
  have hrevn : (if rawRevisedName = [] then originalName else rawRevisedName)
      = originalName := by
    rcases hrev with rfl | rfl <;> simp
  simp only [decodeMethods, h1, h2, h3, h4, hps, hqs, hrevn, hne, hrsne, hdiff,
    if_neg, ite_false, ite_true, ne_eq, not_false_eq_true, if_true,
    not_true_eq_false, if_false, decide_not]
  simp [hdiff]

/-- Witness for C10: a concrete stream whose single method entry has an empty
revised name and descriptor `()V` revised to `()I`; the entry is consumed,
nothing is inserted. -/
theorem C10_name_identity_descriptor_changed_dropped_witness :
    decodeMethods [65] 1 emptyBuilder
        [0, 1, 109, 0, 0, 0, 3, 40, 41, 86, 0, 3, 40, 41, 73]
      = decodeMethods [65] 0 emptyBuilder [] :=
  C10_name_identity_descriptor_changed_dropped [65] 0 emptyBuilder
    [0, 1, 109, 0, 0, 0, 3, 40, 41, 86, 0, 3, 40, 41, 73]
    [0, 0, 0, 3, 40, 41, 86, 0, 3, 40, 41, 73]
    [0, 3, 40, 41, 86, 0, 3, 40, 41, 73]
    [0, 3, 40, 41, 73] [] [109] [] [40, 41, 86] [40, 41, 73]
    rfl (by decide) rfl (Or.inl rfl) rfl ⟨⟨[], .primitive .void⟩, rfl⟩ rfl
    (by decide) ⟨⟨[], .primitive .int⟩, rfl⟩ (by decide)

/-! ### Claim C8 -/

theorem omInsert_mem_cases {α β : Type} [DecidableEq α] {m : List (α × β)}
    {k : α} {v : β} {q : α × β} (h : q ∈ omInsert m k v) :
    q ∈ m ∨ (q.1 = k ∧ q.2 = v) := by
  unfold omInsert at h
  by_cases hm : omMem m k
  · rw [if_pos hm] at h
    rw [List.mem_map] at h
    obtain ⟨p, hp, hq⟩ := h
    by_cases hpk : p.1 = k
    · rw [if_pos hpk] at hq
      right
      rw [← hq]
      exact ⟨hpk, rfl⟩
    · rw [if_neg hpk] at hq
      exact Or.inl (hq ▸ hp)
  · rw [if_neg hm] at h
    rw [List.mem_append] at h
    rcases h with h | h
    · exact Or.inl h
    · right
      simp at h
      simp [h]

/-- No identity entries in the member tables of a builder. -/
def noIdentity (b : MappingsBuilder) : Prop :=
  (∀ q ∈ b.fieldNames, q.2 ≠ q.1.name) ∧ (∀ q ∈ b.methodNames, q.2 ≠ q.1.name)

theorem decodeFields_noIdentity (cls : Str) :
    ∀ (n : Nat) (b : MappingsBuilder) (input : Str) {b' : MappingsBuilder} {rest : Str},
      decodeFields cls n b input = .ok (b', rest) → noIdentity b → noIdentity b' := by
  intro n
  induction n with
  | zero =>
    intro b input b' rest h hinv
    unfold decodeFields at h
    injection h with h2
    injection h2 with ha hb
    exact ha ▸ hinv
  | succ n ih =>
    intro b input b' rest h hinv
    unfold decodeFields at h
    match hr1 : readStr16 input with
    | none => simp only [hr1] at h; simp at h
    | some (nm, r1) =>
      simp only [hr1] at h
      by_cases hnm : nm = []
      · rw [if_pos hnm] at h; simp at h
      · rw [if_neg hnm] at h
        match hr2 : readStr16 r1 with
        | none => simp only [hr2] at h; simp at h
        | some (rv, r2) =>
          simp only [hr2] at h
          by_cases hrv : rv = []
          · rw [if_pos hrv] at h; simp at h
          · rw [if_neg hrv] at h
            by_cases heq : nm = rv
            · rw [if_pos heq] at h; simp at h
            · rw [if_neg heq] at h
              refine ih _ _ h ⟨?_, hinv.2⟩
              intro q hq
              rcases omInsert_mem_cases hq with hq | ⟨hk, hv⟩
              · exact hinv.1 q hq
              · rw [hv, hk]
                exact fun hco => heq hco.symm

theorem decodeMethods_noIdentity (cls : Str) :
    ∀ (n : Nat) (b : MappingsBuilder) (input : Str) {b' : MappingsBuilder} {rest : Str},
      decodeMethods cls n b input = .ok (b', rest) → noIdentity b → noIdentity b' := by
  intro n
  induction n with
  | zero =>
    intro b input b' rest h hinv
    unfold decodeMethods at h
    injection h with h2
    injection h2 with ha hb
    exact ha ▸ hinv
  | succ n ih =>
    intro b input b' rest h hinv
    unfold decodeMethods at h
    match hr1 : readStr16 input with
    | none => simp only [hr1] at h; simp at h
    | some (nm, r1) =>
      simp only [hr1] at h
      by_cases hnm : nm = []
      · rw [if_pos hnm] at h; simp at h
      · rw [if_neg hnm] at h
        match hr2 : readStr16 r1 with
        | none => simp only [hr2] at h; simp at h
        | some (rawRv, r2) =>
          simp only [hr2] at h
          match hr3 : readStr16 r2 with
          | none => simp only [hr3] at h; simp at h
          | some (sig, r3) =>
            simp only [hr3] at h
            match hps : parseMethodSignature sig with
            | .error e => simp only [hps] at h; simp at h
            | .ok ps =>
              simp only [hps] at h
              match hr4 : readStr16 r3 with
              | none => simp only [hr4] at h; simp at h
              | some (rawRs, r4) =>
                simp only [hr4] at h
                match hcomp : (if rawRs ≠ [] then
                    match parseMethodSignature rawRs with
                    | .error e => .error (.invalidMethodDescriptor e)
                    | .ok _ => .ok (some rawRs)
                  else .ok none : Except BinaryMappingError (Option Str)) with
                | .error e => simp only [hcomp] at h; simp at h
                | .ok revisedSignature =>
                  simp only [hcomp] at h
                  by_cases hne2 : nm ≠ (if rawRv = [] then nm else rawRv)
                  · rw [if_pos hne2] at h
                    refine ih _ _ h ⟨hinv.1, ?_⟩
                    intro q hq
                    rcases omInsert_mem_cases hq with hq | ⟨hk, hv⟩
                    · exact hinv.2 q hq
                    · rw [hv, hk]
                      exact fun hco => hne2 hco.symm
                  · rw [if_neg hne2] at h
                    match revisedSignature with
                    | some rs =>
                      by_cases hch : rs = sig
                      · simp [hch] at h
                      · simp [hch] at h
                        exact ih _ _ h hinv
                    | none => simp at h

theorem decodeClasses_noIdentity :
    ∀ (n : Nat) (b : MappingsBuilder) (input : Str) {b' : MappingsBuilder} {rest : Str},
      decodeClasses n b input = .ok (b', rest) → noIdentity b → noIdentity b' := by
  intro n
  induction n with
  | zero =>
    intro b input b' rest h hinv
    unfold decodeClasses at h
    injection h with h2
    injection h2 with ha hb
    exact ha ▸ hinv
  | succ n ih =>
    intro b input b' rest h hinv
    unfold decodeClasses at h
    match hr1 : readStr16 input with
    | none => simp only [hr1] at h; simp at h
    | some (oc, r1) =>
      simp only [hr1] at h
      by_cases hoc : oc = []
      · rw [if_pos hoc] at h; simp at h
      · rw [if_neg hoc] at h
        match hr2 : readStr16 r1 with
        | none => simp only [hr2] at h; simp at h
        | some (rawRev, r2) =>
          simp only [hr2] at h
          match hr3 : readU32 r2 with
          | none => simp only [hr3] at h; simp at h
          | some (numMethods, r3) =>
            simp only [hr3] at h
            match hm : decodeMethods oc numMethods
                (if (if rawRev = [] then oc else rawRev) ≠ oc
                  then MappingsBuilder.insertClass b oc
                    (if rawRev = [] then oc else rawRev) else b) r3 with
            | .error e => simp only [hm] at h; simp at h
            | .ok (b2, r4) =>
              simp only [hm] at h
              match hr5 : readU32 r4 with
              | none => simp only [hr5] at h; simp at h
              | some (numFields, r5) =>
                simp only [hr5] at h
                match hf : decodeFields oc numFields b2 r5 with
                | .error e => simp only [hf] at h; simp at h
                | .ok (b3, r6) =>
                  simp only [hf] at h
                  have hinv2 : noIdentity b2 := by
                    refine decodeMethods_noIdentity oc numMethods _ r3 hm ?_
                    by_cases hcl : (if rawRev = [] then oc else rawRev) ≠ oc
                    · rw [if_pos hcl]
                      exact hinv
                    · rw [if_neg hcl]
                      exact hinv
                  have hinv3 : noIdentity b3 :=
                    decodeFields_noIdentity oc numFields b2 r5 hf hinv2
                  exact ih b3 r6 h hinv3

/-- C8: the binary decoder fails with `UnchangedField` whenever the next field
entry's revised name equals its original name, and with `UnchangedMethod`
whenever the next method entry has an unchanged name and an unchanged or
omitted revised descriptor; and no identity entry is ever inserted: any
successful decode preserves (from the empty builder, establishes) the absence
of identity member entries. -/
theorem C8_decoder_rejects_identity_entries :
    (∀ (cls : Str) (n : Nat) (b : MappingsBuilder) (input r1 r2 nm rv : Str),
      readStr16 input = some (nm, r1) → nm ≠ [] →
      readStr16 r1 = some (rv, r2) → rv ≠ [] → nm = rv →
      decodeFields cls (n + 1) b input = .error (.unchangedField ⟨cls, nm⟩))
    ∧ (∀ (cls : Str) (n : Nat) (b : MappingsBuilder)
        (input r1 r2 r3 r4 nm rawRv sig rawRs : Str),
      readStr16 input = some (nm, r1) → nm ≠ [] →
      readStr16 r1 = some (rawRv, r2) → (rawRv = [] ∨ rawRv = nm) →
      readStr16 r2 = some (sig, r3) → (∃ ps, parseMethodSignature sig = .ok ps) →
      readStr16 r3 = some (rawRs, r4) → (rawRs = [] ∨ rawRs = sig) →
      decodeMethods cls (n + 1) b input = .error (.unchangedMethod ⟨cls, nm, sig⟩))
    ∧ (∀ (input : Str) (b b' : MappingsBuilder),
      decodeBody b input = .ok b' → noIdentity b → noIdentity b') := by
  refine ⟨?_, ?_, ?_⟩
  · intro cls n b input r1 r2 nm rv h1 hne h2 hrvne heq
    simp [decodeFields, h1, h2, hne, hrvne, heq]
  · intro cls n b input r1 r2 r3 r4 nm rawRv sig rawRs h1 hne h2 hrev h3 hsig h4 hrs
    obtain ⟨ps, hps⟩ := hsig
    have hrevn : (if rawRv = [] then nm else rawRv) = nm := by
      rcases hrev with rfl | rfl <;> simp
    rcases hrs with rfl | rfl
    · simp [decodeMethods, h1, h2, h3, h4, hps, hrevn, hne]
    · by_cases hre : rawRs = []
      · rw [hre] at hps
        simp [parseMethodSignature] at hps
      · simp [decodeMethods, h1, h2, h3, h4, hps, hrevn, hne, hre]
  · intro input b b' h hinv
    unfold decodeBody at h
    match hr : readU64 input with
    | none => simp only [hr] at h; simp at h
    | some (numClasses, r) =>
      simp only [hr] at h
      match hc : decodeClasses numClasses b r with
      | .error e => simp only [hc] at h; simp at h
      | .ok (b2, trailing) =>
        simp only [hc] at h
        by_cases ht : trailing ≠ []
        · rw [if_pos ht] at h; simp at h
        · rw [if_neg ht] at h
          injection h with h2
          exact h2 ▸ decodeClasses_noIdentity numClasses b r hc hinv

/-- Witness for C8: concrete identity field and method entries produce the two
errors, and a concrete successful decode of one renamed field has no identity
entries. -/
theorem C8_decoder_rejects_identity_entries_witness :
    decodeFields [65] 1 emptyBuilder [0, 1, 102, 0, 1, 102]
      = .error (.unchangedField ⟨[65], [102]⟩)
    ∧ decodeMethods [65] 1 emptyBuilder [0, 1, 109, 0, 0, 0, 3, 40, 41, 86, 0, 0]
      = .error (.unchangedMethod ⟨[65], [109], [40, 41, 86]⟩)
    ∧ noIdentity ⟨[(⟨[65], [102]⟩, [103])], [], []⟩ := by
  refine ⟨?_, ?_, ?_⟩
  · exact C8_decoder_rejects_identity_entries.1 [65] 0 emptyBuilder
      [0, 1, 102, 0, 1, 102] [0, 1, 102] [] [102] [102] rfl (by decide) rfl
      (by decide) rfl
  · exact C8_decoder_rejects_identity_entries.2.1 [65] 0 emptyBuilder
      [0, 1, 109, 0, 0, 0, 3, 40, 41, 86, 0, 0]
      [0, 0, 0, 3, 40, 41, 86, 0, 0] [0, 3, 40, 41, 86, 0, 0] [0, 0] []
      [109] [] [40, 41, 86] [] rfl (by decide) rfl (Or.inl rfl) rfl
      ⟨⟨[], .primitive .void⟩, rfl⟩ rfl (Or.inl rfl)
  · exact C8_decoder_rejects_identity_entries.2.2 (writeU64 0)
      ⟨[(⟨[65], [102]⟩, [103])], [], []⟩ ⟨[(⟨[65], [102]⟩, [103])], [], []⟩
      rfl
      ⟨fun q hq => by simp at hq; simp [hq], fun q hq => by simp at hq⟩

/-! ### Claim C4 -/

theorem omGet_eq_some {α β : Type} [DecidableEq α] {m : List (α × β)} {k : α} {v : β}
    (h : omGet m k = some v) : ∃ q ∈ m, q.1 = k ∧ q.2 = v := by
  unfold omGet at h
  match hf : m.find? (fun p => p.1 = k) with
  | none => rw [hf] at h; simp at h
  | some q =>
    rw [hf] at h
    simp only [Option.map_some', Option.some.injEq] at h
    have hm := List.mem_of_find?_eq_some hf
    have hp := List.find?_some hf
    exact ⟨q, hm, by simpa using hp, h⟩

theorem omGet_append_single {α β : Type} [DecidableEq α] {m : List (α × β)}
    {k0 k : α} {v0 v : β} (h : omGet (m ++ [(k0, v0)]) k = some v) :
    omGet m k = some v ∨ (k0 = k ∧ v0 = v) := by
  unfold omGet at h ⊢
  rw [List.find?_append] at h
  match hf : m.find? (fun p => p.1 = k) with
  | some q => rw [hf] at h; simp_all
  | none =>
    rw [hf] at h
    simp only [Option.none_or] at h
    by_cases hk : k0 = k
    · simp [List.find?, hk] at h
      simp [hk, h]
    · simp [List.find?, hk] at h

theorem csig_fold_spec {cl : List (Str × Str)} :
    ∀ (l : List (MethodKey × Str)) (acc : List (Str × Str)) {sigs : List (Str × Str)},
      (∀ s v, omGet acc s = some v → remapDescriptor cl s = some v) →
      l.foldlM (fun sigs p =>
        if omMem sigs p.1.signature then some sigs
        else (remapDescriptor cl p.1.signature).map
          (fun d => sigs ++ [(p.1.signature, d)])) acc = some sigs →
      ∀ s v, omGet sigs s = some v → remapDescriptor cl s = some v := by
  intro l
  induction l with
  | nil =>
    intro acc sigs hacc h
    simp only [List.foldlM_nil, Option.pure_def, Option.some.injEq] at h
    exact h ▸ hacc
  | cons p ps ih =>
    intro acc sigs hacc h
    rw [List.foldlM_cons] at h
    by_cases hm : omMem acc p.1.signature
    · rw [if_pos hm] at h
      simp only [Option.bind_eq_bind, Option.some_bind] at h
      exact ih acc hacc h
    · rw [if_neg hm] at h
      match hrd : remapDescriptor cl p.1.signature with
      | none => rw [hrd] at h; simp at h
      | some d =>
        rw [hrd] at h
        simp only [Option.map_some, Option.bind_eq_bind, Option.some_bind] at h
        refine ih _ ?_ h
        intro s v hv
        rcases omGet_append_single hv with hv | ⟨rfl, rfl⟩
        · exact hacc s v hv
        · exact hrd

theorem mapM_option_mem {α β : Type} {f : α → Option β} :
    ∀ {l : List α} {l' : List β}, l.mapM f = some l' → ∀ q ∈ l', ∃ p ∈ l, f p = some q := by
  intro l
  induction l with
  | nil =>
    intro l' h q hq
    simp only [List.mapM_nil, Option.pure_def, Option.some.injEq] at h
    subst h
    simp at hq
  | cons a t ih =>
    intro l' h q hq
    rw [List.mapM_cons] at h
    match ha : f a with
    | none => rw [ha] at h; simp at h
    | some b =>
      rw [ha] at h
      match ht : t.mapM f with
      | none => rw [ht] at h; simp [ht] at h
      | some bs =>
        rw [ht] at h
        simp only [Option.bind_eq_bind, Option.some_bind, Option.pure_def,
          Option.some.injEq] at h
        subst h
        rcases List.mem_cons.mp hq with rfl | hq
        · exact ⟨a, by simp, ha⟩
        · obtain ⟨p, hp, hf⟩ := ih ht q hq
          exact ⟨p, by simp [hp], hf⟩

/-- C4: for every builder whose snapshot build succeeds and every method key
`m` present in the snapshot's method table, the stored renamed descriptor
equals `m`'s original descriptor with every embedded class reference
substituted through the snapshot's class table. -/
theorem C4_descriptor_consistency (b : MappingsBuilder) (S : MappingsSnapshot)
    (m r : MethodKey) (hs : b.snapshot = some S)
    (hget : omGet S.methods m = some r) :
    remapDescriptor S.classes m.signature = some r.signature := by
  unfold MappingsBuilder.snapshot at hs
  match hcs : computeSignatures b with
  | none => rw [hcs] at hs; simp at hs
  | some sigs =>
    rw [hcs] at hs
    simp only [Option.bind_eq_bind, Option.some_bind] at hs
    rcases Option.bind_eq_some.mp hs with ⟨methods, hmm, hret⟩
    simp only [Option.pure_def, Option.some.injEq] at hret
    subst hret
    obtain ⟨q, hqmem, hqk, hqv⟩ := omGet_eq_some hget
    obtain ⟨p, hpmem, hpf⟩ := mapM_option_mem hmm q hqmem
    rcases Option.bind_eq_some.mp hpf with ⟨ns, hns, hq2⟩
    simp only [Option.pure_def, Option.some.injEq] at hq2
    have hp1 : p.1 = m := by rw [← hq2] at hqk; exact hqk
    have hr : r.signature = ns := by rw [← hqv, ← hq2]
    rw [hr]
    have := csig_fold_spec b.methodNames [] (by intro s v hv; simp [omGet] at hv)
      hcs p.1.signature ns (hp1 ▸ hns)
    rw [← hp1]
    exact this

/-- Witness for C4 at a concrete builder (one class rename, one method whose
descriptor mentions the renamed class). -/
theorem C4_descriptor_consistency_witness :
    remapDescriptor [([97], [98])] (strBytes "(La;)V") = some (strBytes "(Lb;)V") := by
  have happ : MappingsBuilder.snapshot
      ⟨[], [(MethodKey.mk [97] [109] (strBytes "(La;)V"), [110])], [([97], [98])]⟩ =
      some ⟨[], [((MethodKey.mk [97] [109] (strBytes "(La;)V")),
        MethodKey.mk [98] [110] (strBytes "(Lb;)V"))], [([97], [98])]⟩ := by rfl
  exact C4_descriptor_consistency _ _ (MethodKey.mk [97] [109] (strBytes "(La;)V"))
    (MethodKey.mk [98] [110] (strBytes "(Lb;)V")) happ (by rfl)

/-! ### Claim C2 -/

/-- Conformance of a reference list to a source file: sorted, non-overlapping,
in-bounds ranges whose source bytes equal the referenced member's name
(the preconditions `FileRanges::sorted` asserts plus the applier's own
byte check). -/
def refsChainedB : List MemberReference → Nat → Str → Bool
  | [], _, _ => true
  | r :: rest, pos, src =>
      decide (pos ≤ r.location.start) && decide (r.location.start ≤ r.location.stop)
        && decide (r.location.stop ≤ src.length)
        && decide (strSlice src r.location.start r.location.stop = r.name)
        && refsChainedB rest r.location.stop src

/-- The number of references whose `changed` flag the code sets. -/
def applyChangedCount (s : MappingsSnapshot) (refs : List MemberReference) : Nat :=
  (refs.filter (fun r => (remapReference s r).1)).length

theorem remapReference_snd (s : MappingsSnapshot) (r : MemberReference) :
    (remapReference s r).2 = specMappedName s r := by
  cases r with
  | fieldRef loc f =>
    simp only [remapReference, specMappedName]
    match s.tryGetFieldName f with
    | some rn => rfl
    | none => rfl
  | methodRef loc m =>
    simp only [remapReference, specMappedName]
    match s.tryGetMethodName m with
    | some rn => rfl
    | none => rfl

theorem applyLoop_spec (s : MappingsSnapshot) :
    ∀ (refs : List MemberReference) (index cnt0 : Nat) (out : Str) (src : Str),
      index ≤ src.length →
      refsChainedB refs index src = true →
      applyLoop s refs index (src.drop index) cnt0 out =
        some (cnt0 + applyChangedCount s refs, out ++ specRewritten s refs index src) := by
  intro refs
  induction refs with
  | nil =>
    intro index cnt0 out src hle _
    simp [applyLoop, specRewritten, applyChangedCount]
  | cons r rest ih =>
    intro index cnt0 out src hle hch
    simp only [refsChainedB, Bool.and_eq_true, decide_eq_true_eq] at hch
    obtain ⟨⟨⟨⟨h1, h2⟩, h3⟩, h4⟩, h5⟩ := hch
    have hnlt : ¬(r.location.start < index) := by omega
    have hdlen : (src.drop index).length = src.length - index := by simp
    have hncopy : ¬((src.drop index).length < r.location.start - index) := by
      rw [hdlen]; omega
    have hstart : index + (r.location.start - index) = r.location.start := by omega
    have hstop : r.location.start + r.location.size = r.location.stop := by
      simp only [FileLocation.size]
      omega
    have htk : (src.drop index).take (r.location.start - index) =
        strSlice src index r.location.start := by
      rw [List.take_drop, hstart]
      rfl
    have hdr : (src.drop index).drop (r.location.start - index) =
        src.drop r.location.start := by
      rw [List.drop_drop, hstart]
    have hszlen : ¬((src.drop r.location.start).length < r.location.size) := by
      simp only [List.length_drop, FileLocation.size]
      omega
    have hon : (src.drop r.location.start).take r.location.size = r.name := by
      rw [← h4, List.take_drop, hstop]
      rfl
    have hnne : ¬((src.drop r.location.start).take r.location.size ≠ r.name) := by
      rw [hon]
      simp
    rcases hre : remapReference s r with ⟨chg, nm⟩
    have hnm : nm = specMappedName s r := by
      have := remapReference_snd s r
      rw [hre] at this
      exact this
    have hidx2 : index + (r.location.start - index) + r.location.size =
        r.location.stop := by
      simp only [FileLocation.size]
      omega
    have hdr2 : (src.drop r.location.start).drop r.location.size =
        src.drop r.location.stop := by
      rw [List.drop_drop, hstop]
    have hrec := ih r.location.stop (cnt0 + (if chg then 1 else 0))
      ((out ++ (src.drop index).take (r.location.start - index)) ++ nm) src h3 h5
    have hcnt : applyChangedCount s (r :: rest) =
        (if chg then 1 else 0) + applyChangedCount s rest := by
      simp only [applyChangedCount, List.filter_cons, hre]
      by_cases hc : chg
      · simp [hc, Nat.add_comm]
      · simp [hc]
    simp only [applyLoop, if_neg hnlt, if_neg hncopy, if_neg hszlen, if_neg hnne,
      hre, hdr]
    rw [hidx2, hdr2, hrec, hcnt]
    simp only [specRewritten, Option.some.injEq, Prod.mk.injEq]
    constructor
    · omega
    · rw [htk, hnm]
      simp [List.append_assoc]

/-- C2: for a conforming input (sorted, non-overlapping, in-bounds ranges
whose source bytes equal each referenced member's name), the applier's output
bytes equal the source bytes outside the listed ranges, and each range is
replaced by the mapped member name when the snapshot has a mapping for that
member and the original name otherwise (the `specRewritten` description of
the spec's contract). -/
theorem C2_range_apply_bytes (s : MappingsSnapshot) (refs : List MemberReference)
    (src : Str) (h : refsChainedB refs 0 src = true) :
    (rangeApply s refs src).map Prod.snd = some (specRewritten s refs 0 src) := by
  unfold rangeApply
  have hz := applyLoop_spec s refs 0 0 [] src (by omega) h
  rw [List.drop_zero] at hz
  rw [hz]
  simp

/-- Witness for C2 at the spec's §8 scenario. -/
theorem C2_range_apply_bytes_witness :
    (rangeApply c1Snapshot [.methodRef ⟨4, 7⟩ c1Method] (strBytes "foo.bar()")).map
        Prod.snd
      = some (specRewritten c1Snapshot [.methodRef ⟨4, 7⟩ c1Method] 0
          (strBytes "foo.bar()")) :=
  C2_range_apply_bytes c1Snapshot [.methodRef ⟨4, 7⟩ c1Method]
    (strBytes "foo.bar()") (by decide)

/-! ### Ordered-map and fold helper lemmas -/

theorem omMem_iff_exists {α β : Type} [DecidableEq α] {m : List (α × β)} {k : α} :
    omMem m k = true ↔ ∃ v, omGet m k = some v := by
  unfold omMem omGet
  rw [List.any_eq_true]
  constructor
  · rintro ⟨p, hp, hpk⟩
    have : (m.find? (fun p => p.1 = k)).isSome = true :=
      List.find?_isSome.mpr ⟨p, hp, hpk⟩
    match hf : m.find? (fun p => p.1 = k) with
    | none => rw [hf] at this; simp at this
    | some q => exact ⟨q.2, by rw [hf]; rfl⟩
  · rintro ⟨v, hv⟩
    match hf : m.find? (fun p => p.1 = k) with
    | none => rw [hf] at hv; simp at hv
    | some q =>
      refine ⟨q, List.mem_of_find?_eq_some hf, ?_⟩
      simpa using List.find?_some hf

theorem omMem_iff_keys {α β : Type} [DecidableEq α] {m : List (α × β)} {k : α} :
    omMem m k = true ↔ k ∈ m.map Prod.fst := by
  unfold omMem
  rw [List.any_eq_true, List.mem_map]
  constructor
  · rintro ⟨p, hp, hpk⟩
    exact ⟨p, hp, by simpa using hpk⟩
  · rintro ⟨p, hp, hpk⟩
    exact ⟨p, hp, by simpa using hpk⟩

theorem omInsert_not_mem {α β : Type} [DecidableEq α] {m : List (α × β)} {k : α}
    {v : β} (h : omMem m k = false) : omInsert m k v = m ++ [(k, v)] := by
  unfold omInsert
  rw [h]
  simp

theorem foldl_omInsert_self {α β : Type} [DecidableEq α] :
    ∀ (l : List (α × β)) (acc : List (α × β)),
      ((acc ++ l).map Prod.fst).Nodup →
      l.foldl (fun acc p => omInsert acc p.1 p.2) acc = acc ++ l := by
  intro l
  induction l with
  | nil => intro acc _; simp
  | cons p t ih =>
    intro acc hnd
    have hnm : omMem acc p.1 = false := by
      rw [Bool.eq_false_iff]
      intro hm
      rw [omMem_iff_keys] at hm
      rw [List.map_append] at hnd
      have hdisj := (List.nodup_append.mp hnd).2.2
      exact hdisj hm (by simp)
    have h1 : (p :: t).foldl (fun acc p => omInsert acc p.1 p.2) acc =
        t.foldl (fun acc p => omInsert acc p.1 p.2) (acc ++ [p]) := by
      simp [List.foldl_cons, omInsert_not_mem hnm]
    rw [h1, ih (acc ++ [p]) (by simpa using hnd)]
    simp

theorem foldlM_option_congr {α γ : Type} {step : γ → α → Option γ} {g : γ → α → γ} :
    ∀ {l : List α}, (∀ p ∈ l, ∀ a, step a p = some (g a p)) →
      ∀ (acc : γ), l.foldlM step acc = some (l.foldl g acc) := by
  intro l
  induction l with
  | nil => intro _ acc; rfl
  | cons p t ih =>
    intro h acc
    rw [List.foldlM_cons, h p (by simp) acc]
    simp only [Option.bind_eq_bind, Option.some_bind]
    rw [ih (fun q hq a => h q (by simp [hq]) a)]
    rfl

theorem csig_fold_total {cl : List (Str × Str)} :
    ∀ (l : List (MethodKey × Str)) (acc : List (Str × Str)),
      (∀ s v, omGet acc s = some v → remapDescriptor cl s = some v) →
      (∀ p ∈ l, ∃ d, remapDescriptor cl p.1.signature = some d) →
      ∃ sigs, l.foldlM (fun sigs p =>
          if omMem sigs p.1.signature then some sigs
          else (remapDescriptor cl p.1.signature).map
            (fun d => sigs ++ [(p.1.signature, d)])) acc = some sigs ∧
        (∀ s v, omGet sigs s = some v → remapDescriptor cl s = some v) ∧
        (∀ p ∈ l, omMem sigs p.1.signature = true) ∧
        (∀ s, omMem acc s = true → omMem sigs s = true) := by
  intro l
  induction l with
  | nil =>
    intro acc hacc _
    exact ⟨acc, by simp, hacc, by simp, fun s h => h⟩
  | cons p t ih =>
    intro acc hacc hone
    obtain ⟨d, hd⟩ := hone p (by simp)
    by_cases hm : omMem acc p.1.signature
    · obtain ⟨sigs, hfold, hspec, hcov, hpres⟩ :=
        ih acc hacc (fun q hq => hone q (by simp [hq]))
      refine ⟨sigs, ?_, hspec, ?_, hpres⟩
      · rw [List.foldlM_cons, if_pos hm]
        simpa using hfold
      · intro q hq
        rcases List.mem_cons.mp hq with rfl | hq
        · exact hpres _ hm
        · exact hcov q hq
    · have hacc2 : ∀ s v, omGet (acc ++ [(p.1.signature, d)]) s = some v →
          remapDescriptor cl s = some v := by
        intro s v hv
        rcases omGet_append_single hv with hv | ⟨rfl, rfl⟩
        · exact hacc s v hv
        · exact hd
      obtain ⟨sigs, hfold, hspec, hcov, hpres⟩ :=
        ih (acc ++ [(p.1.signature, d)]) hacc2 (fun q hq => hone q (by simp [hq]))
      refine ⟨sigs, ?_, hspec, ?_, ?_⟩
      · rw [List.foldlM_cons, if_neg hm, hd]
        simpa using hfold
      · intro q hq
        rcases List.mem_cons.mp hq with rfl | hq
        · refine hpres _ ?_
          rw [omMem_iff_keys]
          simp
        · exact hcov q hq
      · intro s hs
        refine hpres s ?_
        rw [omMem_iff_keys] at hs ⊢
        simp [hs]

/-- Totality and coverage of `compute_signatures` when every descriptor
remaps. -/
theorem computeSignatures_total {b : MappingsBuilder}
    (hp : ∀ p ∈ b.methodNames, ∃ d, remapDescriptor b.classes p.1.signature = some d) :
    ∃ sigs, computeSignatures b = some sigs ∧
      ∀ p ∈ b.methodNames, omGet sigs p.1.signature =
        remapDescriptor b.classes p.1.signature := by
  obtain ⟨sigs, hfold, hspec, hcov, _⟩ :=
    csig_fold_total b.methodNames [] (by intro s v hv; simp [omGet] at hv) hp
  refine ⟨sigs, hfold, ?_⟩
  intro p hpm
  obtain ⟨v, hv⟩ := omMem_iff_exists.mp (hcov p hpm)
  rw [hv, hspec _ _ hv]

theorem mapM_option_total {α β : Type} {f : α → Option β} :
    ∀ {l : List α}, (∀ p ∈ l, ∃ q, f p = some q) → ∃ r, l.mapM f = some r := by
  intro l
  induction l with
  | nil => intro _; exact ⟨[], rfl⟩
  | cons a t ih =>
    intro h
    obtain ⟨q, hq⟩ := h a (by simp)
    obtain ⟨r, hr⟩ := ih (fun p hp => h p (by simp [hp]))
    exact ⟨q :: r, by rw [List.mapM_cons, hq, hr]; rfl⟩

theorem bind_total {α β : Type} {x : Option α} {g : α → Option β}
    (hx : ∃ a, x = some a) (hg : ∀ a, ∃ b, g a = some b) :
    ∃ b, x.bind g = some b := by
  obtain ⟨a, rfl⟩ := hx
  obtain ⟨b, hb⟩ := hg a
  exact ⟨b, by simpa using hb⟩

/-- The snapshot build succeeds whenever every method descriptor remaps. -/
theorem snapshot_total {b : MappingsBuilder}
    (hp : ∀ p ∈ b.methodNames, ∃ d, remapDescriptor b.classes p.1.signature = some d) :
    ∃ S, b.snapshot = some S := by
  obtain ⟨sigs, hsig, hcov⟩ := computeSignatures_total hp
  unfold MappingsBuilder.snapshot
  rw [hsig]
  simp only [Option.bind_eq_bind, Option.some_bind]
  refine bind_total (mapM_option_total ?_) (fun r => ⟨_, rfl⟩)
  intro p hpm
  obtain ⟨d, hd⟩ := hp p hpm
  have hg : omGet sigs p.1.signature = some d := by rw [hcov p hpm, hd]
  refine ⟨(p.1, MethodKey.mk (classApply b.classes p.1.cls) p.2 d), ?_⟩
  simp [hg]

theorem foldl_omInsert_pairs {α β γ : Type} [DecidableEq γ] (K : α → γ) (V : α → β)
    (l : List α) (hnd : (l.map K).Nodup) :
    l.foldl (fun acc p => omInsert acc (K p) (V p)) [] =
      l.map (fun p => (K p, V p)) := by
  have h1 : l.foldl (fun acc p => omInsert acc (K p) (V p)) ([] : List (γ × β)) =
      (l.map (fun p => (K p, V p))).foldl (fun acc q => omInsert acc q.1 q.2) [] := by
    rw [List.foldl_map]
  rw [h1, foldl_omInsert_self (l.map (fun p => (K p, V p))) []
    (by simpa [List.map_map, Function.comp] using hnd)]
  simp

/-- The value `MappingsBuilder::reverse` computes when every method descriptor
remaps and the swapped keys of the three tables are distinct: each table is
rebuilt entrywise with original and renamed sides exchanged (classes of
members remapped forward, method descriptors remapped forward). -/
theorem reverse_char (b : MappingsBuilder)
    (hp : ∀ p ∈ b.methodNames, ∃ d, remapDescriptor b.classes p.1.signature = some d)
    (hfnd : (b.fieldNames.map
      (fun p => FieldKey.mk (classApply b.classes p.1.cls) p.2)).Nodup)
    (hmnd : (b.methodNames.map
      (fun p => MethodKey.mk (classApply b.classes p.1.cls) p.2
        ((remapDescriptor b.classes p.1.signature).getD []))).Nodup)
    (hcnd : (b.classes.map Prod.snd).Nodup) :
    b.reverse = some
      ⟨b.fieldNames.map
        (fun p => (FieldKey.mk (classApply b.classes p.1.cls) p.2, p.1.name)),
       b.methodNames.map
        (fun p => (MethodKey.mk (classApply b.classes p.1.cls) p.2
          ((remapDescriptor b.classes p.1.signature).getD []), p.1.name)),
       b.classes.map (fun p => (p.2, p.1))⟩ := by
  obtain ⟨sigs, hsig, hcov⟩ := computeSignatures_total hp
  have key : b.reverse = (computeSignatures b).bind (fun sigs =>
      (List.foldlM (fun acc p => (omGet sigs p.1.signature).bind (fun newSig =>
          some (omInsert acc
            (MethodKey.mk (classApply b.classes p.1.cls) p.2 newSig) p.1.name)))
        [] b.methodNames).bind (fun methodNames =>
        some ⟨List.foldl (fun acc p =>
                omInsert acc (FieldKey.mk (classApply b.classes p.1.cls) p.2) p.1.name)
              [] b.fieldNames,
              methodNames,
              List.foldl (fun acc p => omInsert acc p.2 p.1) [] b.classes⟩)) := rfl
  rw [key, hsig]
  simp only [Option.bind_eq_bind, Option.some_bind]
  have hstep : ∀ p ∈ b.methodNames, ∀ (acc : List (MethodKey × Str)),
      (omGet sigs p.1.signature).bind (fun newSig =>
        some (omInsert acc
          (MethodKey.mk (classApply b.classes p.1.cls) p.2 newSig) p.1.name))
      = some (omInsert acc
          (MethodKey.mk (classApply b.classes p.1.cls) p.2
            ((omGet sigs p.1.signature).getD [])) p.1.name) := by
    intro p hpm acc
    obtain ⟨d, hd⟩ := hp p hpm
    have hg : omGet sigs p.1.signature = some d := by rw [hcov p hpm, hd]
    rw [hg]
    rfl
  rw [foldlM_option_congr hstep []]
  have hKmapEq : b.methodNames.map
      (fun p => MethodKey.mk (classApply b.classes p.1.cls) p.2
        ((omGet sigs p.1.signature).getD [])) =
      b.methodNames.map
      (fun p => MethodKey.mk (classApply b.classes p.1.cls) p.2
        ((remapDescriptor b.classes p.1.signature).getD [])) :=
    List.map_congr_left (fun p hpm => by rw [hcov p hpm])
  have hMfold : List.foldl (fun acc p =>
      omInsert acc (MethodKey.mk (classApply b.classes p.1.cls) p.2
        ((omGet sigs p.1.signature).getD [])) p.1.name) [] b.methodNames =
      b.methodNames.map (fun p =>
        (MethodKey.mk (classApply b.classes p.1.cls) p.2
          ((omGet sigs p.1.signature).getD []), p.1.name)) :=
    foldl_omInsert_pairs _ _ b.methodNames (by rw [hKmapEq]; exact hmnd)
  have hMmapEq : b.methodNames.map (fun p =>
      (MethodKey.mk (classApply b.classes p.1.cls) p.2
        ((omGet sigs p.1.signature).getD []), p.1.name)) =
      b.methodNames.map (fun p =>
      (MethodKey.mk (classApply b.classes p.1.cls) p.2
        ((remapDescriptor b.classes p.1.signature).getD []), p.1.name)) :=
    List.map_congr_left (fun p hpm => by rw [hcov p hpm])
  have hFfold : List.foldl (fun acc p =>
      omInsert acc (FieldKey.mk (classApply b.classes p.1.cls) p.2) p.1.name)
      [] b.fieldNames =
      b.fieldNames.map
        (fun p => (FieldKey.mk (classApply b.classes p.1.cls) p.2, p.1.name)) :=
    foldl_omInsert_pairs _ _ b.fieldNames hfnd
  have hCfold : List.foldl (fun acc p => omInsert acc p.2 p.1) [] b.classes =
      b.classes.map (fun p => (p.2, p.1)) :=
    foldl_omInsert_pairs _ _ b.classes hcnd
  rw [hMfold, hMmapEq]
  simp only [Option.some_bind]
  rw [hFfold, hCfold]

/-! ### Claim C6 -/

/-- A store whose class table renames both `a` and `b` to `c`. -/
def c6S : MappingsBuilder := ⟨[], [], [([97], [99]), ([98], [99])]⟩

/-- C6 counterexample: the class table `[a → c, b → c]` is not injective, so
its reverse collapses to `[c → b]` and reversing twice yields `[b → c]`,
losing the entry for `a` — `reverse(reverse(S)) ≠ S`. -/
theorem C6_counterexample_reverse_twice :
    c6S.reverse.bind MappingsBuilder.reverse = some ⟨[], [], [([98], [99])]⟩ ∧
    (⟨[], [], [([98], [99])]⟩ : MappingsBuilder) ≠ c6S := by
  refine ⟨by rfl, by decide⟩

/-- C6 (amended): `reverse(reverse(S)) = S` holds when the renaming is
genuinely invertible: the class table's two sides are duplicate-free, the
member tables' original keys and reversed keys are duplicate-free, every
method descriptor parses, the forward images of its class names are clean,
and pushing a class of `S` forward through `S.classes` and back through the
swapped table is the identity.  Without these side conditions the fold over
`OrderMap::insert` collapses colliding reversed keys, as the counterexample
shows. -/
theorem C6_reverse_involution (S : MappingsBuilder)
    (hck : (S.classes.map Prod.fst).Nodup)
    (hcv : (S.classes.map Prod.snd).Nodup)
    (hfko : (S.fieldNames.map Prod.fst).Nodup)
    (hmko : (S.methodNames.map Prod.fst).Nodup)
    (hfnd : (S.fieldNames.map
      (fun p => FieldKey.mk (classApply S.classes p.1.cls) p.2)).Nodup)
    (hmnd : (S.methodNames.map
      (fun p => MethodKey.mk (classApply S.classes p.1.cls) p.2
        ((remapDescriptor S.classes p.1.signature).getD []))).Nodup)
    (hparse : ∀ p ∈ S.methodNames, ∃ q,
      parseMethodSignature p.1.signature = Except.ok q)
    (hclean : ∀ p ∈ S.methodNames, ∀ q,
      parseMethodSignature p.1.signature = Except.ok q →
      ∀ c ∈ q.classNames, cleanStr (classApply S.classes c) = true)
    (hinvF : ∀ p ∈ S.fieldNames,
      classApply (S.classes.map (fun p => (p.2, p.1)))
        (classApply S.classes p.1.cls) = p.1.cls)
    (hinvM : ∀ p ∈ S.methodNames,
      classApply (S.classes.map (fun p => (p.2, p.1)))
        (classApply S.classes p.1.cls) = p.1.cls)
    (hinvD : ∀ p ∈ S.methodNames, ∀ q,
      parseMethodSignature p.1.signature = Except.ok q →
      ∀ c ∈ q.classNames,
        classApply (S.classes.map (fun p => (p.2, p.1)))
          (classApply S.classes c) = c) :
    S.reverse.bind MappingsBuilder.reverse = some S := by
  have hp1 : ∀ p ∈ S.methodNames, ∃ d,
      remapDescriptor S.classes p.1.signature = some d := by
    intro p hpm
    obtain ⟨q, hq⟩ := hparse p hpm
    exact ⟨_, remapDescriptor_eq hq⟩
  rw [reverse_char S hp1 hfnd hmnd hcv]
  simp only [Option.bind_eq_bind, Option.some_bind]
  have hp2 : ∀ p' ∈ S.methodNames.map
      (fun p => (MethodKey.mk (classApply S.classes p.1.cls) p.2
        ((remapDescriptor S.classes p.1.signature).getD []), p.1.name)), ∃ d,
      remapDescriptor (S.classes.map (fun p => (p.2, p.1))) p'.1.signature
        = some d := by
    intro p' hp'
    rcases List.mem_map.mp hp' with ⟨p, hpm, rfl⟩
    obtain ⟨q, hq⟩ := hparse p hpm
    show ∃ d, remapDescriptor (S.classes.map (fun p => (p.2, p.1)))
      ((remapDescriptor S.classes p.1.signature).getD []) = some d
    rw [remapDescriptor_eq hq]
    simp only [Option.getD_some]
    exact ⟨_, (remapDescriptor_comp hq (hclean p hpm q hq) (hinvD p hpm q hq)).2⟩
  have hfnd2 : ((S.fieldNames.map
      (fun p => (FieldKey.mk (classApply S.classes p.1.cls) p.2, p.1.name))).map
      (fun p => FieldKey.mk
        (classApply (S.classes.map (fun p => (p.2, p.1))) p.1.cls) p.2)).Nodup := by
    have he : (S.fieldNames.map
        (fun p => (FieldKey.mk (classApply S.classes p.1.cls) p.2, p.1.name))).map
        (fun p => FieldKey.mk
          (classApply (S.classes.map (fun p => (p.2, p.1))) p.1.cls) p.2) =
        S.fieldNames.map Prod.fst := by
      rw [List.map_map]
      refine List.map_congr_left (fun p hp => ?_)
      show FieldKey.mk (classApply (S.classes.map (fun p => (p.2, p.1)))
        (classApply S.classes p.1.cls)) p.1.name = p.1
      rw [hinvF p hp]
    rw [he]
    exact hfko
  have hmnd2 : ((S.methodNames.map
      (fun p => (MethodKey.mk (classApply S.classes p.1.cls) p.2
        ((remapDescriptor S.classes p.1.signature).getD []), p.1.name))).map
      (fun p => MethodKey.mk
        (classApply (S.classes.map (fun p => (p.2, p.1))) p.1.cls) p.2
        ((remapDescriptor (S.classes.map (fun p => (p.2, p.1)))
          p.1.signature).getD []))).Nodup := by
    have he : (S.methodNames.map
        (fun p => (MethodKey.mk (classApply S.classes p.1.cls) p.2
          ((remapDescriptor S.classes p.1.signature).getD []), p.1.name))).map
        (fun p => MethodKey.mk
          (classApply (S.classes.map (fun p => (p.2, p.1))) p.1.cls) p.2
          ((remapDescriptor (S.classes.map (fun p => (p.2, p.1)))
            p.1.signature).getD [])) =
        S.methodNames.map Prod.fst := by
      rw [List.map_map]
      refine List.map_congr_left (fun p hp => ?_)
      obtain ⟨q, hq⟩ := hparse p hp
      show MethodKey.mk (classApply (S.classes.map (fun p => (p.2, p.1)))
          (classApply S.classes p.1.cls)) p.1.name
          ((remapDescriptor (S.classes.map (fun p => (p.2, p.1)))
            ((remapDescriptor S.classes p.1.signature).getD [])).getD []) = p.1
      rw [remapDescriptor_eq hq]
      simp only [Option.getD_some]
      rw [(remapDescriptor_comp hq (hclean p hp q hq) (hinvD p hp q hq)).2]
      simp only [Option.getD_some]
      rw [hinvM p hp]
    rw [he]
    exact hmko
  have hcnd2 : ((S.classes.map (fun p => (p.2, p.1))).map Prod.snd).Nodup := by
    have he : (S.classes.map (fun p => (p.2, p.1))).map Prod.snd =
        S.classes.map Prod.fst := by
      rw [List.map_map]
      exact List.map_congr_left (fun p hp => rfl)
    rw [he]
    exact hck
  have hrev2 := reverse_char
    ⟨S.fieldNames.map
      (fun p => (FieldKey.mk (classApply S.classes p.1.cls) p.2, p.1.name)),
     S.methodNames.map
      (fun p => (MethodKey.mk (classApply S.classes p.1.cls) p.2
        ((remapDescriptor S.classes p.1.signature).getD []), p.1.name)),
     S.classes.map (fun p => (p.2, p.1))⟩ hp2 hfnd2 hmnd2 hcnd2
  rw [hrev2]
  have hf3 : (S.fieldNames.map
      (fun p => (FieldKey.mk (classApply S.classes p.1.cls) p.2, p.1.name))).map
      (fun p => (FieldKey.mk
        (classApply (S.classes.map (fun p => (p.2, p.1))) p.1.cls) p.2,
        p.1.name)) = S.fieldNames := by
    rw [List.map_map]
    refine ((List.map_congr_left (fun p hp => ?_)).trans (List.map_id S.fieldNames))
    show ((FieldKey.mk (classApply (S.classes.map (fun p => (p.2, p.1)))
      (classApply S.classes p.1.cls)) p.1.name, p.2) : FieldKey × Str) = id p
    rw [hinvF p hp]
    rfl
  have hm3 : (S.methodNames.map
      (fun p => (MethodKey.mk (classApply S.classes p.1.cls) p.2
        ((remapDescriptor S.classes p.1.signature).getD []), p.1.name))).map
      (fun p => (MethodKey.mk
        (classApply (S.classes.map (fun p => (p.2, p.1))) p.1.cls) p.2
        ((remapDescriptor (S.classes.map (fun p => (p.2, p.1)))
          p.1.signature).getD []), p.1.name)) = S.methodNames := by
    rw [List.map_map]
    refine ((List.map_congr_left (fun p hp => ?_)).trans (List.map_id S.methodNames))
    obtain ⟨q, hq⟩ := hparse p hp
    show ((MethodKey.mk (classApply (S.classes.map (fun p => (p.2, p.1)))
      (classApply S.classes p.1.cls)) p.1.name
      ((remapDescriptor (S.classes.map (fun p => (p.2, p.1)))
        ((remapDescriptor S.classes p.1.signature).getD [])).getD []),
      p.2) : MethodKey × Str) = id p
    rw [remapDescriptor_eq hq]
    simp only [Option.getD_some]
    rw [(remapDescriptor_comp hq (hclean p hp q hq) (hinvD p hp q hq)).2]
    simp only [Option.getD_some]
    rw [hinvM p hp]
    rfl
  have hc3 : (S.classes.map (fun p => (p.2, p.1))).map (fun p => (p.2, p.1)) =
      S.classes := by
    rw [List.map_map]
    exact ((List.map_congr_left (fun p hp => rfl)).trans (List.map_id S.classes))
  have hfinal : (⟨(S.fieldNames.map
      (fun p => (FieldKey.mk (classApply S.classes p.1.cls) p.2, p.1.name))).map
      (fun p => (FieldKey.mk
        (classApply (S.classes.map (fun p => (p.2, p.1))) p.1.cls) p.2,
        p.1.name)),
     (S.methodNames.map
      (fun p => (MethodKey.mk (classApply S.classes p.1.cls) p.2
        ((remapDescriptor S.classes p.1.signature).getD []), p.1.name))).map
      (fun p => (MethodKey.mk
        (classApply (S.classes.map (fun p => (p.2, p.1))) p.1.cls) p.2
        ((remapDescriptor (S.classes.map (fun p => (p.2, p.1)))
          p.1.signature).getD []), p.1.name)),
     (S.classes.map (fun p => (p.2, p.1))).map (fun p => (p.2, p.1))⟩ :
      MappingsBuilder) = S := by
    rw [hf3, hm3, hc3]
  exact congrArg some hfinal

/-- A store with an involutive class table `a ↔ b`, a field `a.f → g` and a
method `a.m()V → n`. -/
def c6W : MappingsBuilder :=
  ⟨[(⟨[97], [102]⟩, [103])], [(⟨[97], [109], [40, 41, 86]⟩, [110])],
   [([97], [98]), ([98], [97])]⟩

theorem C6_reverse_involution_witness :
    c6W.reverse.bind MappingsBuilder.reverse = some c6W := by
  refine C6_reverse_involution c6W (by decide) (by decide) (by decide) (by decide)
    (by decide) (by decide) ?_ ?_ (by decide) (by decide) ?_
  · intro p hp
    simp only [c6W, List.mem_singleton] at hp
    subst hp
    exact ⟨_, rfl⟩
  · intro p hp q hq c hc
    simp only [c6W, List.mem_singleton] at hp
    subst hp
    have hv : parseMethodSignature ([40, 41, 86] : Str) =
        Except.ok ⟨[], JavaType.primitive PrimitiveType.void⟩ := rfl
    rw [hv] at hq
    cases hq
    simp [ParsedSig.classNames, JavaType.classNames] at hc
  · intro p hp q hq c hc
    simp only [c6W, List.mem_singleton] at hp
    subst hp
    have hv : parseMethodSignature ([40, 41, 86] : Str) =
        Except.ok ⟨[], JavaType.primitive PrimitiveType.void⟩ := rfl
    rw [hv] at hq
    cases hq
    simp [ParsedSig.classNames, JavaType.classNames] at hc

/-! ### Claim C7 -/

/-- The descriptor `(La;)V` as bytes. -/
def c7Sig : Str := strBytes "(La;)V"

/-- A store with one method `a.m(La;)V → n` and the class mapping `a → b`. -/
def c7S : MappingsBuilder := ⟨[], [(⟨[97], [109], c7Sig⟩, [110])], [([97], [98])]⟩

/-- C7 counterexample: `chain(empty, c7S)` returns `c7S` itself — the method
key's descriptor stays `(La;)V` — while remapping that descriptor through
`c7S.classes` yields the different descriptor `(Lb;)V`.  So the chained
store's descriptors are NOT remapped through `S.classes` as claimed: the
reverse snapshot that `chain` consults is built from `self` (here the empty
builder), whose class table is empty, so descriptors pass through
unchanged. -/
theorem C7_counterexample_chain_empty_no_remap :
    emptyBuilder.chain c7S = some c7S ∧
    remapDescriptor c7S.classes c7Sig = some (strBytes "(Lb;)V") ∧
    strBytes "(Lb;)V" ≠ c7Sig := by
  refine ⟨by rfl, by rfl, by decide⟩

/-- A store with a field `a.f → g`, a method `a.m()V → n` and the class
mapping `a → b`. -/
def c7W : MappingsBuilder :=
  ⟨[(⟨[97], [102]⟩, [103])], [(⟨[97], [109], [40, 41, 86]⟩, [110])], [([97], [98])]⟩

/-- The reverse of `c7W`: `b.g → f`, `b.n()V → m`, `b → a`. -/
def c7WRb : MappingsBuilder :=
  ⟨[(⟨[98], [103]⟩, [102])], [(⟨[98], [110], [40, 41, 86]⟩, [109])], [([98], [97])]⟩

/-- The snapshot of `c7WRb`. -/
def c7WRev : MappingsSnapshot :=
  ⟨[(⟨[98], [103]⟩, ⟨[97], [102]⟩)],
   [(⟨[98], [110], [40, 41, 86]⟩, ⟨[97], [109], [40, 41, 86]⟩)],
   [([98], [97])]⟩

/-- C7 (amended): `chain(S, empty) = S` whenever the intermediate reverse
snapshot succeeds (it panics otherwise), and `chain(empty, S) = S` whenever
`S`'s tables have distinct keys and its method descriptors parse — the
result's classes and members come from `S`, but its descriptors are NOT
remapped through `S.classes`: they pass through unchanged, because the
reverse snapshot consulted by `chain` belongs to the left argument. -/
theorem C7_chain_identity (S Rb : MappingsBuilder) (Rev : MappingsSnapshot)
    (hrev : S.reverse = some Rb) (hsnap : Rb.snapshot = some Rev)
    (hndc : (S.classes.map Prod.fst).Nodup)
    (hndf : (S.fieldNames.map Prod.fst).Nodup)
    (hndm : (S.methodNames.map Prod.fst).Nodup)
    (hparse : ∀ p ∈ S.methodNames, ∃ q,
      parseMethodSignature p.1.signature = Except.ok q) :
    S.chain emptyBuilder = some S ∧ emptyBuilder.chain S = some S := by
  constructor
  · unfold MappingsBuilder.chain
    rw [hrev]
    simp only [Option.bind_eq_bind, Option.some_bind]
    rw [hsnap]
    rfl
  · have key : MappingsBuilder.chain emptyBuilder S =
        (S.methodNames.foldlM
          (fun acc p => (MappingsSnapshot.getMethod ⟨[], [], []⟩ p.1).bind
            (fun original => some (omInsert acc original p.2)))
          []).bind
          (fun m => some
            ⟨S.fieldNames.foldl
              (fun acc p => omInsert acc (MappingsSnapshot.getField ⟨[], [], []⟩ p.1) p.2) [],
             m,
             S.classes.foldl
              (fun acc p =>
                omInsert acc ((MappingsSnapshot.tryGetClass ⟨[], [], []⟩ p.1).getD p.1) p.2)
              []⟩) := rfl
    rw [key]
    have hstep : ∀ p ∈ S.methodNames, ∀ (a : List (MethodKey × Str)),
        (MappingsSnapshot.getMethod ⟨[], [], []⟩ p.1).bind
          (fun original => some (omInsert a original p.2))
          = some (omInsert a p.1 p.2) := by
      intro p hp a
      obtain ⟨q, hq⟩ := hparse p hp
      have hget : MappingsSnapshot.getMethod ⟨[], [], []⟩ p.1 = some p.1 := by
        show (remapDescriptor [] p.1.signature).map
          (fun d => MethodKey.mk (classApply [] p.1.cls) p.1.name d) = some p.1
        rw [remapDescriptor_nil hq]
        rfl
      rw [hget]
      rfl
    rw [foldlM_option_congr hstep []]
    have hM : S.methodNames.foldl (fun acc p => omInsert acc p.1 p.2)
        ([] : List (MethodKey × Str)) = S.methodNames := by
      rw [foldl_omInsert_self S.methodNames [] (by simpa using hndm)]
      simp
    have hF : S.fieldNames.foldl
        (fun acc p => omInsert acc (MappingsSnapshot.getField ⟨[], [], []⟩ p.1) p.2)
        ([] : List (FieldKey × Str)) = S.fieldNames := by
      rw [List.foldl_ext
        (fun acc p => omInsert acc (MappingsSnapshot.getField ⟨[], [], []⟩ p.1) p.2)
        (fun acc p => omInsert acc p.1 p.2) ([] : List (FieldKey × Str))
        (l := S.fieldNames) (fun a p hp => rfl)]
      rw [foldl_omInsert_self S.fieldNames [] (by simpa using hndf)]
      simp
    have hC : S.classes.foldl
        (fun acc p =>
          omInsert acc ((MappingsSnapshot.tryGetClass ⟨[], [], []⟩ p.1).getD p.1) p.2)
        ([] : List (Str × Str)) = S.classes := by
      rw [List.foldl_ext
        (fun acc p =>
          omInsert acc ((MappingsSnapshot.tryGetClass ⟨[], [], []⟩ p.1).getD p.1) p.2)
        (fun acc p => omInsert acc p.1 p.2) ([] : List (Str × Str))
        (l := S.classes) (fun a p hp => rfl)]
      rw [foldl_omInsert_self S.classes [] (by simpa using hndc)]
      simp
    rw [hM]
    simp only [Option.bind_eq_bind, Option.some_bind]
    rw [hF, hC]

theorem C7_chain_identity_witness :
    c7W.chain emptyBuilder = some c7W ∧ emptyBuilder.chain c7W = some c7W := by
  refine C7_chain_identity c7W c7WRb c7WRev rfl rfl (by decide) (by decide) (by decide) ?_
  intro p hp
  simp only [c7W, List.mem_singleton] at hp
  subst hp
  exact ⟨_, rfl⟩

/-! ### Claim C3 -/

theorem readU16_writeU16 (n : Nat) (h : n < 2 ^ 16) (r : Str) :
    readU16 (writeU16 n ++ r) = some (n, r) := by
  show some (n / 256 % 256 * 256 + n % 256, r) = some (n, r)
  have he : n / 256 % 256 * 256 + n % 256 = n := by omega
  rw [he]

theorem readU32_writeU32 (n : Nat) (h : n < 2 ^ 32) (r : Str) :
    readU32 (writeU32 n ++ r) = some (n, r) := by
  show some (n / 2 ^ 24 % 256 * 2 ^ 24 + n / 2 ^ 16 % 256 * 2 ^ 16
    + n / 2 ^ 8 % 256 * 2 ^ 8 + n % 256, r) = some (n, r)
  have he : n / 2 ^ 24 % 256 * 2 ^ 24 + n / 2 ^ 16 % 256 * 2 ^ 16
      + n / 2 ^ 8 % 256 * 2 ^ 8 + n % 256 = n := by omega
  rw [he]

theorem readU64_writeU64 (n : Nat) (h : n < 2 ^ 64) (r : Str) :
    readU64 (writeU64 n ++ r) = some (n, r) := by
  show some (n / 2 ^ 56 % 256 * 2 ^ 56 + n / 2 ^ 48 % 256 * 2 ^ 48
    + n / 2 ^ 40 % 256 * 2 ^ 40 + n / 2 ^ 32 % 256 * 2 ^ 32
    + n / 2 ^ 24 % 256 * 2 ^ 24 + n / 2 ^ 16 % 256 * 2 ^ 16
    + n / 2 ^ 8 % 256 * 2 ^ 8 + n % 256, r) = some (n, r)
  have he : n / 2 ^ 56 % 256 * 2 ^ 56 + n / 2 ^ 48 % 256 * 2 ^ 48
      + n / 2 ^ 40 % 256 * 2 ^ 40 + n / 2 ^ 32 % 256 * 2 ^ 32
      + n / 2 ^ 24 % 256 * 2 ^ 24 + n / 2 ^ 16 % 256 * 2 ^ 16
      + n / 2 ^ 8 % 256 * 2 ^ 8 + n % 256 = n := by omega
  rw [he]

theorem writeStr16_eq {s : Str} (h : s.length < 2 ^ 16) :
    writeStr16 s = some (writeU16 s.length ++ s) := by
  rw [writeStr16, if_pos h]

theorem readStr16_writeStr16 {s : Str} (h : s.length < 2 ^ 16) (r : Str) :
    readStr16 (writeU16 s.length ++ s ++ r) = some (s, r) := by
  rw [readStr16, List.append_assoc, readU16_writeU16 s.length h (s ++ r)]
  show (if s.length ≤ (s ++ r).length
    then some ((s ++ r).take s.length, (s ++ r).drop s.length) else none) = some (s, r)
  rw [if_pos (by simp)]
  rw [List.take_left s r, List.drop_left s r]

/-- Decoding the encoding of a list of name-changed field records appends
exactly those records (with the enclosing class) to the builder. -/
theorem decodeFields_enc (cls : Str) :
    ∀ (fs : List (FieldKey × FieldKey)) (b : MappingsBuilder) (rest : Str)
      (es : List Str),
      (∀ q ∈ fs, q.1.name ≠ [] ∧ q.2.name ≠ [] ∧ q.1.name ≠ q.2.name ∧
        q.1.name.length < 2 ^ 16 ∧ q.2.name.length < 2 ^ 16) →
      fs.mapM encodeFieldEntry = some es →
      decodeFields cls fs.length b (es.flatten ++ rest) =
        .ok (fs.foldl
          (fun t q => t.insertField (FieldKey.mk cls q.1.name) q.2.name) b, rest) := by
  intro fs
  induction fs with
  | nil =>
    intro b rest es _ hm
    rw [List.mapM_nil] at hm
    have hes : es = [] := by simpa using hm.symm
    subst hes
    rfl
  | cons q t ih =>
    intro b rest es hv hm
    obtain ⟨h1, h2, h3, h4, h5⟩ := hv q (by simp)
    have he1 : encodeFieldEntry q = some
        ((writeU16 q.1.name.length ++ q.1.name)
          ++ (writeU16 q.2.name.length ++ q.2.name)) := by
      show (writeStr16 q.1.name).bind
        (fun a => (writeStr16 q.2.name).bind (fun c => some (a ++ c))) = _
      rw [writeStr16_eq h4, writeStr16_eq h5]
      rfl
    rw [List.mapM_cons] at hm
    simp only [Option.bind_eq_bind, he1, Option.some_bind] at hm
    rcases hmt : t.mapM encodeFieldEntry with _ | es'
    · rw [hmt] at hm
      simp at hm
    · rw [hmt] at hm
      simp only [Option.some_bind, Option.pure_def] at hm
      cases hm
      have hflat : (((writeU16 q.1.name.length ++ q.1.name)
          ++ (writeU16 q.2.name.length ++ q.2.name)) :: es').flatten ++ rest
          = writeU16 q.1.name.length ++ q.1.name
            ++ (writeU16 q.2.name.length ++ q.2.name ++ (es'.flatten ++ rest)) := by
        simp [List.append_assoc]
      show decodeFields cls (t.length + 1) b _ = _
      rw [hflat]
      simp only [decodeFields,
        readStr16_writeStr16 h4 (writeU16 q.2.name.length ++ q.2.name
          ++ (es'.flatten ++ rest)),
        readStr16_writeStr16 h5 (es'.flatten ++ rest), h1, h2, h3,
        ite_false, ite_true, if_neg, not_false_eq_true]
      exact ih (b.insertField (FieldKey.mk cls q.1.name) q.2.name) rest es'
        (fun p hp => hv p (by simp [hp])) hmt

/-- Decoding the encoding of a list of name-changed method records appends
exactly those records (with the enclosing class and original signature) to
the builder. -/
theorem decodeMethods_enc (cls : Str) :
    ∀ (ms : List (MethodKey × MethodKey)) (b : MappingsBuilder) (rest : Str)
      (es : List Str),
      (∀ q ∈ ms, q.1.name ≠ [] ∧ q.2.name ≠ [] ∧ q.1.name ≠ q.2.name ∧
        q.1.name.length < 2 ^ 16 ∧ q.2.name.length < 2 ^ 16 ∧
        q.1.signature.length < 2 ^ 16 ∧
        (∃ ps, parseMethodSignature q.1.signature = Except.ok ps)) →
      ms.mapM encodeMethodEntry = some es →
      decodeMethods cls ms.length b (es.flatten ++ rest) =
        .ok (ms.foldl
          (fun t q => t.insertMethod
            (MethodKey.mk cls q.1.name q.1.signature) q.2.name) b, rest) := by
  intro ms
  induction ms with
  | nil =>
    intro b rest es _ hm
    rw [List.mapM_nil] at hm
    have hes : es = [] := by simpa using hm.symm
    subst hes
    rfl
  | cons q t ih =>
    intro b rest es hv hm
    obtain ⟨h1, h2, h3, h4, h5, h6, ps, hps⟩ := hv q (by simp)
    have he1 : encodeMethodEntry q = some
        ((writeU16 q.1.name.length ++ q.1.name)
          ++ ((writeU16 q.2.name.length ++ q.2.name)
          ++ ((writeU16 q.1.signature.length ++ q.1.signature)
          ++ (writeU16 (0 : Nat) ++ ([] : Str))))) := by
      show (writeStr16 q.1.name).bind
        (fun a => (writeStr16 q.2.name).bind
        (fun c => (writeStr16 q.1.signature).bind
        (fun d => (writeStr16 []).bind
        (fun e => some (a ++ c ++ d ++ e))))) = _
      rw [writeStr16_eq h4, writeStr16_eq h5, writeStr16_eq h6,
        writeStr16_eq (by decide : ([] : Str).length < 2 ^ 16)]
      simp [List.append_assoc]
    rw [List.mapM_cons] at hm
    simp only [Option.bind_eq_bind, he1, Option.some_bind] at hm
    rcases hmt : t.mapM encodeMethodEntry with _ | es'
    · rw [hmt] at hm
      simp at hm
    · rw [hmt] at hm
      simp only [Option.some_bind, Option.pure_def] at hm
      cases hm
      have hflat : (((writeU16 q.1.name.length ++ q.1.name)
          ++ ((writeU16 q.2.name.length ++ q.2.name)
          ++ ((writeU16 q.1.signature.length ++ q.1.signature)
          ++ (writeU16 (0 : Nat) ++ ([] : Str))))) :: es').flatten ++ rest
          = writeU16 q.1.name.length ++ q.1.name
            ++ (writeU16 q.2.name.length ++ q.2.name
            ++ (writeU16 q.1.signature.length ++ q.1.signature
            ++ (writeU16 ([] : Str).length ++ ([] : Str)
            ++ (es'.flatten ++ rest)))) := by
        simp [List.append_assoc]
      show decodeMethods cls (t.length + 1) b _ = _
      rw [hflat]
      have hrn : (if q.2.name = [] then q.1.name else q.2.name) = q.2.name :=
        if_neg h2
      simp only [decodeMethods,
        readStr16_writeStr16 h4 (writeU16 q.2.name.length ++ q.2.name
          ++ (writeU16 q.1.signature.length ++ q.1.signature
          ++ (writeU16 ([] : Str).length ++ ([] : Str) ++ (es'.flatten ++ rest)))),
        readStr16_writeStr16 h5 (writeU16 q.1.signature.length ++ q.1.signature
          ++ (writeU16 ([] : Str).length ++ ([] : Str) ++ (es'.flatten ++ rest))),
        readStr16_writeStr16 h6 (writeU16 ([] : Str).length ++ ([] : Str)
          ++ (es'.flatten ++ rest)),
        readStr16_writeStr16 (by decide : ([] : Str).length < 2 ^ 16)
          (es'.flatten ++ rest),
        hps, hrn, h1, h3, ite_false, ite_true, if_neg, not_false_eq_true,
        ne_eq, not_true_eq_false, decide_not]
      have hrec := ih (b.insertMethod (MethodKey.mk cls q.1.name q.1.signature)
        q.2.name) rest es' (fun p hp => hv p (by simp [hp])) hmt
      simp only [List.nil_append] at hrec ⊢
      simp [h1, h3, hrec]

/-- Decoding the encoding of a list of class records replays, per record, the
conditional class insertion, the method insertions and the field
insertions. -/
theorem decodeClasses_enc :
    ∀ (known : List (Str × ClassData)) (b : MappingsBuilder) (rest : Str)
      (cs : List Str),
      (∀ r ∈ known, r.1 ≠ [] ∧ r.1.length < 2 ^ 16 ∧
        (r.2.renamed.getD []).length < 2 ^ 16 ∧
        r.2.methods.length < 2 ^ 32 ∧ r.2.fields.length < 2 ^ 32 ∧
        (∀ q ∈ r.2.methods, q.1.name ≠ [] ∧ q.2.name ≠ [] ∧
          q.1.name ≠ q.2.name ∧
          q.1.name.length < 2 ^ 16 ∧ q.2.name.length < 2 ^ 16 ∧
          q.1.signature.length < 2 ^ 16 ∧
          (∃ ps, parseMethodSignature q.1.signature = Except.ok ps)) ∧
        (∀ q ∈ r.2.fields, q.1.name ≠ [] ∧ q.2.name ≠ [] ∧
          q.1.name ≠ q.2.name ∧
          q.1.name.length < 2 ^ 16 ∧ q.2.name.length < 2 ^ 16)) →
      known.mapM encodeClassEntry = some cs →
      decodeClasses known.length b (cs.flatten ++ rest) =
        .ok (known.foldl
          (fun t r =>
            r.2.fields.foldl
              (fun u q => u.insertField (FieldKey.mk r.1 q.1.name) q.2.name)
              (r.2.methods.foldl
                (fun u q => u.insertMethod
                  (MethodKey.mk r.1 q.1.name q.1.signature) q.2.name)
                (if (if r.2.renamed.getD [] = [] then r.1 else r.2.renamed.getD [])
                    ≠ r.1
                  then t.insertClass r.1
                    (if r.2.renamed.getD [] = [] then r.1
                      else r.2.renamed.getD [])
                  else t)))
          b, rest) := by
  intro known
  induction known with
  | nil =>
    intro b rest cs _ hm
    rw [List.mapM_nil] at hm
    have hcs : cs = [] := by simpa using hm.symm
    subst hcs
    rfl
  | cons r t ih =>
    intro b rest cs hv hm
    obtain ⟨h1, h2, h3, h4, h5, h6, h7⟩ := hv r (by simp)
    rcases hms : r.2.methods.mapM encodeMethodEntry with _ | msv
    · exfalso
      obtain ⟨msv, hmsv⟩ := mapM_option_total (f := encodeMethodEntry)
        (fun q hq => by
        obtain ⟨g1, g2, g3, g4, g5, g6, ps, hps⟩ := h6 q hq
        refine ⟨(writeU16 q.1.name.length ++ q.1.name)
          ++ ((writeU16 q.2.name.length ++ q.2.name)
          ++ ((writeU16 q.1.signature.length ++ q.1.signature)
          ++ (writeU16 (0 : Nat) ++ ([] : Str)))), ?_⟩
        show (writeStr16 q.1.name).bind
          (fun a => (writeStr16 q.2.name).bind
          (fun c => (writeStr16 q.1.signature).bind
          (fun d => (writeStr16 []).bind
          (fun e => some (a ++ c ++ d ++ e))))) = _
        rw [writeStr16_eq g4, writeStr16_eq g5, writeStr16_eq g6,
          writeStr16_eq (by decide : ([] : Str).length < 2 ^ 16)]
        simp [List.append_assoc])
      rw [hms] at hmsv
      simp at hmsv
    rcases hfs : r.2.fields.mapM encodeFieldEntry with _ | fsv
    · exfalso
      obtain ⟨fsv, hfsv⟩ := mapM_option_total (f := encodeFieldEntry)
        (fun q hq => by
        obtain ⟨g1, g2, g3, g4, g5⟩ := h7 q hq
        refine ⟨(writeU16 q.1.name.length ++ q.1.name)
          ++ (writeU16 q.2.name.length ++ q.2.name), ?_⟩
        show (writeStr16 q.1.name).bind
          (fun a => (writeStr16 q.2.name).bind (fun c => some (a ++ c))) = _
        rw [writeStr16_eq g4, writeStr16_eq g5]
        rfl)
      rw [hfs] at hfsv
      simp at hfsv
    have he : encodeClassEntry r = some
        (writeU16 r.1.length ++ r.1
          ++ ((writeU16 (r.2.renamed.getD []).length ++ r.2.renamed.getD [])
          ++ (writeU32 r.2.methods.length
          ++ (msv.flatten
          ++ (writeU32 r.2.fields.length ++ fsv.flatten))))) := by
      show (writeStr16 r.1).bind
        (fun a => (writeStr16 (r.2.renamed.getD [])).bind
        (fun c =>
          if r.2.methods.length < 2 ^ 32 then
            if r.2.fields.length < 2 ^ 32 then
              (r.2.methods.mapM encodeMethodEntry).bind
                (fun ms => (r.2.fields.mapM encodeFieldEntry).bind
                  (fun fs => some (a ++ c ++ writeU32 r.2.methods.length
                    ++ ms.flatten ++ writeU32 r.2.fields.length ++ fs.flatten)))
            else none
          else none)) = _
      rw [writeStr16_eq h2, writeStr16_eq h3]
      simp only [Option.some_bind, if_pos h4, if_pos h5, hms, hfs]
      simp [List.append_assoc]
    rw [List.mapM_cons] at hm
    simp only [Option.bind_eq_bind, he, Option.some_bind] at hm
    rcases hmt : t.mapM encodeClassEntry with _ | cs'
    · rw [hmt] at hm
      simp at hm
    · rw [hmt] at hm
      simp only [Option.some_bind, Option.pure_def] at hm
      cases hm
      have hflat : ((writeU16 r.1.length ++ r.1
          ++ ((writeU16 (r.2.renamed.getD []).length ++ r.2.renamed.getD [])
          ++ (writeU32 r.2.methods.length
          ++ (msv.flatten
          ++ (writeU32 r.2.fields.length ++ fsv.flatten))))) :: cs').flatten
            ++ rest
          = writeU16 r.1.length ++ r.1
            ++ (writeU16 (r.2.renamed.getD []).length ++ r.2.renamed.getD []
            ++ (writeU32 r.2.methods.length
            ++ (msv.flatten
            ++ (writeU32 r.2.fields.length
            ++ (fsv.flatten ++ (cs'.flatten ++ rest)))))) := by
        simp [List.append_assoc]
      show decodeClasses (t.length + 1) b _ = _
      rw [hflat]
      have hdm := decodeMethods_enc r.1 r.2.methods
        (if (if r.2.renamed.getD [] = [] then r.1 else r.2.renamed.getD []) ≠ r.1
          then b.insertClass r.1
            (if r.2.renamed.getD [] = [] then r.1 else r.2.renamed.getD [])
          else b)
        (writeU32 r.2.fields.length ++ (fsv.flatten ++ (cs'.flatten ++ rest)))
        msv h6 hms
      have hdf := decodeFields_enc r.1 r.2.fields
        (r.2.methods.foldl
          (fun u q => u.insertMethod
            (MethodKey.mk r.1 q.1.name q.1.signature) q.2.name)
          (if (if r.2.renamed.getD [] = [] then r.1 else r.2.renamed.getD [])
              ≠ r.1
            then b.insertClass r.1
              (if r.2.renamed.getD [] = [] then r.1 else r.2.renamed.getD [])
            else b))
        (cs'.flatten ++ rest) fsv h7 hfs
      simp only [decodeClasses,
        readStr16_writeStr16 h2 (writeU16 (r.2.renamed.getD []).length
          ++ r.2.renamed.getD []
          ++ (writeU32 r.2.methods.length
          ++ (msv.flatten
          ++ (writeU32 r.2.fields.length
          ++ (fsv.flatten ++ (cs'.flatten ++ rest)))))),
        readStr16_writeStr16 h3 (writeU32 r.2.methods.length
          ++ (msv.flatten
          ++ (writeU32 r.2.fields.length
          ++ (fsv.flatten ++ (cs'.flatten ++ rest))))),
        readU32_writeU32 r.2.methods.length h4 (msv.flatten
          ++ (writeU32 r.2.fields.length
          ++ (fsv.flatten ++ (cs'.flatten ++ rest)))),
        h1, ite_false, ite_true, if_neg, not_false_eq_true,
        hdm,
        readU32_writeU32 r.2.fields.length h5
          (fsv.flatten ++ (cs'.flatten ++ rest)),
        hdf]
      exact ih _ rest cs' (fun p hp => hv p (by simp [hp])) hmt

theorem fold_insertField_split {γ : Type} (A : γ → FieldKey) (V : γ → Str) :
    ∀ (l : List γ) (t : MappingsBuilder),
      l.foldl (fun u q => u.insertField (A q) (V q)) t =
        ⟨l.foldl (fun u q => omInsert u (A q) (V q)) t.fieldNames,
         t.methodNames, t.classes⟩ := by
  intro l
  induction l with
  | nil => intro t; rfl
  | cons q l ih =>
    intro t
    rw [List.foldl_cons, List.foldl_cons, ih]
    rfl

theorem fold_insertMethod_split {γ : Type} (A : γ → MethodKey) (V : γ → Str) :
    ∀ (l : List γ) (t : MappingsBuilder),
      l.foldl (fun u q => u.insertMethod (A q) (V q)) t =
        ⟨t.fieldNames,
         l.foldl (fun u q => omInsert u (A q) (V q)) t.methodNames, t.classes⟩ := by
  intro l
  induction l with
  | nil => intro t; rfl
  | cons q l ih =>
    intro t
    rw [List.foldl_cons, List.foldl_cons, ih]
    rfl

/-- The builder produced by replaying the decoded class records splits into
three independent folds, one per table. -/
theorem recFold_split :
    ∀ (known : List (Str × ClassData)) (b : MappingsBuilder),
      known.foldl
        (fun t r =>
          r.2.fields.foldl
            (fun u q => u.insertField (FieldKey.mk r.1 q.1.name) q.2.name)
            (r.2.methods.foldl
              (fun u q => u.insertMethod
                (MethodKey.mk r.1 q.1.name q.1.signature) q.2.name)
              (if (if r.2.renamed.getD [] = [] then r.1 else r.2.renamed.getD [])
                  ≠ r.1
                then t.insertClass r.1
                  (if r.2.renamed.getD [] = [] then r.1 else r.2.renamed.getD [])
                else t)))
        b =
      ⟨known.foldl
        (fun u r => r.2.fields.foldl
          (fun u q => omInsert u (FieldKey.mk r.1 q.1.name) q.2.name) u)
        b.fieldNames,
       known.foldl
        (fun u r => r.2.methods.foldl
          (fun u q => omInsert u (MethodKey.mk r.1 q.1.name q.1.signature) q.2.name)
          u)
        b.methodNames,
       known.foldl
        (fun u r =>
          if (if r.2.renamed.getD [] = [] then r.1 else r.2.renamed.getD []) ≠ r.1
            then omInsert u r.1
              (if r.2.renamed.getD [] = [] then r.1 else r.2.renamed.getD [])
            else u)
        b.classes⟩ := by
  intro known
  induction known with
  | nil => intro b; rfl
  | cons r t ih =>
    intro b
    rw [List.foldl_cons, ih]
    rw [fold_insertField_split, fold_insertMethod_split]
    by_cases hc :
      (if r.2.renamed.getD [] = [] then r.1 else r.2.renamed.getD []) ≠ r.1
    · simp only [if_pos hc, List.foldl_cons]
      rfl
    · simp only [if_neg hc, List.foldl_cons]

theorem fold_buckets_flatMap {ρ γ κ ν : Type} [DecidableEq κ]
    (E : ρ → List γ) (K : ρ → γ → κ) (V : ρ → γ → ν) :
    ∀ (l : List ρ) (init : List (κ × ν)),
      l.foldl (fun u r => (E r).foldl (fun u q => omInsert u (K r q) (V r q)) u)
        init =
      (l.flatMap (fun r => (E r).map (fun q => (K r q, V r q)))).foldl
        (fun u e => omInsert u e.1 e.2) init := by
  intro l
  induction l with
  | nil => intro init; rfl
  | cons r t ih =>
    intro init
    rw [List.foldl_cons, List.flatMap_cons, List.foldl_append, ih]
    have hin : ((E r).map (fun q => (K r q, V r q))).foldl
        (fun u e => omInsert u e.1 e.2) init =
        (E r).foldl (fun u q => omInsert u (K r q) (V r q)) init := by
      rw [List.foldl_map]
    rw [hin]

theorem encodeClassEntry_total (r : Str × ClassData)
    (h2 : r.1.length < 2 ^ 16) (h3 : (r.2.renamed.getD []).length < 2 ^ 16)
    (h4 : r.2.methods.length < 2 ^ 32) (h5 : r.2.fields.length < 2 ^ 32)
    (h6 : ∀ q ∈ r.2.methods, q.1.name.length < 2 ^ 16 ∧
      q.2.name.length < 2 ^ 16 ∧ q.1.signature.length < 2 ^ 16)
    (h7 : ∀ q ∈ r.2.fields, q.1.name.length < 2 ^ 16 ∧
      q.2.name.length < 2 ^ 16) :
    ∃ e, encodeClassEntry r = some e := by
  obtain ⟨msv, hms⟩ := mapM_option_total (f := encodeMethodEntry)
    (fun q hq => by
      obtain ⟨g4, g5, g6⟩ := h6 q hq
      refine ⟨(writeU16 q.1.name.length ++ q.1.name)
        ++ ((writeU16 q.2.name.length ++ q.2.name)
        ++ ((writeU16 q.1.signature.length ++ q.1.signature)
        ++ (writeU16 (0 : Nat) ++ ([] : Str)))), ?_⟩
      show (writeStr16 q.1.name).bind
        (fun a => (writeStr16 q.2.name).bind
        (fun c => (writeStr16 q.1.signature).bind
        (fun d => (writeStr16 []).bind
        (fun e => some (a ++ c ++ d ++ e))))) = _
      rw [writeStr16_eq g4, writeStr16_eq g5, writeStr16_eq g6,
        writeStr16_eq (by decide : ([] : Str).length < 2 ^ 16)]
      simp [List.append_assoc])
  obtain ⟨fsv, hfs⟩ := mapM_option_total (f := encodeFieldEntry)
    (fun q hq => by
      obtain ⟨g4, g5⟩ := h7 q hq
      refine ⟨(writeU16 q.1.name.length ++ q.1.name)
        ++ (writeU16 q.2.name.length ++ q.2.name), ?_⟩
      show (writeStr16 q.1.name).bind
        (fun a => (writeStr16 q.2.name).bind (fun c => some (a ++ c))) = _
      rw [writeStr16_eq g4, writeStr16_eq g5]
      rfl)
  have hE : encodeClassEntry r = some
      ((writeU16 r.1.length ++ r.1)
        ++ (writeU16 (r.2.renamed.getD []).length ++ r.2.renamed.getD [])
        ++ writeU32 r.2.methods.length ++ msv.flatten
        ++ writeU32 r.2.fields.length ++ fsv.flatten) := by
    show (writeStr16 r.1).bind
      (fun a => (writeStr16 (r.2.renamed.getD [])).bind
      (fun c =>
        if r.2.methods.length < 2 ^ 32 then
          if r.2.fields.length < 2 ^ 32 then
            (r.2.methods.mapM encodeMethodEntry).bind
              (fun ms => (r.2.fields.mapM encodeFieldEntry).bind
                (fun fs => some (a ++ c ++ writeU32 r.2.methods.length
                  ++ ms.flatten ++ writeU32 r.2.fields.length ++ fs.flatten)))
          else none
        else none)) = _
    rw [writeStr16_eq h2, writeStr16_eq h3]
    simp only [Option.some_bind, if_pos h4, if_pos h5, hms, hfs]
  exact ⟨_, hE⟩

theorem encodeBody_enc (S : MappingsSnapshot)
    (hv : ∀ r ∈ buildKnownClasses S, r.1.length < 2 ^ 16 ∧
      (r.2.renamed.getD []).length < 2 ^ 16 ∧
      r.2.methods.length < 2 ^ 32 ∧ r.2.fields.length < 2 ^ 32 ∧
      (∀ q ∈ r.2.methods, q.1.name.length < 2 ^ 16 ∧
        q.2.name.length < 2 ^ 16 ∧ q.1.signature.length < 2 ^ 16) ∧
      (∀ q ∈ r.2.fields, q.1.name.length < 2 ^ 16 ∧
        q.2.name.length < 2 ^ 16)) :
    ∃ cs, (buildKnownClasses S).mapM encodeClassEntry = some cs ∧
      encodeBody S = some
        (writeU64 (buildKnownClasses S).length ++ cs.flatten) := by
  obtain ⟨cs, hcs⟩ := mapM_option_total (f := encodeClassEntry)
    (fun r hr => by
      obtain ⟨h2, h3, h4, h5, h6, h7⟩ := hv r hr
      exact encodeClassEntry_total r h2 h3 h4 h5 h6 h7)
  refine ⟨cs, hcs, ?_⟩
  show ((buildKnownClasses S).mapM encodeClassEntry).bind
    (fun cs => some (writeU64 (buildKnownClasses S).length ++ cs.flatten)) = _
  rw [hcs]
  rfl

/-- Round trip of the whole payload: decoding the encoding of a snapshot
replays every class record onto the empty builder. -/
theorem decodeBody_enc (S : MappingsSnapshot)
    (hv : ∀ r ∈ buildKnownClasses S, r.1 ≠ [] ∧ r.1.length < 2 ^ 16 ∧
      (r.2.renamed.getD []).length < 2 ^ 16 ∧
      r.2.methods.length < 2 ^ 32 ∧ r.2.fields.length < 2 ^ 32 ∧
      (∀ q ∈ r.2.methods, q.1.name ≠ [] ∧ q.2.name ≠ [] ∧
        q.1.name ≠ q.2.name ∧
        q.1.name.length < 2 ^ 16 ∧ q.2.name.length < 2 ^ 16 ∧
        q.1.signature.length < 2 ^ 16 ∧
        (∃ ps, parseMethodSignature q.1.signature = Except.ok ps)) ∧
      (∀ q ∈ r.2.fields, q.1.name ≠ [] ∧ q.2.name ≠ [] ∧
        q.1.name ≠ q.2.name ∧
        q.1.name.length < 2 ^ 16 ∧ q.2.name.length < 2 ^ 16))
    (hlen : (buildKnownClasses S).length < 2 ^ 64) :
    ∃ bs, encodeBody S = some bs ∧
      decodeBody emptyBuilder bs = .ok
        ((buildKnownClasses S).foldl
          (fun t r =>
            r.2.fields.foldl
              (fun u q => u.insertField (FieldKey.mk r.1 q.1.name) q.2.name)
              (r.2.methods.foldl
                (fun u q => u.insertMethod
                  (MethodKey.mk r.1 q.1.name q.1.signature) q.2.name)
                (if (if r.2.renamed.getD [] = [] then r.1 else r.2.renamed.getD [])
                    ≠ r.1
                  then t.insertClass r.1
                    (if r.2.renamed.getD [] = [] then r.1
                      else r.2.renamed.getD [])
                  else t)))
          emptyBuilder) := by
  have hv' : ∀ r ∈ buildKnownClasses S, r.1.length < 2 ^ 16 ∧
      (r.2.renamed.getD []).length < 2 ^ 16 ∧
      r.2.methods.length < 2 ^ 32 ∧ r.2.fields.length < 2 ^ 32 ∧
      (∀ q ∈ r.2.methods, q.1.name.length < 2 ^ 16 ∧
        q.2.name.length < 2 ^ 16 ∧ q.1.signature.length < 2 ^ 16) ∧
      (∀ q ∈ r.2.fields, q.1.name.length < 2 ^ 16 ∧
        q.2.name.length < 2 ^ 16) := by
    intro r hr
    obtain ⟨h1, h2, h3, h4, h5, h6, h7⟩ := hv r hr
    exact ⟨h2, h3, h4, h5,
      fun q hq => by obtain ⟨g1, g2, g3, g4, g5, g6, g7⟩ := h6 q hq
                     exact ⟨g4, g5, g6⟩,
      fun q hq => by obtain ⟨g1, g2, g3, g4, g5⟩ := h7 q hq
                     exact ⟨g4, g5⟩⟩
  obtain ⟨cs, hcs, hbs⟩ := encodeBody_enc S hv'
  refine ⟨_, hbs, ?_⟩
  have hdc := decodeClasses_enc (buildKnownClasses S) emptyBuilder [] cs hv hcs
  rw [List.append_nil] at hdc
  simp only [decodeBody,
    readU64_writeU64 (buildKnownClasses S).length hlen cs.flatten, hdc]
  simp

theorem keys_map_inplace {α β : Type} [DecidableEq α] (m : List (α × β)) (k : α)
    (w : β → β) :
    (m.map (fun p => if p.1 = k then (p.1, w p.2) else p)).map Prod.fst
      = m.map Prod.fst := by
  rw [List.map_map]
  exact List.map_congr_left (fun p hp => by by_cases h : p.1 = k <;> simp [h])

theorem om_mem_decomp {α β : Type} [DecidableEq α] :
    ∀ {m : List (α × β)} {k : α}, (m.map Prod.fst).Nodup → omMem m k = true →
      ∃ A v B, m = A ++ (k, v) :: B ∧ k ∉ A.map Prod.fst ∧ k ∉ B.map Prod.fst ∧
        ∀ f : β → β, m.map (fun p => if p.1 = k then (p.1, f p.2) else p)
          = A ++ (k, f v) :: B := by
  intro m
  induction m with
  | nil => intro k _ hm; simp [omMem] at hm
  | cons p t ih =>
    intro k hnd hm
    by_cases hpk : p.1 = k
    · refine ⟨[], p.2, t, ?_, by simp, ?_, ?_⟩
      · simp [← hpk]
      · rw [List.map_cons] at hnd
        have := (List.nodup_cons.mp hnd).1
        rw [hpk] at this
        exact this
      · intro f
        rw [List.map_cons, if_pos hpk]
        have ht : t.map (fun p => if p.1 = k then (p.1, f p.2) else p) = t := by
          refine (List.map_congr_left (fun q hq => ?_)).trans (List.map_id t)
          have hqk : q.1 ≠ k := by
            intro hq1
            have := (List.nodup_cons.mp (List.map_cons Prod.fst p t ▸ hnd)).1
            rw [hpk] at this
            exact this (hq1 ▸ List.mem_map_of_mem Prod.fst hq)
          simp [hqk]
        rw [ht, hpk]
        rfl
    · have hmt : omMem t k = true := by
        unfold omMem at hm ⊢
        simp only [List.any_cons, Bool.or_eq_true] at hm
        rcases hm with hm | hm
        · exact absurd (by simpa using hm) hpk
        · exact hm
      obtain ⟨A, v, B, hdec, hA, hB, hmap⟩ :=
        ih ((List.nodup_cons.mp (List.map_cons Prod.fst p t ▸ hnd)).2) hmt
      refine ⟨p :: A, v, B, by rw [hdec]; rfl, ?_, hB, ?_⟩
      · simp only [List.map_cons, List.mem_cons]
        rintro (h | h)
        · exact hpk h.symm
        · exact hA h
      · intro f
        rw [List.map_cons, if_neg hpk, hmap f]
        rfl

theorem omEntryModify_keys {α β : Type} [DecidableEq α] (m : List (α × β))
    (k : α) (d : β) (f : β → β) :
    ((omEntryModify m k d f).map Prod.fst = m.map Prod.fst ∧ omMem m k = true) ∨
    ((omEntryModify m k d f).map Prod.fst = m.map Prod.fst ++ [k] ∧
      k ∉ m.map Prod.fst) := by
  unfold omEntryModify
  by_cases hm : omMem m k = true
  · left
    rw [if_pos hm]
    exact ⟨keys_map_inplace m k f, hm⟩
  · right
    rw [if_neg hm]
    refine ⟨by simp, ?_⟩
    intro hk
    exact hm (omMem_iff_keys.mpr hk)

theorem omEntryModify_keys_nodup {α β : Type} [DecidableEq α]
    {m : List (α × β)} {k : α} {d : β} {f : β → β}
    (hnd : (m.map Prod.fst).Nodup) :
    ((omEntryModify m k d f).map Prod.fst).Nodup := by
  rcases omEntryModify_keys m k d f with ⟨h, _⟩ | ⟨h, hk⟩
  · rw [h]; exact hnd
  · rw [h]
    rw [List.nodup_append]
    exact ⟨hnd, by simp, by intro a ha hac; simp at hac; exact hk (hac ▸ ha)⟩

/-- The effect of one `entry().or_insert_with().modify` step on the flattened
buckets, the class invariant and the keys. -/
theorem omEntryModify_step {γ : Type} (Ext : ClassData → List γ) (C : γ → Str)
    {m : List (Str × ClassData)} {k : Str} {f : ClassData → ClassData}
    {D : List γ}
    (hnd : (m.map Prod.fst).Nodup)
    (hf : ∀ cd, Ext (f cd) = Ext cd ++ D)
    (hdflt : Ext ClassData.dflt = [])
    (hD : ∀ q ∈ D, C q = k)
    (hcls : ∀ r ∈ m, ∀ q ∈ Ext r.2, C q = r.1) :
    ((omEntryModify m k ClassData.dflt f).flatMap (fun r => Ext r.2)).Perm
      ((m.flatMap (fun r => Ext r.2)) ++ D) ∧
    (∀ r ∈ omEntryModify m k ClassData.dflt f, ∀ q ∈ Ext r.2, C q = r.1) ∧
    (((omEntryModify m k ClassData.dflt f).map Prod.fst).Nodup) := by
  refine ⟨?_, ?_, omEntryModify_keys_nodup hnd⟩
  · unfold omEntryModify
    by_cases hm : omMem m k = true
    · rw [if_pos hm]
      obtain ⟨A, v, B, hdec, hA, hB, hmap⟩ := om_mem_decomp hnd hm
      rw [hmap f, hdec]
      simp only [List.flatMap_append, List.flatMap_cons, hf v]
      -- (FA ++ ((Ext v ++ D) ++ FB)).Perm (FA ++ (Ext v ++ FB) ++ D)
      have h1 : (Ext v ++ D) ++ B.flatMap (fun r => Ext r.2)
          |>.Perm (Ext v ++ (B.flatMap (fun r => Ext r.2) ++ D)) := by
        rw [List.append_assoc]
        exact (List.perm_append_comm.append_left (Ext v))
      calc A.flatMap (fun r => Ext r.2) ++ ((Ext v ++ D)
            ++ B.flatMap (fun r => Ext r.2))
          |>.Perm (A.flatMap (fun r => Ext r.2) ++ (Ext v
            ++ (B.flatMap (fun r => Ext r.2) ++ D))) :=
            h1.append_left (A.flatMap (fun r => Ext r.2))
        _ = A.flatMap (fun r => Ext r.2) ++ (Ext v
            ++ B.flatMap (fun r => Ext r.2)) ++ D := by
            simp [List.append_assoc]
    · rw [if_neg hm]
      simp [hf, hdflt]
  · unfold omEntryModify
    by_cases hm : omMem m k = true
    · rw [if_pos hm]
      obtain ⟨A, v, B, hdec, hA, hB, hmap⟩ := om_mem_decomp hnd hm
      rw [hmap f]
      intro r hr q hq
      rcases List.mem_append.mp hr with hr | hr
      · exact hcls r (by rw [hdec]; exact List.mem_append_left _ hr) q hq
      · rcases List.mem_cons.mp hr with rfl | hr
        · rcases List.mem_append.mp (by simpa [hf v] using hq) with h | h
          · exact hcls (k, v) (by rw [hdec]; simp) q h
          · exact hD q h
        · exact hcls r (by rw [hdec]; simp [hr]) q hq
    · rw [if_neg hm]
      intro r hr q hq
      rcases List.mem_append.mp hr with hr | hr
      · exact hcls r hr q hq
      · rcases List.mem_singleton.mp hr with rfl
        exact hD q (by simpa [hf, hdflt] using hq)

/-- Folding members into their class buckets: the flattened buckets gain, up
to reordering by class, exactly the members selected by `P`; every bucket
member carries the bucket's class; keys stay duplicate-free. -/
theorem entryModify_fold_perm {γ : Type} (C : γ → Str) (P : γ → Bool)
    (Ext : ClassData → List γ) (F : γ → ClassData → ClassData)
    (hne : ∀ a cd, P a = true → Ext (F a cd) = Ext cd ++ [a])
    (hid : ∀ a cd, P a = false → F a cd = cd)
    (hdflt : Ext ClassData.dflt = []) :
    ∀ (l : List γ) (acc : List (Str × ClassData)),
      (acc.map Prod.fst).Nodup →
      (∀ r ∈ acc, ∀ q ∈ Ext r.2, C q = r.1) →
      ((l.foldl (fun t a => omEntryModify t (C a) ClassData.dflt (F a))
          acc).flatMap (fun r => Ext r.2)).Perm
        ((acc.flatMap (fun r => Ext r.2)) ++ l.filter P) ∧
      (∀ r ∈ l.foldl (fun t a => omEntryModify t (C a) ClassData.dflt (F a)) acc,
        ∀ q ∈ Ext r.2, C q = r.1) ∧
      (((l.foldl (fun t a => omEntryModify t (C a) ClassData.dflt (F a))
          acc).map Prod.fst).Nodup) := by
  intro l
  induction l with
  | nil =>
    intro acc hnd hcls
    exact ⟨by simp, hcls, hnd⟩
  | cons a t ih =>
    intro acc hnd hcls
    by_cases hp : P a = true
    · have hstep := omEntryModify_step Ext C hnd (fun cd => hne a cd hp) hdflt
        (by intro q hq; rw [List.mem_singleton.mp hq]) hcls
      obtain ⟨hperm1, hcls1, hnd1⟩ := hstep
      obtain ⟨hperm2, hcls2, hnd2⟩ := ih _ hnd1 hcls1
      rw [List.foldl_cons]
      refine ⟨?_, hcls2, hnd2⟩
      refine hperm2.trans ?_
      rw [List.filter_cons, if_pos hp]
      refine (hperm1.append_right (t.filter P)).trans ?_
      rw [List.append_assoc]
      exact List.Perm.refl _
    · have hp' : P a = false := by simpa using hp
      have hf0 : ∀ cd, Ext (F a cd) = Ext cd ++ [] := by
        intro cd
        rw [hid a cd hp']
        simp
      have hstep := omEntryModify_step (k := C a) (D := ([] : List γ)) Ext C hnd
        hf0 hdflt (by intro q hq; simp at hq) hcls
      obtain ⟨hperm1, hcls1, hnd1⟩ := hstep
      obtain ⟨hperm2, hcls2, hnd2⟩ := ih _ hnd1 hcls1
      rw [List.foldl_cons]
      refine ⟨?_, hcls2, hnd2⟩
      refine hperm2.trans ?_
      rw [List.filter_cons, if_neg (by simp [hp'])]
      refine (hperm1.append_right (t.filter P)).trans ?_
      simp

theorem flatMap_congr_left {α β : Type} {l : List α} {f g : α → List β}
    (h : ∀ a ∈ l, f a = g a) : l.flatMap f = l.flatMap g := by
  induction l with
  | nil => rfl
  | cons a t ih =>
    simp only [List.flatMap_cons, h a (by simp),
      ih (fun b hb => h b (by simp [hb]))]

/-- A bucket fold whose update leaves an extraction untouched preserves the
flattened extraction and its per-bucket invariant. -/
theorem entryModify_fold_pres {γ δ : Type} (C : γ → Str)
    (Ext : ClassData → List δ) (G : Str → δ → Prop)
    (F : γ → ClassData → ClassData)
    (hF : ∀ a cd, Ext (F a cd) = Ext cd)
    (hdflt : Ext ClassData.dflt = []) :
    ∀ (l : List γ) (acc : List (Str × ClassData)),
      ((l.foldl (fun t a => omEntryModify t (C a) ClassData.dflt (F a))
          acc).flatMap (fun r => Ext r.2)
        = acc.flatMap (fun r => Ext r.2)) ∧
      ((∀ r ∈ acc, ∀ q ∈ Ext r.2, G r.1 q) →
        ∀ r ∈ l.foldl (fun t a => omEntryModify t (C a) ClassData.dflt (F a)) acc,
          ∀ q ∈ Ext r.2, G r.1 q) := by
  intro l
  induction l with
  | nil => intro acc; exact ⟨rfl, fun h => h⟩
  | cons a t ih =>
    intro acc
    have hstep1 : (omEntryModify acc (C a) ClassData.dflt (F a)).flatMap
        (fun r => Ext r.2) = acc.flatMap (fun r => Ext r.2) := by
      unfold omEntryModify
      by_cases hm : omMem acc (C a) = true
      · rw [if_pos hm, List.flatMap_map]
        exact flatMap_congr_left (fun p hp => by
          by_cases hpk : p.1 = C a <;> simp [hpk, hF])
      · rw [if_neg hm]
        simp [hF, hdflt]
    have hstep2 : (∀ r ∈ acc, ∀ q ∈ Ext r.2, G r.1 q) →
        ∀ r ∈ omEntryModify acc (C a) ClassData.dflt (F a),
          ∀ q ∈ Ext r.2, G r.1 q := by
      intro hG r hr q hq
      unfold omEntryModify at hr
      by_cases hm : omMem acc (C a) = true
      · rw [if_pos hm] at hr
        obtain ⟨p, hp, rfl⟩ := List.mem_map.mp hr
        by_cases hpk : p.1 = C a
        · rw [if_pos hpk] at hq ⊢
          exact hG p hp q (by simpa [hF] using hq)
        · rw [if_neg hpk] at hq ⊢
          exact hG p hp q hq
      · rw [if_neg hm] at hr
        rcases List.mem_append.mp hr with hr | hr
        · exact hG r hr q hq
        · rcases List.mem_singleton.mp hr with rfl
          exact absurd (show q ∈ ([] : List δ) from by simpa [hF, hdflt] using hq)
            (List.not_mem_nil q)
    rw [List.foldl_cons]
    refine ⟨(ih _).1.trans hstep1, fun hG => (ih _).2 (hstep2 hG)⟩

/-- A bucket fold whose update preserves the rename field preserves the
(key, rename) projection up to appended rename-free entries. -/
theorem entryModify_fold_proj {γ : Type} (C : γ → Str)
    (F : γ → ClassData → ClassData)
    (hF : ∀ a cd, (F a cd).renamed = cd.renamed) :
    ∀ (l : List γ) (acc : List (Str × ClassData)),
      ∃ X : List (Str × Option Str),
        (l.foldl (fun t a => omEntryModify t (C a) ClassData.dflt (F a)) acc).map
          (fun r => (r.1, r.2.renamed))
        = acc.map (fun r => (r.1, r.2.renamed)) ++ X ∧ ∀ e ∈ X, e.2 = none := by
  intro l
  induction l with
  | nil => intro acc; exact ⟨[], by simp, by simp⟩
  | cons a t ih =>
    intro acc
    have hstep : (omEntryModify acc (C a) ClassData.dflt (F a)).map
        (fun r => (r.1, r.2.renamed))
        = acc.map (fun r => (r.1, r.2.renamed)) ∨
        (omEntryModify acc (C a) ClassData.dflt (F a)).map
          (fun r => (r.1, r.2.renamed))
        = acc.map (fun r => (r.1, r.2.renamed)) ++ [(C a, none)] := by
      unfold omEntryModify
      by_cases hm : omMem acc (C a) = true
      · left
        rw [if_pos hm, List.map_map]
        exact List.map_congr_left (fun p hp => by
          by_cases hpk : p.1 = C a <;> simp [hpk, hF])
      · right
        rw [if_neg hm]
        simp [hF]
        rfl
    obtain ⟨X, hX, hXn⟩ := ih (omEntryModify acc (C a) ClassData.dflt (F a))
    rw [List.foldl_cons]
    rcases hstep with h | h
    · exact ⟨X, by rw [hX, h], hXn⟩
    · refine ⟨(C a, none) :: X, ?_, ?_⟩
      · rw [hX, h, List.append_assoc]
        rfl
      · intro e he
        rcases List.mem_cons.mp he with rfl | he
        · rfl
        · exact hXn e he

theorem foldl_ite_filter {α β : Type} (P : α → Prop) [DecidablePred P]
    (g : β → α → β) :
    ∀ (l : List α) (init : β),
      l.foldl (fun u p => if P p then g u p else u) init =
        (l.filter (fun p => decide (P p))).foldl g init := by
  intro l
  induction l with
  | nil => intro init; rfl
  | cons a t ih =>
    intro init
    rw [List.foldl_cons, List.filter_cons]
    by_cases hp : P a
    · rw [if_pos hp, if_pos (by simpa using hp), List.foldl_cons, ih]
    · rw [if_neg hp, if_neg (by simpa using hp), ih]

theorem foldl_id_of_mem {α β : Type} {f : β → α → β} :
    ∀ {l : List α}, (∀ u, ∀ e ∈ l, f u e = u) → ∀ (init : β),
      l.foldl f init = init := by
  intro l
  induction l with
  | nil => intro _ init; rfl
  | cons a t ih =>
    intro h init
    rw [List.foldl_cons, h init a (by simp)]
    exact ih (fun u e he => h u e (by simp [he])) init

/-- Characterization of the encoder's `known_classes` grouping: its
(class, rename) projection is the class table followed by rename-free
entries; its flattened method and field buckets are, up to the by-class
regrouping, exactly the name-changed members; every bucket member belongs to
the bucket's class. -/
theorem knownClasses_char (S : MappingsSnapshot)
    (hck : (S.classes.map Prod.fst).Nodup) :
    (∃ X : List (Str × Option Str),
      (buildKnownClasses S).map (fun r => (r.1, r.2.renamed))
        = S.classes.map (fun p => (p.1, some p.2)) ++ X ∧ ∀ e ∈ X, e.2 = none) ∧
    ((buildKnownClasses S).flatMap (fun r => r.2.methods)).Perm
      (S.methods.filter (fun q => decide ¬(q.1.name = q.2.name))) ∧
    ((buildKnownClasses S).flatMap (fun r => r.2.fields)).Perm
      (S.fields.filter (fun q => decide ¬(q.1.name = q.2.name))) ∧
    (∀ r ∈ buildKnownClasses S, ∀ q ∈ r.2.methods, q.1.cls = r.1) ∧
    (∀ r ∈ buildKnownClasses S, ∀ q ∈ r.2.fields, q.1.cls = r.1) := by
  have hk1 : S.classes.foldl
      (fun acc (p : Str × Str) => omInsert acc p.1 (⟨some p.2, [], []⟩ : ClassData))
      ([] : List (Str × ClassData))
      = S.classes.map (fun p => (p.1, (⟨some p.2, [], []⟩ : ClassData))) :=
    foldl_omInsert_pairs _ _ S.classes hck
  have hk1nodup : ((S.classes.foldl
      (fun acc (p : Str × Str) => omInsert acc p.1 (⟨some p.2, [], []⟩ : ClassData))
      ([] : List (Str × ClassData))).map Prod.fst).Nodup := by
    rw [hk1, List.map_map]
    have he : S.classes.map
        (Prod.fst ∘ fun p => (p.1, (⟨some p.2, [], []⟩ : ClassData)))
        = S.classes.map Prod.fst := List.map_congr_left (fun p hp => rfl)
    rw [he]
    exact hck
  have hk1bM : ∀ r ∈ S.classes.foldl
      (fun acc (p : Str × Str) => omInsert acc p.1 (⟨some p.2, [], []⟩ : ClassData))
      ([] : List (Str × ClassData)), r.2.methods = [] := by
    intro r hr
    rw [hk1] at hr
    obtain ⟨p, hp, rfl⟩ := List.mem_map.mp hr
    rfl
  have hk1bF : ∀ r ∈ S.classes.foldl
      (fun acc (p : Str × Str) => omInsert acc p.1 (⟨some p.2, [], []⟩ : ClassData))
      ([] : List (Str × ClassData)), r.2.fields = [] := by
    intro r hr
    rw [hk1] at hr
    obtain ⟨p, hp, rfl⟩ := List.mem_map.mp hr
    rfl
  have hk1clsF : ∀ r ∈ S.classes.foldl
      (fun acc (p : Str × Str) => omInsert acc p.1 (⟨some p.2, [], []⟩ : ClassData))
      ([] : List (Str × ClassData)), ∀ q ∈ r.2.fields, q.1.cls = r.1 := by
    intro r hr q hq
    rw [hk1bF r hr] at hq
    simp at hq
  obtain ⟨hPermF2, hclsF2, hnodup2⟩ := entryModify_fold_perm
    (fun (q : FieldKey × FieldKey) => q.1.cls)
    (fun (q : FieldKey × FieldKey) => decide ¬(q.1.name = q.2.name))
    (fun cd => cd.fields)
    (fun (p : FieldKey × FieldKey) cd => if p.1.name = p.2.name then cd
      else { cd with fields := cd.fields ++ [p] })
    (by intro a cd ha; simp [show ¬(a.1.name = a.2.name) from by simpa using ha])
    (by intro a cd ha; simp [show a.1.name = a.2.name from by simpa using ha])
    rfl S.fields
    (S.classes.foldl
      (fun acc (p : Str × Str) => omInsert acc p.1 (⟨some p.2, [], []⟩ : ClassData)) [])
    hk1nodup hk1clsF
  obtain ⟨hpresM2flat, hpresM2inv⟩ := entryModify_fold_pres
    (fun (q : FieldKey × FieldKey) => q.1.cls) (fun cd => cd.methods)
    (fun k (q : MethodKey × MethodKey) => q.1.cls = k)
    (fun (p : FieldKey × FieldKey) cd => if p.1.name = p.2.name then cd
      else { cd with fields := cd.fields ++ [p] })
    (by intro a cd; by_cases h : a.1.name = a.2.name <;> simp [h]) rfl
    S.fields
    (S.classes.foldl
      (fun acc (p : Str × Str) => omInsert acc p.1 (⟨some p.2, [], []⟩ : ClassData)) [])
  have hflatM1 : (S.classes.foldl
      (fun acc (p : Str × Str) => omInsert acc p.1 (⟨some p.2, [], []⟩ : ClassData))
      ([] : List (Str × ClassData))).flatMap (fun r => r.2.methods) = [] :=
    List.flatMap_eq_nil_iff.mpr (fun r hr => hk1bM r hr)
  have hflatF1 : (S.classes.foldl
      (fun acc (p : Str × Str) => omInsert acc p.1 (⟨some p.2, [], []⟩ : ClassData))
      ([] : List (Str × ClassData))).flatMap (fun r => r.2.fields) = [] :=
    List.flatMap_eq_nil_iff.mpr (fun r hr => hk1bF r hr)
  have hflatM2 : (S.fields.foldl
      (fun acc (p : FieldKey × FieldKey) => omEntryModify acc p.1.cls ClassData.dflt
        (fun cd => if p.1.name = p.2.name then cd
          else { cd with fields := cd.fields ++ [p] }))
      (S.classes.foldl
        (fun acc (p : Str × Str) => omInsert acc p.1 (⟨some p.2, [], []⟩ : ClassData))
        [])).flatMap (fun r => r.2.methods) = [] := by
    rw [show (S.fields.foldl
      (fun acc (p : FieldKey × FieldKey) => omEntryModify acc p.1.cls ClassData.dflt
        (fun cd => if p.1.name = p.2.name then cd
          else { cd with fields := cd.fields ++ [p] }))
      (S.classes.foldl
        (fun acc (p : Str × Str) => omInsert acc p.1 (⟨some p.2, [], []⟩ : ClassData))
        [])).flatMap (fun r => r.2.methods)
      = (S.classes.foldl
        (fun acc (p : Str × Str) => omInsert acc p.1 (⟨some p.2, [], []⟩ : ClassData))
        ([] : List (Str × ClassData))).flatMap (fun r => r.2.methods)
      from hpresM2flat]
    exact hflatM1
  have hbM2 : ∀ r ∈ S.fields.foldl
      (fun acc (p : FieldKey × FieldKey) => omEntryModify acc p.1.cls ClassData.dflt
        (fun cd => if p.1.name = p.2.name then cd
          else { cd with fields := cd.fields ++ [p] }))
      (S.classes.foldl
        (fun acc (p : Str × Str) => omInsert acc p.1 (⟨some p.2, [], []⟩ : ClassData))
        []), r.2.methods = [] := List.flatMap_eq_nil_iff.mp hflatM2
  have hclsM2 : ∀ r ∈ S.fields.foldl
      (fun acc (p : FieldKey × FieldKey) => omEntryModify acc p.1.cls ClassData.dflt
        (fun cd => if p.1.name = p.2.name then cd
          else { cd with fields := cd.fields ++ [p] }))
      (S.classes.foldl
        (fun acc (p : Str × Str) => omInsert acc p.1 (⟨some p.2, [], []⟩ : ClassData))
        []), ∀ q ∈ r.2.methods, q.1.cls = r.1 := by
    intro r hr q hq
    rw [hbM2 r hr] at hq
    simp at hq
  obtain ⟨hPermM3, hclsM3, hnodup3⟩ := entryModify_fold_perm
    (fun (q : MethodKey × MethodKey) => q.1.cls)
    (fun (q : MethodKey × MethodKey) => decide ¬(q.1.name = q.2.name))
    (fun cd => cd.methods)
    (fun (p : MethodKey × MethodKey) cd => if p.1.name = p.2.name then cd
      else { cd with methods := cd.methods ++ [p] })
    (by intro a cd ha; simp [show ¬(a.1.name = a.2.name) from by simpa using ha])
    (by intro a cd ha; simp [show a.1.name = a.2.name from by simpa using ha])
    rfl S.methods
    (S.fields.foldl
      (fun acc (p : FieldKey × FieldKey) => omEntryModify acc p.1.cls ClassData.dflt
        (fun cd => if p.1.name = p.2.name then cd
          else { cd with fields := cd.fields ++ [p] }))
      (S.classes.foldl
        (fun acc (p : Str × Str) => omInsert acc p.1 (⟨some p.2, [], []⟩ : ClassData)) []))
    hnodup2 hclsM2
  obtain ⟨hpresF3flat, hpresF3inv⟩ := entryModify_fold_pres
    (fun (q : MethodKey × MethodKey) => q.1.cls) (fun cd => cd.fields)
    (fun k (q : FieldKey × FieldKey) => q.1.cls = k)
    (fun (p : MethodKey × MethodKey) cd => if p.1.name = p.2.name then cd
      else { cd with methods := cd.methods ++ [p] })
    (by intro a cd; by_cases h : a.1.name = a.2.name <;> simp [h]) rfl
    S.methods
    (S.fields.foldl
      (fun acc (p : FieldKey × FieldKey) => omEntryModify acc p.1.cls ClassData.dflt
        (fun cd => if p.1.name = p.2.name then cd
          else { cd with fields := cd.fields ++ [p] }))
      (S.classes.foldl
        (fun acc (p : Str × Str) => omInsert acc p.1 (⟨some p.2, [], []⟩ : ClassData)) []))
  obtain ⟨X1, hX1, hX1n⟩ := entryModify_fold_proj
    (fun (q : FieldKey × FieldKey) => q.1.cls)
    (fun (p : FieldKey × FieldKey) cd => if p.1.name = p.2.name then cd
      else { cd with fields := cd.fields ++ [p] })
    (by intro a cd; by_cases h : a.1.name = a.2.name <;> simp [h])
    S.fields
    (S.classes.foldl
      (fun acc (p : Str × Str) => omInsert acc p.1 (⟨some p.2, [], []⟩ : ClassData)) [])
  obtain ⟨X2, hX2, hX2n⟩ := entryModify_fold_proj
    (fun (q : MethodKey × MethodKey) => q.1.cls)
    (fun (p : MethodKey × MethodKey) cd => if p.1.name = p.2.name then cd
      else { cd with methods := cd.methods ++ [p] })
    (by intro a cd; by_cases h : a.1.name = a.2.name <;> simp [h])
    S.methods
    (S.fields.foldl
      (fun acc (p : FieldKey × FieldKey) => omEntryModify acc p.1.cls ClassData.dflt
        (fun cd => if p.1.name = p.2.name then cd
          else { cd with fields := cd.fields ++ [p] }))
      (S.classes.foldl
        (fun acc (p : Str × Str) => omInsert acc p.1 (⟨some p.2, [], []⟩ : ClassData)) []))
  have hprojK1 : (S.classes.foldl
      (fun acc (p : Str × Str) => omInsert acc p.1 (⟨some p.2, [], []⟩ : ClassData))
      ([] : List (Str × ClassData))).map (fun r => (r.1, r.2.renamed))
      = S.classes.map (fun p => (p.1, some p.2)) := by
    rw [hk1, List.map_map]
    exact List.map_congr_left (fun p hp => rfl)
  refine ⟨⟨X1 ++ X2, ?_, ?_⟩, ?_, ?_, hclsM3, hpresF3inv hclsF2⟩
  · have h1 : (buildKnownClasses S).map (fun r => (r.1, r.2.renamed))
        = (S.fields.foldl
          (fun acc (p : FieldKey × FieldKey) => omEntryModify acc p.1.cls ClassData.dflt
            (fun cd => if p.1.name = p.2.name then cd
              else { cd with fields := cd.fields ++ [p] }))
          (S.classes.foldl
            (fun acc (p : Str × Str) => omInsert acc p.1 (⟨some p.2, [], []⟩ : ClassData))
            [])).map (fun r => (r.1, r.2.renamed)) ++ X2 := hX2
    rw [h1, hX1, hprojK1, List.append_assoc]
  · intro e he
    rcases List.mem_append.mp he with he | he
    · exact hX1n e he
    · exact hX2n e he
  · have h2 : ((buildKnownClasses S).flatMap (fun r => r.2.methods)).Perm
        ((S.fields.foldl
          (fun acc (p : FieldKey × FieldKey) => omEntryModify acc p.1.cls ClassData.dflt
            (fun cd => if p.1.name = p.2.name then cd
              else { cd with fields := cd.fields ++ [p] }))
          (S.classes.foldl
            (fun acc (p : Str × Str) => omInsert acc p.1 (⟨some p.2, [], []⟩ : ClassData))
            [])).flatMap (fun r => r.2.methods)
          ++ S.methods.filter (fun q => decide ¬(q.1.name = q.2.name))) :=
      hPermM3
    rw [hflatM2] at h2
    simpa using h2
  · have h3 : (buildKnownClasses S).flatMap (fun r => r.2.fields)
        = (S.fields.foldl
          (fun acc (p : FieldKey × FieldKey) => omEntryModify acc p.1.cls ClassData.dflt
            (fun cd => if p.1.name = p.2.name then cd
              else { cd with fields := cd.fields ++ [p] }))
          (S.classes.foldl
            (fun acc (p : Str × Str) => omInsert acc p.1 (⟨some p.2, [], []⟩ : ClassData))
            [])).flatMap (fun r => r.2.fields) := hpresF3flat
    rw [h3]
    have h4 := hPermF2
    rw [hflatF1] at h4
    simpa using h4

/-- The snapshot holding the single identity class entry `a → a`. -/
def c3S : MappingsSnapshot := ⟨[], [], [([97], [97])]⟩

/-- C3 counterexample: the identity class entry `a → a` is written by the
encoder but dropped by the decoder (an unchanged class is not inserted), so
the round trip of `c3S` is the empty store and the class tables differ — the
claim's equality only tolerates the absence of identity *members*, not of
identity class entries. -/
theorem C3_counterexample_identity_class_dropped :
    encodeBody c3S = some
      [0, 0, 0, 0, 0, 0, 0, 1, 0, 1, 97, 0, 1, 97, 0, 0, 0, 0, 0, 0, 0, 0] ∧
    decodeBody emptyBuilder
      [0, 0, 0, 0, 0, 0, 0, 1, 0, 1, 97, 0, 1, 97, 0, 0, 0, 0, 0, 0, 0, 0]
      = Except.ok emptyBuilder ∧
    emptyBuilder.classes ≠ c3S.classes := by
  refine ⟨by rfl, by rfl, by decide⟩

/-- C3 (amended): for a snapshot whose class table has duplicate-free keys
and nonempty renamed names, whose grouped records respect the format limits
(nonempty names, `u16`/`u32`/`u64` bounds, parseable descriptors), and whose
regrouped member keys are duplicate-free, the round trip holds in this
precise sense: the decoded class table equals the original *minus its
identity entries, in order*; the decoded method and field tables are the
name-changed members of the original, regrouped by class (a permutation),
with renamed names kept and method keys carrying the original descriptor.
Identity classes are dropped (the claim only allowed for dropped identity
members) and member order is only preserved up to the by-class
regrouping. -/
theorem C3_round_trip (S : MappingsSnapshot)
    (hck : (S.classes.map Prod.fst).Nodup)
    (hc2 : ∀ p ∈ S.classes, p.2 ≠ [])
    (hv : ∀ r ∈ buildKnownClasses S, r.1 ≠ [] ∧ r.1.length < 2 ^ 16 ∧
      (r.2.renamed.getD []).length < 2 ^ 16 ∧
      r.2.methods.length < 2 ^ 32 ∧ r.2.fields.length < 2 ^ 32 ∧
      (∀ q ∈ r.2.methods, q.1.name ≠ [] ∧ q.2.name ≠ [] ∧
        q.1.name ≠ q.2.name ∧
        q.1.name.length < 2 ^ 16 ∧ q.2.name.length < 2 ^ 16 ∧
        q.1.signature.length < 2 ^ 16 ∧
        (∃ ps, parseMethodSignature q.1.signature = Except.ok ps)) ∧
      (∀ q ∈ r.2.fields, q.1.name ≠ [] ∧ q.2.name ≠ [] ∧
        q.1.name ≠ q.2.name ∧
        q.1.name.length < 2 ^ 16 ∧ q.2.name.length < 2 ^ 16))
    (hlen : (buildKnownClasses S).length < 2 ^ 64)
    (hndM : (((buildKnownClasses S).flatMap (fun r => r.2.methods.map
        (fun q => (MethodKey.mk r.1 q.1.name q.1.signature, q.2.name)))).map
        Prod.fst).Nodup)
    (hndF : (((buildKnownClasses S).flatMap (fun r => r.2.fields.map
        (fun q => (FieldKey.mk r.1 q.1.name, q.2.name)))).map
        Prod.fst).Nodup) :
    ∃ bs B, encodeBody S = some bs ∧ decodeBody emptyBuilder bs = Except.ok B ∧
      B.classes = S.classes.filter (fun p => decide ¬(p.2 = p.1)) ∧
      B.methodNames.Perm ((S.methods.filter
        (fun q => decide ¬(q.1.name = q.2.name))).map
        (fun q => (q.1, q.2.name))) ∧
      B.fieldNames.Perm ((S.fields.filter
        (fun q => decide ¬(q.1.name = q.2.name))).map
        (fun q => (q.1, q.2.name))) := by
  obtain ⟨bs, hbs, hdec⟩ := decodeBody_enc S hv hlen
  rw [recFold_split] at hdec
  obtain ⟨⟨X, hproj, hXn⟩, hPermM, hPermF, hclsM, hclsF⟩ := knownClasses_char S hck
  refine ⟨bs, _, hbs, hdec, ?_, ?_, ?_⟩
  · -- classes table
    show (buildKnownClasses S).foldl
      (fun u r =>
        if (if r.2.renamed.getD [] = [] then r.1 else r.2.renamed.getD []) ≠ r.1
          then omInsert u r.1
            (if r.2.renamed.getD [] = [] then r.1 else r.2.renamed.getD [])
          else u)
      ([] : List (Str × Str)) = _
    have hconv : (buildKnownClasses S).foldl
        (fun u r =>
          if (if r.2.renamed.getD [] = [] then r.1 else r.2.renamed.getD [])
              ≠ r.1
            then omInsert u r.1
              (if r.2.renamed.getD [] = [] then r.1 else r.2.renamed.getD [])
            else u)
        ([] : List (Str × Str))
        = ((buildKnownClasses S).map (fun r => (r.1, r.2.renamed))).foldl
          (fun u pp =>
            if (if pp.2.getD [] = [] then pp.1 else pp.2.getD []) ≠ pp.1
              then omInsert u pp.1
                (if pp.2.getD [] = [] then pp.1 else pp.2.getD [])
              else u)
          [] := by
      rw [List.foldl_map]
    rw [hconv, hproj, List.foldl_append]
    have hX0 : ∀ (u : List (Str × Str)), ∀ e ∈ X,
        (if (if e.2.getD [] = [] then e.1 else e.2.getD []) ≠ e.1
          then omInsert u e.1 (if e.2.getD [] = [] then e.1 else e.2.getD [])
          else u) = u := by
      intro u e he
      rw [hXn e he]
      simp
    rw [foldl_id_of_mem hX0]
    have hpart1 : (S.classes.map (fun p => (p.1, some p.2))).foldl
        (fun u pp =>
          if (if pp.2.getD [] = [] then pp.1 else pp.2.getD []) ≠ pp.1
            then omInsert u pp.1
              (if pp.2.getD [] = [] then pp.1 else pp.2.getD [])
            else u)
        ([] : List (Str × Str))
        = S.classes.foldl
          (fun u p =>
            if (if p.2 = [] then p.1 else p.2) ≠ p.1
              then omInsert u p.1 (if p.2 = [] then p.1 else p.2)
              else u)
          [] := by
      rw [List.foldl_map]
      rfl
    rw [hpart1]
    rw [List.foldl_ext _
      (fun u (p : Str × Str) => if ¬(p.2 = p.1) then omInsert u p.1 p.2 else u)
      ([] : List (Str × Str))
      (fun u p hp => by rw [if_neg (hc2 p hp)])]
    have hfilt : S.classes.foldl
        (fun u (p : Str × Str) => if ¬(p.2 = p.1) then omInsert u p.1 p.2 else u)
        ([] : List (Str × Str))
        = (S.classes.filter (fun p => decide ¬(p.2 = p.1))).foldl
          (fun u p => omInsert u p.1 p.2) [] :=
      foldl_ite_filter _ _ S.classes []
    rw [hfilt]
    have hndfilt : ((S.classes.filter (fun p => decide ¬(p.2 = p.1))).map
        (fun p : Str × Str => p.1)).Nodup :=
      ((List.filter_sublist S.classes).map (fun p : Str × Str => p.1)).nodup hck
    rw [foldl_omInsert_pairs (fun p : Str × Str => p.1) (fun p => p.2)
      (S.classes.filter (fun p => decide ¬(p.2 = p.1))) hndfilt]
    exact (List.map_congr_left (fun p hp => rfl)).trans (List.map_id _)
  · -- method table: flatten the buckets, then the grouping permutation
    show (buildKnownClasses S).foldl
      (fun u r => r.2.methods.foldl
        (fun u q => omInsert u (MethodKey.mk r.1 q.1.name q.1.signature)
          q.2.name) u)
      ([] : List (MethodKey × Str)) |>.Perm _
    have hflat : (buildKnownClasses S).foldl
        (fun u r => r.2.methods.foldl
          (fun u q => omInsert u (MethodKey.mk r.1 q.1.name q.1.signature)
            q.2.name) u)
        ([] : List (MethodKey × Str))
        = ((buildKnownClasses S).flatMap (fun r => r.2.methods.map
          (fun q => (MethodKey.mk r.1 q.1.name q.1.signature, q.2.name)))).foldl
          (fun u e => omInsert u e.1 e.2) [] :=
      fold_buckets_flatMap _ _ _ (buildKnownClasses S) []
    rw [hflat, foldl_omInsert_self _ [] (by simpa using hndM)]
    have hLm : (buildKnownClasses S).flatMap (fun r => r.2.methods.map
        (fun q => (MethodKey.mk r.1 q.1.name q.1.signature, q.2.name)))
        = ((buildKnownClasses S).flatMap (fun r => r.2.methods)).map
          (fun q => (q.1, q.2.name)) := by
      rw [List.map_flatMap]
      exact flatMap_congr_left (fun r hr => List.map_congr_left (fun q hq => by
        rw [← hclsM r hr q hq]))
    rw [hLm]
    simpa using hPermM.map (fun q => (q.1, q.2.name))
  · -- field table
    show (buildKnownClasses S).foldl
      (fun u r => r.2.fields.foldl
        (fun u q => omInsert u (FieldKey.mk r.1 q.1.name) q.2.name) u)
      ([] : List (FieldKey × Str)) |>.Perm _
    have hflat : (buildKnownClasses S).foldl
        (fun u r => r.2.fields.foldl
          (fun u q => omInsert u (FieldKey.mk r.1 q.1.name) q.2.name) u)
        ([] : List (FieldKey × Str))
        = ((buildKnownClasses S).flatMap (fun r => r.2.fields.map
          (fun q => (FieldKey.mk r.1 q.1.name, q.2.name)))).foldl
          (fun u e => omInsert u e.1 e.2) [] :=
      fold_buckets_flatMap _ _ _ (buildKnownClasses S) []
    rw [hflat, foldl_omInsert_self _ [] (by simpa using hndF)]
    have hLf : (buildKnownClasses S).flatMap (fun r => r.2.fields.map
        (fun q => (FieldKey.mk r.1 q.1.name, q.2.name)))
        = ((buildKnownClasses S).flatMap (fun r => r.2.fields)).map
          (fun q => (q.1, q.2.name)) := by
      rw [List.map_flatMap]
      exact flatMap_congr_left (fun r hr => List.map_congr_left (fun q hq => by
        rw [← hclsF r hr q hq]))
    rw [hLf]
    simpa using hPermF.map (fun q => (q.1, q.2.name))

/-- A snapshot with a renamed class `a → b`, a name-changed method
`a.m(La;)V → b.n(Lb;)V` and an identity-name field `a.f → b.f`. -/
def c3W : MappingsSnapshot :=
  ⟨[(⟨[97], [102]⟩, ⟨[98], [102]⟩)],
   [(⟨[97], [109], strBytes "(La;)V"⟩, ⟨[98], [110], strBytes "(Lb;)V"⟩)],
   [([97], [98])]⟩

theorem C3_round_trip_witness :
    ∃ bs B, encodeBody c3W = some bs ∧
      decodeBody emptyBuilder bs = Except.ok B ∧
      B.classes = c3W.classes.filter (fun p => decide ¬(p.2 = p.1)) ∧
      B.methodNames.Perm ((c3W.methods.filter
        (fun q => decide ¬(q.1.name = q.2.name))).map
        (fun q => (q.1, q.2.name))) ∧
      B.fieldNames.Perm ((c3W.fields.filter
        (fun q => decide ¬(q.1.name = q.2.name))).map
        (fun q => (q.1, q.2.name))) := by
  refine C3_round_trip c3W (by decide) (by decide) ?_ (by decide) (by decide)
    (by decide)
  intro r hr
  have hbk : buildKnownClasses c3W =
      [([97], ⟨some [98], [],
        [(⟨[97], [109], [40, 76, 97, 59, 41, 86]⟩,
          ⟨[98], [110], [40, 76, 98, 59, 41, 86]⟩)]⟩)] := rfl
  rw [hbk, List.mem_singleton] at hr
  subst hr
  refine ⟨by decide, by decide, by decide, by decide, by decide, ?_, by decide⟩
  intro q hq
  rw [List.mem_singleton] at hq
  subst hq
  exact ⟨by decide, by decide, by decide, by decide, by decide, by decide,
    ⟨_, rfl⟩⟩

end SuperSrg
